import Mathlib

/-!
# obj-diff: a shallow embedding of the differ, the deep copier and the patch driver

The Go package `obj_diff` walks two values of the same runtime type in lock-step through
the `reflect` API and records the differences as a list of path-addressed changes
(`diff.go`), copies values deeply (`copy.go`), and replays a change set on a target through
a path navigator (`change_set.go`).

Embedding conventions.

* A Go type (`reflect.Type`) is a term of `Ty`; a Go value viewed through `reflect` is a
  term of `Val`, a finite tree.  Every `Val` carries enough type information for
  `Val.typeOf` to be computable, as `reflect.Value.Type()` is.  Types are compared
  structurally (a defined type is identified with its underlying type); slices and maps are
  represented by their contents (a nil slice or map and an empty one are the same tree);
  pointers are represented by their pointee, so that the tree has no sharing and no cycles.
* A `reflect.Value` that may be the zero Value (`IsValid() == false`) is a `Value`,
  that is `Option Val`, with `none` the zero Value.
* A `reflect` accessor that panics on the wrong kind returns `none`; the callers turn that
  into `Res.panicked`.  On legal values of the compared type no accessor panics
  (`doDiff_clean`).
* Mutation of the `*changeSet` is explicit state passing: every function that receives the
  pointer returns the updated change set together with the returned `error`.
* The path elements, `PatchError` and the path navigator are declared outside the three
  source files; they are modelled from the specification and marked as such.

The file has two parts: the definitions, then the lemmas and the theorems on the claims.
-/

namespace ObjDiff

/-! ## Kinds and types -/

/-- The enumeration `reflect.Kind`. -/
inductive Kind
  | Invalid | Bool
  | Int | Int8 | Int16 | Int32 | Int64
  | Uint | Uint8 | Uint16 | Uint32 | Uint64 | Uintptr
  | Float32 | Float64 | Complex64 | Complex128
  | Array | Chan | Func | Interface | Map | Ptr | Slice | String | Struct | UnsafePointer
  deriving DecidableEq, Repr

/-- A Go type as `reflect.Type` presents it.  `leaf k` is a type without element structure
(scalars, strings, channels, functions, interfaces, unsafe pointers). -/
inductive Ty
  | leaf (k : Kind)
  | struct (fields : List (String × Ty))
  | map (key elem : Ty)
  | array (len : Nat) (elem : Ty)
  | slice (elem : Ty)
  | ptr (elem : Ty)
  deriving Repr

/-- The method `reflect.Type.Kind()`. -/
def Ty.Kind : Ty → Kind
  | .leaf k => k
  | .struct _ => .Struct
  | .map _ _ => .Map
  | .array _ _ => .Array
  | .slice _ => .Slice
  | .ptr _ => .Ptr

mutual
/-- Boolean equality of types (the Go comparison `t1 == t2` on `reflect.Type`). -/
def Ty.beq : Ty → Ty → Bool
  | .leaf a, .leaf b => a == b
  | .struct fs, .struct gs => Ty.beqFields fs gs
  | .map a b, .map c d => Ty.beq a c && Ty.beq b d
  | .array n a, .array m b => n == m && Ty.beq a b
  | .slice a, .slice b => Ty.beq a b
  | .ptr a, .ptr b => Ty.beq a b
  | _, _ => false
/-- Boolean equality of field lists: same names and same types, in order. -/
def Ty.beqFields : List (String × Ty) → List (String × Ty) → Bool
  | [], [] => true
  | (n, a) :: fs, (m, b) :: gs => n == m && Ty.beq a b && Ty.beqFields fs gs
  | _, _ => false
end

/-! ## Values -/

/-- A Go value as seen through `reflect`.  Integers hold the result of `Int()` / `Uint()`,
floats the IEEE-754 binary64 bit pattern of `Float()`, complex numbers the two bit patterns
of `Complex()`.  `other` is a value of a kind this package does not look into (channel,
function, interface, unsafe pointer), with an identity tag.  A map lists its entries in
the order in which `MapKeys()` returns the keys. -/
inductive Val
  | bool (b : Bool)
  | int (k : Kind) (i : Int)
  | uint (k : Kind) (n : Nat)
  | float (k : Kind) (bits : Nat)
  | complex (k : Kind) (re im : Nat)
  | str (s : String)
  | other (k : Kind) (id : Nat)
  | struct (fields : List (String × Val))
  | map (kt et : Ty) (entries : List (Val × Val))
  | array (et : Ty) (elems : List Val)
  | slice (et : Ty) (elems : List Val)
  | ptr (et : Ty) (pointee : Option Val)
  deriving Repr

/-- A `reflect.Value`; `none` is the zero Value, for which `IsValid()` is false. -/
abbrev Value := Option Val

mutual
/-- The method `reflect.Value.Type()` on a valid value. -/
def Val.typeOf : Val → Ty
  | .bool _ => .leaf .Bool
  | .int k _ => .leaf k
  | .uint k _ => .leaf k
  | .float k _ => .leaf k
  | .complex k _ _ => .leaf k
  | .str _ => .leaf .String
  | .other k _ => .leaf k
  | .struct fs => .struct (Val.typeOfFields fs)
  | .map kt et _ => .map kt et
  | .array et es => .array es.length et
  | .slice et _ => .slice et
  | .ptr et _ => .ptr et
/-- The field list of a struct type, read off the fields of a struct value. -/
def Val.typeOfFields : List (String × Val) → List (String × Ty)
  | [] => []
  | (n, v) :: fs => (n, Val.typeOf v) :: Val.typeOfFields fs
end

/-! ### IEEE-754 comparison on bit patterns -/

/-- A binary64 bit pattern is a NaN: exponent all ones, mantissa non-zero. -/
def f64IsNaN (x : Nat) : Bool := (x / 2 ^ 52) % 2 ^ 11 == 2047 && x % 2 ^ 52 != 0

/-- A binary64 bit pattern is +0 or -0. -/
def f64IsZero (x : Nat) : Bool := x % 2 ^ 63 == 0

/-- The Go comparison `x == y` on two float64: false when either is a NaN, true for the
two zeros, otherwise equality of the bit patterns. -/
def f64Eq (x y : Nat) : Bool :=
  !f64IsNaN x && !f64IsNaN y && (x == y || (f64IsZero x && f64IsZero y))

mutual
/-- The Go comparison `==` on map keys: structural, except that floating-point parts are
compared as IEEE-754 numbers (a NaN equals nothing, itself included). -/
def Val.goEq : Val → Val → Bool
  | .bool a, v => match v with
    | .bool b => a == b
    | _ => false
  | .int k a, v => match v with
    | .int l b => k == l && a == b
    | _ => false
  | .uint k a, v => match v with
    | .uint l b => k == l && a == b
    | _ => false
  | .float k a, v => match v with
    | .float l b => k == l && f64Eq a b
    | _ => false
  | .complex k a b, v => match v with
    | .complex l c d => k == l && f64Eq a c && f64Eq b d
    | _ => false
  | .str a, v => match v with
    | .str b => a == b
    | _ => false
  | .other k a, v => match v with
    | .other l b => k == l && a == b
    | _ => false
  | .struct fs, v => match v with
    | .struct gs => Val.goEqFields fs gs
    | _ => false
  | .map kt et es, v => match v with
    | .map kt2 et2 es2 => Ty.beq kt kt2 && Ty.beq et et2 && Val.goEqEntries es es2
    | _ => false
  | .array t xs, v => match v with
    | .array u ys => Ty.beq t u && Val.goEqList xs ys
    | _ => false
  | .slice t xs, v => match v with
    | .slice u ys => Ty.beq t u && Val.goEqList xs ys
    | _ => false
  | .ptr t none, v => match v with
    | .ptr u none => Ty.beq t u
    | _ => false
  | .ptr t (some x), v => match v with
    | .ptr u (some y) => Ty.beq t u && Val.goEq x y
    | _ => false
termination_by structural a => a
/-- Field-wise `==` on struct fields. -/
def Val.goEqFields : List (String × Val) → List (String × Val) → Bool
  | [], [] => true
  | (n, a) :: fs, (m, b) :: gs => n == m && Val.goEq a b && Val.goEqFields fs gs
  | _, _ => false
termination_by structural a => a
/-- Element-wise `==` on sequences. -/
def Val.goEqList : List Val → List Val → Bool
  | [], [] => true
  | a :: xs, b :: ys => Val.goEq a b && Val.goEqList xs ys
  | _, _ => false
termination_by structural a => a
/-- Entry-wise `==` on entry lists. -/
def Val.goEqEntries : List (Val × Val) → List (Val × Val) → Bool
  | [], [] => true
  | (k, a) :: xs, (l, b) :: ys => Val.goEq k l && Val.goEq a b && Val.goEqEntries xs ys
  | _, _ => false
termination_by structural a => a
end

/-! ### The `reflect.Value` accessors used by the package

`none` as the outer result means that the Go method panics. -/

/-- The method `Field(f)`: the `f`-th field of a struct; panics on other kinds or when `f`
is out of range. -/
def Val.Field : Val → Nat → Option Val
  | .struct fs, f => (fs.get? f).map Prod.snd
  | _, _ => none

/-- The method `MapKeys()`: the keys of a map in iteration order; panics on other kinds. -/
def Val.MapKeys : Val → Option (List Val)
  | .map _ _ es => some (es.map Prod.fst)
  | _ => none

/-- Lookup of a key in an entry list with the Go key comparison. -/
def lookupKey (key : Val) : List (Val × Val) → Value
  | [] => none
  | (k, v) :: es => if Val.goEq k key then some v else lookupKey key es

/-- The method `MapIndex(key)`: the value stored under `key`, or the zero Value when the
key is absent; panics on other kinds. -/
def Val.MapIndex : Val → Val → Option Value
  | .map _ _ es, key => some (lookupKey key es)
  | _, _ => none

/-- The method `Len()` on arrays and slices (and maps); panics on other kinds. -/
def Val.Len : Val → Option Nat
  | .array _ es => some es.length
  | .slice _ es => some es.length
  | .map _ _ es => some es.length
  | _ => none

/-- The method `Index(i)` on arrays and slices; panics on other kinds or out of range. -/
def Val.Index : Val → Nat → Option Val
  | .array _ es, i => es.get? i
  | .slice _ es, i => es.get? i
  | _, _ => none

/-- The method `IsNil()` on pointers; panics on kinds that cannot be nil.  Slices and maps
are never asked by this package. -/
def Val.IsNil : Val → Option Bool
  | .ptr _ p => some p.isNone
  | _ => none

/-- The method `Elem()` on pointers: the pointee, or the zero Value for a nil pointer;
panics on other kinds. -/
def Val.Elem : Val → Option Value
  | .ptr _ p => some p
  | _ => none

/-- The method `String()` restricted to string values. -/
def Val.asString : Val → Option String
  | .str s => some s
  | _ => none

/-- The method `Int()`: the value widened to int64, for every signed integer kind. -/
def Val.asInt : Val → Option Int
  | .int _ i => some i
  | _ => none

/-- The method `Uint()`: the value widened to uint64, for every unsigned integer kind. -/
def Val.asUint : Val → Option Nat
  | .uint _ n => some n
  | _ => none

/-- The method `Float()`: the value widened to float64, as a bit pattern. -/
def Val.asFloat : Val → Option Nat
  | .float _ x => some x
  | _ => none

/-- The method `Complex()`: real and imaginary part as float64 bit patterns. -/
def Val.asComplex : Val → Option (Nat × Nat)
  | .complex _ re im => some (re, im)
  | _ => none

/-- The method `Bool()`. -/
def Val.asBool : Val → Option Bool
  | .bool b => some b
  | _ => none

/-! ## Paths, changes and the change set -/

/-- Modelled from the spec: the type `PathElement` and its constructors `NewNameElem`,
`NewKeyElem`, `NewIndexElem`, `NewPtrElem` are declared outside the three source files; a
path step is a field by position and name, a map key, a sequence index or an
indirection. -/
inductive PathElement
  | name (index : Nat) (name : String)
  | key (k : Val)
  | index (i : Nat)
  | ptr
  deriving Repr

/-- Modelled from the spec: the constructor `NewNameElem(f, name)`, a field by position
and name. -/
def NewNameElem (f : Nat) (name : String) : PathElement := .name f name
/-- Modelled from the spec: the constructor `NewKeyElem(key)`, a map key. -/
def NewKeyElem (key : Val) : PathElement := .key key
/-- Modelled from the spec: the constructor `NewIndexElem(i)`, a sequence index. -/
def NewIndexElem (i : Nat) : PathElement := .index i
/-- Modelled from the spec: the constructor `NewPtrElem()`, an indirection. -/
def NewPtrElem : PathElement := .ptr

/-- Modelled from the spec: the struct `Change` is declared outside the three source
files.  It has the three fields that the composite literals in `AddPathValue` and
`AddPathDelete` set: a path, and as payload a captured value or a delete marker; a field
that a literal leaves out is the zero Value respectively false. -/
structure Change where
  Path : List PathElement
  NewValue : Value := none
  Deleted : Bool := false
  deriving Repr

/-- The struct `changeSet`. -/
structure changeSet where
  BaseType : Ty
  Changes : List Change
  deriving Repr

/-- The method `AddPathValue`: append `Change{Path: ctx, NewValue: v}`. -/
def changeSet.AddPathValue (cs : changeSet) (ctx : List PathElement) (v : Value) : changeSet :=
  { cs with Changes := cs.Changes ++ [{ Path := ctx, NewValue := v }] }

/-- The method `AddPathDelete`: append `Change{Path: ctx, Deleted: true}`. -/
def changeSet.AddPathDelete (cs : changeSet) (ctx : List PathElement) : changeSet :=
  { cs with Changes := cs.Changes ++ [{ Path := ctx, Deleted := true }] }

/-- The function `extendContext`: a fresh path with `pe` appended. -/
def extendContext (ctx : List PathElement) (pe : PathElement) : List PathElement :=
  ctx ++ [pe]

/-- The function `intMin`. -/
def intMin (x y : Nat) : Nat := if x < y then x else y

/-- The function `intMax`. -/
def intMax (x y : Nat) : Nat := if x > y then x else y

/-! ## The differ -/

/-- The `error` values built by `fmt.Errorf` in `diff.go`. -/
inductive DiffError
  | typeMismatch (t1 t2 : Ty)
  | unhandledKind (k : Kind)
  deriving Repr

/-- What a call of `doDiff` or `compareBasicType` hands back besides the change set: a nil
error, a non-nil error, or a panic raised by `reflect`. -/
inductive Res
  | nil
  | error (e : DiffError)
  | panicked
  deriving Repr

/-- The function `compareBasicType`. -/
def compareBasicType (currType : Ty) (v1 v2 : Val) (cs : changeSet)
    (ctx : List PathElement) : changeSet × Res :=
  match currType.Kind with
  | .String =>
    match v1.asString, v2.asString with
    | some x, some y => if x != y then (cs.AddPathValue ctx (some v2), .nil) else (cs, .nil)
    | _, _ => (cs, .panicked)
  | .Int64 | .Int32 | .Int16 | .Int8 | .Int =>
    match v1.asInt, v2.asInt with
    | some x, some y => if x != y then (cs.AddPathValue ctx (some v2), .nil) else (cs, .nil)
    | _, _ => (cs, .panicked)
  | .Uint64 | .Uint32 | .Uint16 | .Uint8 | .Uint =>
    match v1.asUint, v2.asUint with
    | some x, some y => if x != y then (cs.AddPathValue ctx (some v2), .nil) else (cs, .nil)
    | _, _ => (cs, .panicked)
  | .Float64 | .Float32 =>
    match v1.asFloat, v2.asFloat with
    | some x, some y =>
      if !f64Eq x y then (cs.AddPathValue ctx (some v2), .nil) else (cs, .nil)
    | _, _ => (cs, .panicked)
  | .Complex128 | .Complex64 =>
    match v1.asComplex, v2.asComplex with
    | some x, some y =>
      if !(f64Eq x.1 y.1 && f64Eq x.2 y.2) then (cs.AddPathValue ctx (some v2), .nil)
      else (cs, .nil)
    | _, _ => (cs, .panicked)
  | .Bool =>
    match v1.asBool, v2.asBool with
    | some x, some y => if x != y then (cs.AddPathValue ctx (some v2), .nil) else (cs, .nil)
    | _, _ => (cs, .panicked)
  | k => (cs, .error (.unhandledKind k))

/-- A Go loop `for _, x := range xs { err := body(x); if err != nil { return err } }` over
the change set: run `body` on each element in order and stop at the first result that is
not a nil error. -/
def forEach {α : Type} (body : α → changeSet → changeSet × Res) :
    List α → changeSet → changeSet × Res
  | [], cs => (cs, .nil)
  | x :: xs, cs =>
    match body x cs with
    | (cs1, .nil) => forEach body xs cs1
    | r => r

/-- The first loop of the `reflect.Map` case, one key: recurse when `v2` has the key,
record a deletion otherwise.  `recur` is `doDiff` at the element type. -/
def mapKeyStep (recur : Val → Val → changeSet → List PathElement → changeSet × Res)
    (v1 v2 : Val) (ctx : List PathElement) (key : Val) (cs : changeSet) : changeSet × Res :=
  match v2.MapIndex key with
  | none => (cs, .panicked)
  | some val2 =>
    let newCtx := extendContext ctx (NewKeyElem key)
    match val2 with
    | some y =>
      match v1.MapIndex key with
      | some (some x) => recur x y cs newCtx
      | _ => (cs, .panicked)
    | none => (cs.AddPathDelete newCtx, .nil)

/-- The second loop of the `reflect.Map` case, one key: record the entry of `v2` when `v1`
lacks the key. -/
def mapAddStep (v1 v2 : Val) (ctx : List PathElement) (key : Val) (cs : changeSet) :
    changeSet × Res :=
  match v1.MapIndex key with
  | none => (cs, .panicked)
  | some (some _) => (cs, .nil)
  | some none =>
    match v2.MapIndex key with
    | none => (cs, .panicked)
    | some val => (cs.AddPathValue (extendContext ctx (NewKeyElem key)) val, .nil)

/-- The body of the index loops of the `reflect.Array` and `reflect.Slice` cases. -/
def indexStep (recur : Val → Val → changeSet → List PathElement → changeSet × Res)
    (v1 v2 : Val) (ctx : List PathElement) (i : Nat) (cs : changeSet) : changeSet × Res :=
  match v1.Index i, v2.Index i with
  | some x, some y => recur x y cs (extendContext ctx (NewIndexElem i))
  | _, _ => (cs, .panicked)

/-- The body of the loop that records the trailing elements of a longer `v2`. -/
def sliceAddStep (v2 : Val) (ctx : List PathElement) (i : Nat) (cs : changeSet) :
    changeSet × Res :=
  match v2.Index i with
  | some y => (cs.AddPathValue (extendContext ctx (NewIndexElem i)) (some y), .nil)
  | none => (cs, .panicked)

/-- The body of the loop that records the trailing elements of a longer `v1` as deleted. -/
def sliceDeleteStep (ctx : List PathElement) (i : Nat) (cs : changeSet) : changeSet × Res :=
  (cs.AddPathDelete (extendContext ctx (NewIndexElem i)), .nil)

mutual
/-- The function `doDiff`: the type-driven lock-step walk.  The switch on
`currType.Kind()` is the match on the constructor of `currType`. -/
def doDiff : Ty → Val → Val → changeSet → List PathElement → changeSet × Res
  | .struct fields, v1, v2, cs, ctx => doDiffFields fields 0 v1 v2 cs ctx
  | .map _ et, v1, v2, cs, ctx =>
    match v1.MapKeys, v2.MapKeys with
    | some keys1, some keys2 =>
      match forEach (mapKeyStep (doDiff et) v1 v2 ctx) keys1 cs with
      | (cs1, .nil) => forEach (mapAddStep v1 v2 ctx) keys2 cs1
      | r => r
    | _, _ => (cs, .panicked)
  | .array len et, v1, v2, cs, ctx =>
    forEach (indexStep (doDiff et) v1 v2 ctx) (List.range len) cs
  | .slice et, v1, v2, cs, ctx =>
    match v1.Len, v2.Len with
    | some len1, some len2 =>
      let minLen := intMin len1 len2
      let maxLen := intMax len1 len2
      match forEach (indexStep (doDiff et) v1 v2 ctx) (List.range minLen) cs with
      | (cs1, .nil) =>
        if minLen != maxLen then
          if maxLen == len1 then
            forEach (sliceDeleteStep ctx) (List.range' minLen (maxLen - minLen)) cs1
          else
            forEach (sliceAddStep v2 ctx) (List.range' minLen (maxLen - minLen)) cs1
        else (cs1, .nil)
      | r => r
    | _, _ => (cs, .panicked)
  | .ptr et, v1, v2, cs, ctx =>
    let newCtx := extendContext ctx NewPtrElem
    match v1.IsNil with
    | none => (cs, .panicked)
    | some true =>
      match v2.Elem with
      | some elem2 => (cs.AddPathValue newCtx elem2, .nil)
      | none => (cs, .panicked)
    | some false =>
      match v2.IsNil with
      | none => (cs, .panicked)
      | some true => (cs.AddPathDelete newCtx, .nil)
      | some false =>
        match v1.Elem, v2.Elem with
        | some (some x), some (some y) => doDiff et x y cs newCtx
        | _, _ => (cs, .panicked)
  | .leaf k, v1, v2, cs, ctx => compareBasicType (.leaf k) v1 v2 cs ctx
/-- The loop `for f := 0; f < currType.NumField(); f++` of the `reflect.Struct` case,
from field number `f` on, over the remaining fields of the struct type. -/
def doDiffFields : List (String × Ty) → Nat → Val → Val → changeSet → List PathElement →
    changeSet × Res
  | [], _, _, _, cs, _ => (cs, .nil)
  | (name, t) :: rest, f, v1, v2, cs, ctx =>
    match v1.Field f, v2.Field f with
    | some x, some y =>
      match doDiff t x y cs (extendContext ctx (NewNameElem f name)) with
      | (cs1, .nil) => doDiffFields rest (f + 1) v1 v2 cs1 ctx
      | r => r
    | _, _ => (cs, .panicked)
end

/-- What `Diff` hands back: the pair `(*changeSet, error)`, where `none` is a nil pointer
respectively a nil error, or a panic. -/
inductive DiffResult
  | returned (cs : Option changeSet) (err : Option DiffError)
  | panicked
  deriving Repr

/-- The function `Diff`.  `reflect.ValueOf` of a nil interface is the zero Value, on which
`Type()` panics. -/
def Diff (obj1 obj2 : Value) : DiffResult :=
  match obj1, obj2 with
  | some v1, some v2 =>
    if !Ty.beq v1.typeOf v2.typeOf then
      .returned none (some (.typeMismatch v1.typeOf v2.typeOf))
    else
      match doDiff v1.typeOf v1 v2 { BaseType := v1.typeOf, Changes := [] } [] with
      | (cs, .nil) => .returned (some cs) none
      | (cs, .error e) => .returned (some cs) (some e)
      | (_, .panicked) => .panicked
  | _, _ => .panicked

/-! ## Observing what a call appends -/

/-- The changes that one step appends, observed from an empty change set. -/
def stepChanges (f : changeSet → changeSet × Res) : List Change :=
  (f { BaseType := .leaf .Invalid, Changes := [] }).1.Changes

/-- The signal of one step, observed from an empty change set. -/
def stepRes (f : changeSet → changeSet × Res) : Res :=
  (f { BaseType := .leaf .Invalid, Changes := [] }).2

/-- A step only appends to the change set it is given. -/
def Appends (f : changeSet → changeSet × Res) : Prop :=
  ∀ cs, f cs = ({ BaseType := cs.BaseType, Changes := cs.Changes ++ stepChanges f }, stepRes f)

/-- The changes that `doDiff` records when it compares `x` with `y` at path `q`. -/
def diffChanges (t : Ty) (x y : Val) (q : List PathElement) : List Change :=
  (doDiff t x y { BaseType := t, Changes := [] } q).1.Changes

/-- The error (or panic) with which `doDiff` comes back when it compares `x` with `y` at
path `q`. -/
def diffRes (t : Ty) (x y : Val) (q : List PathElement) : Res :=
  (doDiff t x y { BaseType := t, Changes := [] } q).2

/-- The changes of comparing element `i` of `xs` with element `i` of `ys` at the path
`p ++ [Index(i)]`. -/
def elemChanges (et : Ty) (xs ys : List Val) (p : List PathElement) (i : Nat) : List Change :=
  match xs.get? i, ys.get? i with
  | some x, some y => diffChanges et x y (p ++ [.index i])
  | _, _ => []

/-- What comparing element `i` of `xs` with element `i` of `ys` comes back with. -/
def elemRes (et : Ty) (xs ys : List Val) (p : List PathElement) (i : Nat) : Res :=
  match xs.get? i, ys.get? i with
  | some x, some y => diffRes et x y (p ++ [.index i])
  | _, _ => .panicked

/-- The changes that the first loop of the map case records for key `k` of `a`: a deletion
when `b` lacks `k`, otherwise the changes of comparing `a[k]` with `b[k]` at
`p ++ [MapKey(k)]`. -/
def keyChanges (et : Ty) (ea eb : List (Val × Val)) (p : List PathElement) (k : Val) :
    List Change :=
  match lookupKey k eb with
  | none => [{ Path := p ++ [.key k], NewValue := none, Deleted := true }]
  | some y =>
    match lookupKey k ea with
    | some x => diffChanges et x y (p ++ [.key k])
    | none => []

/-- What the first loop of the map case comes back with at key `k` of `a`. -/
def keyRes (et : Ty) (ea eb : List (Val × Val)) (p : List PathElement) (k : Val) : Res :=
  match lookupKey k eb with
  | none => .nil
  | some y =>
    match lookupKey k ea with
    | some x => diffRes et x y (p ++ [.key k])
    | none => .panicked

/-! ## Legal values and the shapes the claims speak about -/

/-- The type `string`. -/
def tStr : Ty := .leaf .String

/-- The type `int`. -/
def tInt : Ty := .leaf .Int

mutual

/-- The predicate `p` holds at every node of the value tree: the value itself, struct
fields, map keys and map values, array and slice elements, pointees. -/
def Val.all (p : Val → Bool) : Val → Bool
  | .bool b => p (.bool b)
  | .int k i => p (.int k i)
  | .uint k n => p (.uint k n)
  | .float k x => p (.float k x)
  | .complex k re im => p (.complex k re im)
  | .str s => p (.str s)
  | .other k id => p (.other k id)
  | .struct fs => p (.struct fs) && Val.allFields p fs
  | .map kt et es => p (.map kt et es) && Val.allEntries p es
  | .array et es => p (.array et es) && Val.allList p es
  | .slice et es => p (.slice et es) && Val.allList p es
  | .ptr et none => p (.ptr et none)
  | .ptr et (some x) => p (.ptr et (some x)) && Val.all p x
termination_by structural v => v

/-- The predicate holds at every node below the fields of a struct. -/
def Val.allFields (p : Val → Bool) : List (String × Val) → Bool
  | [] => true
  | (_, v) :: fs => Val.all p v && Val.allFields p fs
termination_by structural fs => fs

/-- The predicate holds at every node below the elements of a sequence. -/
def Val.allList (p : Val → Bool) : List Val → Bool
  | [] => true
  | v :: vs => Val.all p v && Val.allList p vs
termination_by structural vs => vs

/-- The predicate holds at every node below the keys and values of a map. -/
def Val.allEntries (p : Val → Bool) : List (Val × Val) → Bool
  | [] => true
  | (k, v) :: es => Val.all p k && Val.all p v && Val.allEntries p es
termination_by structural es => es
end

/-- The signed integer kinds. -/
def isIntKind : Kind → Bool
  | .Int | .Int8 | .Int16 | .Int32 | .Int64 => true
  | _ => false

/-- The unsigned integer kinds that `compareBasicType` handles. -/
def isUintKind : Kind → Bool
  | .Uint | .Uint8 | .Uint16 | .Uint32 | .Uint64 => true
  | _ => false

/-- The bit width of an integer kind (`int`, `uint` and `uintptr` are 64 bits wide). -/
def kindBits : Kind → Nat
  | .Int8 | .Uint8 => 8
  | .Int16 | .Uint16 => 16
  | .Int32 | .Uint32 => 32
  | _ => 64

/-- No two entries of a map have keys that are equal under the Go key comparison. -/
def keysDistinct : List (Val × Val) → Bool
  | [] => true
  | (k, _) :: es => es.all (fun e => !Val.goEq k e.1) && keysDistinct es

/-- The value is a legal Go value at its root: the kind tag fits the constructor, an
integer fits its width, and every component has the type that the container declares. -/
def Val.wellTyped : Val → Bool
  | .bool _ => true
  | .int k i => isIntKind k && decide (-(2 : Int) ^ (kindBits k - 1) ≤ i) && decide (i < 2 ^ (kindBits k - 1))
  | .uint k n => (isUintKind k || k == .Uintptr) && decide (n < 2 ^ kindBits k)
  | .float k x => (k == .Float32 || k == .Float64) && decide (x < 2 ^ 64)
  | .complex k re im =>
      (k == .Complex64 || k == .Complex128) && decide (re < 2 ^ 64) && decide (im < 2 ^ 64)
  | .str _ => true
  | .other k _ => k == .Chan || k == .Func || k == .Interface || k == .UnsafePointer
  | .struct _ => true
  | .map kt et es =>
      es.all (fun e => Ty.beq e.1.typeOf kt && Ty.beq e.2.typeOf et) && keysDistinct es
  | .array et es => es.all (fun e => Ty.beq e.typeOf et)
  | .slice et es => es.all (fun e => Ty.beq e.typeOf et)
  | .ptr _ none => true
  | .ptr et (some x) => Ty.beq x.typeOf et

/-- The value is a legal Go value at every depth. -/
def Val.WF (v : Val) : Bool := v.all Val.wellTyped

/-- The value `v` is a legal Go value of type `t`. -/
def HasType (v : Val) (t : Ty) : Prop := v.WF = true ∧ v.typeOf = t


/-- The call came back with a nil error or with the error of an unhandled kind: it did not
panic. -/
def Res.Clean (r : Res) : Prop := r = .nil ∨ ∃ k, r = .error (.unhandledKind k)

/-- The node is not a floating-point or complex leaf that holds a NaN. -/
def Val.notNaN : Val → Bool
  | .float _ x => !f64IsNaN x
  | .complex _ re im => !f64IsNaN re && !f64IsNaN im
  | _ => true

/-- The node is not an absent (nil) pointer. -/
def Val.notNilPtr : Val → Bool
  | .ptr _ none => false
  | _ => true

/-- The node is not a leaf of a kind outside the supported scalar set (`uintptr`, channel,
function, interface, unsafe pointer). -/
def Val.supportedLeaf : Val → Bool
  | .other _ _ => false
  | .uint k _ => k != .Uintptr
  | _ => true

/-- The node is legal, of a supported kind, not a NaN and not an absent pointer. -/
def Val.plain (v : Val) : Bool :=
  v.wellTyped && v.supportedLeaf && v.notNaN && v.notNilPtr

/-- A quiet NaN of type float64, as a bit pattern. -/
def nan64 : Nat := 0x7FF8000000000000

/-! ## The deep copier (`copy.go`) -/

/-- Modelled from the spec: the type `PatchError` and its constructor `NewPatchError` are
declared outside the three source files.  One constructor per message that the source
files build: `copyBasic` ("unhandled basic kind"), the two preconditions of `Patch` ("can
not set obj1 of Type", "obj1 is not of type"), and the failures that the path navigator
raises (`NavigationFailure` in the spec). -/
inductive PatchError
  | unhandledBasicKind (k : Kind)
  | notSettable (t : Ty)
  | typeMismatch (t base : Ty)
  | navigation
  deriving Repr

/-- How a call that may panic ends: with a value, with a panic whose payload is a
`PatchError`, or with a panic raised by `reflect` or the runtime. -/
inductive Outcome (α : Type)
  | ok (a : α)
  | patchPanic (e : PatchError)
  | reflectPanic
  deriving Repr

/-- The Go conversion of an int64 to a signed integer of `w` bits (two's complement
wrap-around). -/
def wrapInt (w : Nat) (i : Int) : Int := (i + 2 ^ (w - 1)) % 2 ^ w - 2 ^ (w - 1)

/-- The function `copyBasic`.  A float32 is held as the float64 bit pattern of its value,
so the conversion `float32(oldVal.Float())` gives the pattern back. -/
def copyBasic (oldVal : Val) : Outcome Val :=
  match oldVal.typeOf.Kind with
  | .String =>
    match oldVal.asString with
    | some s => .ok (.str s)
    | none => .reflectPanic
  | .Int64 =>
    match oldVal.asInt with
    | some i => .ok (.int .Int64 i)
    | none => .reflectPanic
  | .Int32 =>
    match oldVal.asInt with
    | some i => .ok (.int .Int32 (wrapInt 32 i))
    | none => .reflectPanic
  | .Int16 =>
    match oldVal.asInt with
    | some i => .ok (.int .Int16 (wrapInt 16 i))
    | none => .reflectPanic
  | .Int8 =>
    match oldVal.asInt with
    | some i => .ok (.int .Int8 (wrapInt 8 i))
    | none => .reflectPanic
  | .Int =>
    match oldVal.asInt with
    | some i => .ok (.int .Int (wrapInt 64 i))
    | none => .reflectPanic
  | .Uint64 =>
    match oldVal.asUint with
    | some n => .ok (.uint .Uint64 n)
    | none => .reflectPanic
  | .Uint32 =>
    match oldVal.asUint with
    | some n => .ok (.uint .Uint32 (n % 2 ^ 32))
    | none => .reflectPanic
  | .Uint16 =>
    match oldVal.asUint with
    | some n => .ok (.uint .Uint16 (n % 2 ^ 16))
    | none => .reflectPanic
  | .Uint8 =>
    match oldVal.asUint with
    | some n => .ok (.uint .Uint8 (n % 2 ^ 8))
    | none => .reflectPanic
  | .Uint =>
    match oldVal.asUint with
    | some n => .ok (.uint .Uint (n % 2 ^ 64))
    | none => .reflectPanic
  | .Float64 =>
    match oldVal.asFloat with
    | some x => .ok (.float .Float64 x)
    | none => .reflectPanic
  | .Float32 =>
    match oldVal.asFloat with
    | some x => .ok (.float .Float32 x)
    | none => .reflectPanic
  | .Complex128 =>
    match oldVal.asComplex with
    | some x => .ok (.complex .Complex128 x.1 x.2)
    | none => .reflectPanic
  | .Complex64 =>
    match oldVal.asComplex with
    | some x => .ok (.complex .Complex64 x.1 x.2)
    | none => .reflectPanic
  | .Bool =>
    match oldVal.asBool with
    | some b => .ok (.bool b)
    | none => .reflectPanic
  | k => .patchPanic (.unhandledBasicKind k)

/-- A struct field is exported when its name starts with an upper-case letter; `Set` on a
field of a fresh struct panics for the other fields. -/
def isExported (name : String) : Bool :=
  match name.data with
  | c :: _ => c.isUpper
  | [] => false

/-- The method `SetMapIndex(k, v)` on the entries of a map under construction: overwrite the
entry whose key equals `k`, or add a new entry. -/
def setMapIndex (es : List (Val × Val)) (k v : Val) : List (Val × Val) :=
  if es.any (fun e => Val.goEq e.1 k) then
    es.map (fun e => if Val.goEq e.1 k then (e.1, v) else e)
  else es ++ [(k, v)]

mutual
/-- The function `CopyReflectValue`.  The switch on `newType.Kind()` is the match on the
constructor of the value, whose type `newType` is. -/
def CopyReflectValue : Val → Outcome Val
  | .struct fs =>
    match copyFields fs with
    | .ok fs1 => .ok (.struct fs1)
    | .patchPanic e => .patchPanic e
    | .reflectPanic => .reflectPanic
  | .map kt et es =>
    match copyEntries es [] with
    | .ok es1 => .ok (.map kt et es1)
    | .patchPanic e => .patchPanic e
    | .reflectPanic => .reflectPanic
  | .array et es =>
    match copyElems es with
    | .ok es1 => .ok (.array et es1)
    | .patchPanic e => .patchPanic e
    | .reflectPanic => .reflectPanic
  | .slice et es =>
    match copyElems es with
    | .ok es1 => .ok (.slice et es1)
    | .patchPanic e => .patchPanic e
    | .reflectPanic => .reflectPanic
  | .ptr et none => .ok (.ptr et none)
  | .ptr et (some x) =>
    match CopyReflectValue x with
    | .ok x1 => .ok (.ptr et (some x1))
    | .patchPanic e => .patchPanic e
    | .reflectPanic => .reflectPanic
  | .bool b => copyBasic (.bool b)
  | .int k i => copyBasic (.int k i)
  | .uint k n => copyBasic (.uint k n)
  | .float k x => copyBasic (.float k x)
  | .complex k re im => copyBasic (.complex k re im)
  | .str s => copyBasic (.str s)
  | .other k id => copyBasic (.other k id)
termination_by structural v => v
/-- The loop of the `reflect.Struct` case: copy field after field into the fields of a
fresh struct; `Set` panics on a field that is not exported. -/
def copyFields : List (String × Val) → Outcome (List (String × Val))
  | [] => .ok []
  | (name, v) :: fs =>
    match CopyReflectValue v with
    | .ok v1 =>
      if isExported name then
        match copyFields fs with
        | .ok fs1 => .ok ((name, v1) :: fs1)
        | .patchPanic e => .patchPanic e
        | .reflectPanic => .reflectPanic
      else .reflectPanic
    | .patchPanic e => .patchPanic e
    | .reflectPanic => .reflectPanic
termination_by structural fs => fs
/-- The loops of the `reflect.Array` and `reflect.Slice` cases: copy element after element
into a fresh sequence of the same length. -/
def copyElems : List Val → Outcome (List Val)
  | [] => .ok []
  | v :: vs =>
    match CopyReflectValue v with
    | .ok v1 =>
      match copyElems vs with
      | .ok vs1 => .ok (v1 :: vs1)
      | .patchPanic e => .patchPanic e
      | .reflectPanic => .reflectPanic
    | .patchPanic e => .patchPanic e
    | .reflectPanic => .reflectPanic
termination_by structural vs => vs
/-- The loop of the `reflect.Map` case over the entries still to copy, `acc` being the
fresh map so far.  In a legal map `MapIndex(key)` is the value of the entry of `key`, and
it is the zero Value, on which `Type()` panics, when the key does not equal itself (a
NaN). -/
def copyEntries : List (Val × Val) → List (Val × Val) → Outcome (List (Val × Val))
  | [], acc => .ok acc
  | (k, v) :: es, acc =>
    match CopyReflectValue k with
    | .ok k1 =>
      if Val.goEq k k then
        match CopyReflectValue v with
        | .ok v1 => copyEntries es (setMapIndex acc k1 v1)
        | .patchPanic e => .patchPanic e
        | .reflectPanic => .reflectPanic
      else .reflectPanic
    | .patchPanic e => .patchPanic e
    | .reflectPanic => .reflectPanic
termination_by structural es => es
end

/-- The function `CopyValueReflectively`; `reflect.ValueOf` of a nil interface is the zero
Value, on which `Type()` panics. -/
def CopyValueReflectively (oldValue : Value) : Outcome Val :=
  match oldValue with
  | some v => CopyReflectValue v
  | none => .reflectPanic

/-! ## Reading and writing along a path -/

/-- The location that a path denotes in a value, read with the `reflect` accessors that
the differ uses to descend (`Field`, `MapIndex`, `Index`, `Elem`): the content found there,
or the zero Value when a step leads nowhere. -/
def follow : Val → List PathElement → Value
  | v, [] => some v
  | v, .name f _ :: rest =>
    match v.Field f with
    | some x => follow x rest
    | none => none
  | v, .key k :: rest =>
    match v.MapIndex k with
    | some (some x) => follow x rest
    | _ => none
  | v, .index i :: rest =>
    match v.Index i with
    | some x => follow x rest
    | none => none
  | v, .ptr :: rest =>
    match v.Elem with
    | some (some x) => follow x rest
    | _ => none

mutual
/-- The function `reflect.Zero`: the zero value of a type. -/
def zeroValue : Ty → Val
  | .leaf k =>
    match k with
    | .Bool => .bool false
    | .Int | .Int8 | .Int16 | .Int32 | .Int64 => .int k 0
    | .Uint | .Uint8 | .Uint16 | .Uint32 | .Uint64 | .Uintptr => .uint k 0
    | .Float32 | .Float64 => .float k 0
    | .Complex64 | .Complex128 => .complex k 0 0
    | .String => .str ""
    | _ => .other k 0
  | .struct fields => .struct (zeroFields fields)
  | .map kt et => .map kt et []
  | .array len et => .array et (List.replicate len (zeroValue et))
  | .slice et => .slice et []
  | .ptr et => .ptr et none
/-- The zero values of the fields of a struct type. -/
def zeroFields : List (String × Ty) → List (String × Val)
  | [] => []
  | (name, t) :: fs => (name, zeroValue t) :: zeroFields fs
end

/-- Modelled from the spec: the path navigator (`NewObjectPathWithConfig`, `Next`, `Set`)
is declared outside the three source files.  `setAtPath v path new` advances through every
step of `path` from `v` and sets the terminal location to `new`, with both policies of
`ObjectPathConfig{true, true}` enabled: a missing map entry or an absent pointee on the way
is created as the zero value of its type, and a slice that is too short is grown with zero
values to the required length.  It fails with a `PatchError` when a step does not fit the
shape of the value, when an array index is out of range, or when `new` is the zero Value
or a value whose type is not the type of the terminal location. -/
def setAtPath : Val → List PathElement → Value → Except PatchError Val
  | v, [], new =>
    match new with
    | some n => if Ty.beq n.typeOf v.typeOf then .ok n else .error .navigation
    | none => .error .navigation
  | .struct fs, .name f _ :: rest, new =>
    match fs.get? f with
    | some (name, x) =>
      match setAtPath x rest new with
      | .ok x1 => .ok (.struct (fs.set f (name, x1)))
      | .error e => .error e
    | none => .error .navigation
  | .map kt et es, .key k :: rest, new =>
    match setAtPath ((lookupKey k es).getD (zeroValue et)) rest new with
    | .ok x1 => .ok (.map kt et (setMapIndex es k x1))
    | .error e => .error e
  | .array et es, .index i :: rest, new =>
    match es.get? i with
    | some x =>
      match setAtPath x rest new with
      | .ok x1 => .ok (.array et (es.set i x1))
      | .error e => .error e
    | none => .error .navigation
  | .slice et es, .index i :: rest, new =>
    let grown := es ++ List.replicate (i + 1 - es.length) (zeroValue et)
    match setAtPath (grown.getD i (zeroValue et)) rest new with
    | .ok x1 => .ok (.slice et (grown.set i x1))
    | .error e => .error e
  | .ptr et p, .ptr :: rest, new =>
    match setAtPath (p.getD (zeroValue et)) rest new with
    | .ok x1 => .ok (.ptr et (some x1))
    | .error e => .error e
  | _, _ :: _, _ => .error .navigation

/-- Modelled from the spec: the method `Delete` of the path navigator, declared outside the
three source files.  `deleteAtPath v path` advances to the terminal location as
`setAtPath` does and removes or zeroes it according to the shape that holds it: the key is
removed from a map, the element is removed from a slice, an array element or a struct field
is zeroed, a pointer is set to nil. -/
def deleteAtPath : Val → List PathElement → Except PatchError Val
  | v, [] => .ok (zeroValue v.typeOf)
  | .struct fs, .name f _ :: rest =>
    match fs.get? f with
    | some (name, x) =>
      match deleteAtPath x rest with
      | .ok x1 => .ok (.struct (fs.set f (name, x1)))
      | .error e => .error e
    | none => .error .navigation
  | .map kt et es, .key k :: rest =>
    match rest with
    | [] => .ok (.map kt et (es.filter (fun e => !Val.goEq e.1 k)))
    | _ :: _ =>
      match deleteAtPath ((lookupKey k es).getD (zeroValue et)) rest with
      | .ok x1 => .ok (.map kt et (setMapIndex es k x1))
      | .error e => .error e
  | .array et es, .index i :: rest =>
    match es.get? i with
    | some x =>
      match deleteAtPath x rest with
      | .ok x1 => .ok (.array et (es.set i x1))
      | .error e => .error e
    | none => .error .navigation
  | .slice et es, .index i :: rest =>
    let grown := es ++ List.replicate (i + 1 - es.length) (zeroValue et)
    match rest with
    | [] => .ok (.slice et (grown.eraseIdx i))
    | _ :: _ =>
      match deleteAtPath (grown.getD i (zeroValue et)) rest with
      | .ok x1 => .ok (.slice et (grown.set i x1))
      | .error e => .error e
  | .ptr et p, .ptr :: rest =>
    match rest with
    | [] => .ok (.ptr et none)
    | _ :: _ =>
      match deleteAtPath (p.getD (zeroValue et)) rest with
      | .ok x1 => .ok (.ptr et (some x1))
      | .error e => .error e
  | _, _ :: _ => .error .navigation

/-- One round of the loop of `Patch`: navigate to the end of the path of the change, then
`op.Delete()` or `op.Set(change.NewValue)`. -/
def applyChange (target : Val) (change : Change) : Except PatchError Val :=
  if change.Deleted then deleteAtPath target change.Path
  else setAtPath target change.Path change.NewValue

/-- The loop of `Patch` over the changes still to apply: the state of the target when the
loop ends, and the `PatchError` that ended it, if any.  A failing change leaves the target
as the changes before it made it (what the navigator created on its way to the failure is
not modelled). -/
def applyChanges : List Change → Val → Val × Option PatchError
  | [], target => (target, none)
  | change :: rest, target =>
    match applyChange target change with
    | .ok target1 => applyChanges rest target1
    | .error e => (target, some e)

/-- How `Patch` ends: it returns an `error` (`none` is nil) or it panics. -/
inductive PatchRes
  | returned (err : Option PatchError)
  | panicked
  deriving Repr

/-- The method `Patch`: the value that `obj` is after the call, and how the call ends.
`obj` is the interface value handed in, a pointer to the target when the call is to
succeed.  The deferred function turns a panic whose payload is a `PatchError` into the
returned error; the navigator of this model raises no other panic. -/
def changeSet.Patch (cs : changeSet) (obj : Value) : Value × PatchRes :=
  match obj with
  | none => (none, .panicked)
  | some (.ptr t (some target)) =>
    if !Ty.beq t cs.BaseType then
      (obj, .returned (some (.typeMismatch (.ptr t) cs.BaseType)))
    else
      match applyChanges cs.Changes target with
      | (target1, err) => (some (.ptr t (some target1)), .returned err)
  | some root => (obj, .returned (some (.notSettable root.typeOf)))

/-- A recorded change lies below the path `q`, and when it is a `Value` change its payload
is what `follow` reads in `b` at the rest of its path. -/
def ReadsFrom (b : Val) (q : List PathElement) (c : Change) : Prop :=
  ∃ rel, c.Path = q ++ rel ∧ (c.Deleted = false → c.NewValue = follow b rel)

/-- The change set `cs` with one `Value` change `{Path: p, NewValue: v}` appended. -/
def plusValue (cs : changeSet) (p : List PathElement) (v : Val) : changeSet :=
  { BaseType := cs.BaseType,
    Changes := cs.Changes ++ [{ Path := p, NewValue := some v, Deleted := false }] }

/-- The changes of comparing field `f` of `a` with field `f` of `b` at the path
`p ++ [FieldByPosition(f, name of field f)]`, `fields` being the fields of the struct
type. -/
def fieldChanges (fields : List (String × Ty)) (a b : Val) (p : List PathElement) (f : Nat) :
    List Change :=
  match fields.get? f, a.Field f, b.Field f with
  | some (name, t), some x, some y => diffChanges t x y (p ++ [.name f name])
  | _, _, _ => []

/-- What comparing field `f` of `a` with field `f` of `b` comes back with. -/
def fieldRes (fields : List (String × Ty)) (a b : Val) (p : List PathElement) (f : Nat) : Res :=
  match fields.get? f with
  | some (name, t) =>
    match a.Field f, b.Field f with
    | some x, some y => diffRes t x y (p ++ [.name f name])
    | _, _ => .panicked
  | none => .nil

/-- One round of the loop of the `reflect.Struct` case, at field number `f`. -/
def fieldStep (fields : List (String × Ty)) (a b : Val) (p : List PathElement) (f : Nat)
    (cs : changeSet) : changeSet × Res :=
  match fields.get? f with
  | some (name, t) =>
    match a.Field f, b.Field f with
    | some x, some y => doDiff t x y cs (extendContext p (NewNameElem f name))
    | _, _ => (cs, .panicked)
  | none => (cs, .nil)

/-! ## Equality of change sets (`change_set.go`) -/

/-- The loop `for i := 0; i < len(cs.Changes); i++` of `Equals`, from index `i` on with
`n` rounds to go: false at the first index whose two changes are not equal.  An index out
of range does not occur, for the loop is entered with lists of equal length. -/
def equalsLoop (changeEquals : Change → Change → Bool) (xs ys : List Change) :
    Nat → Nat → Bool
  | _, 0 => true
  | i, n + 1 =>
    match xs.get? i, ys.get? i with
    | some c1, some c2 =>
      if !changeEquals c1 c2 then false else equalsLoop changeEquals xs ys (i + 1) n
    | _, _ => false

/-- The method `changeSet.Equals`.  The method `Change.Equals` that it calls is declared
outside the three source files; it is the parameter `changeEquals`. -/
def changeSet.Equals (changeEquals : Change → Change → Bool) (cs other : changeSet) : Bool :=
  if !Ty.beq cs.BaseType other.BaseType then false
  else if cs.Changes.length != other.Changes.length then false
  else equalsLoop changeEquals cs.Changes other.Changes 0 cs.Changes.length

/-- Modelled from the spec: equality of two path steps, for the method `Change.Equals`
that is declared outside the three source files: the same kind of step with the same
position and name, the same key, or the same index. -/
def PathElement.Equals : PathElement → PathElement → Bool
  | .name i n, pe => match pe with
    | .name j m => i == j && n == m
    | _ => false
  | .key k, pe => match pe with
    | .key l => Val.goEq k l
    | _ => false
  | .index i, pe => match pe with
    | .index j => i == j
    | _ => false
  | .ptr, pe => match pe with
    | .ptr => true
    | _ => false

/-- Modelled from the spec: equality of two paths, step by step. -/
def pathEquals : List PathElement → List PathElement → Bool
  | [], [] => true
  | x :: xs, y :: ys => PathElement.Equals x y && pathEquals xs ys
  | _, _ => false

/-- Modelled from the spec: the method `Change.Equals`, declared outside the three source
files.  A change is `{Path, payload}`: two changes are equal when they have the same path
and the same payload, both a delete marker or both the same captured value. -/
def Change.Equals (c1 c2 : Change) : Bool :=
  pathEquals c1.Path c2.Path && c1.Deleted == c2.Deleted &&
    (match c1.NewValue, c2.NewValue with
     | none, none => true
     | some x, some y => Val.goEq x y
     | _, _ => false)

/-- The supported scalar set: the kinds that `compareBasicType` and `copyBasic` handle. -/
def isSupportedKind : Kind → Bool
  | .String | .Bool
  | .Int | .Int8 | .Int16 | .Int32 | .Int64
  | .Uint | .Uint8 | .Uint16 | .Uint32 | .Uint64
  | .Float32 | .Float64 | .Complex64 | .Complex128 => true
  | _ => false

/-- The node is not a struct with a field that is not exported. -/
def Val.exportedFields : Val → Bool
  | .struct fs => fs.all (fun f => isExported f.1)
  | _ => true

/-- The node is not a map with a key that does not equal itself (a key with a NaN in
it). -/
def Val.keysSelfEqual : Val → Bool
  | .map _ _ es => es.all (fun e => Val.goEq e.1 e.1)
  | _ => true

/-- The node is legal, its fields (if it is a struct) are exported and its keys (if it is a
map) equal themselves: nothing at this node makes `reflect` panic during a copy. -/
def Val.copyable (v : Val) : Bool :=
  v.wellTyped && v.exportedFields && v.keysSelfEqual

/-- What a copy of a value without a reflect panic in it comes to: the value itself when
every leaf is of a supported kind (`supp`), and otherwise a panic with the `PatchError` of an
unsupported kind. -/
def CopySpec {α : Type} (supp : Bool) (res : Outcome α) (a : α) : Prop :=
  (supp = true ∧ res = .ok a)
  ∨ (supp = false ∧ ∃ k, isSupportedKind k = false ∧ res = .patchPanic (.unhandledBasicKind k))

/-- What a copy that panics with the `PatchError` `e` tells: the error names a kind outside
the supported set and, in a legal value (`wf`), not every leaf is supported (`supp`). -/
def PanicSpec (e : PatchError) (wf supp : Bool) : Prop :=
  (∃ k, isSupportedKind k = false ∧ e = .unhandledBasicKind k) ∧ (wf = true → supp = false)

/-! ### Sample values for the copier -/

/-- The value `struct{ Name string; Tags []string; Count map[string]int8; Next *int }` with
a pointer that is present, used to exercise the copier. -/
def copySample : Val :=
  .struct [("Name", .str "a"), ("Tags", .slice tStr [.str "x", .str "y"]),
    ("Count", .map tStr (.leaf .Int8) [(.str "k", .int .Int8 (-3))]),
    ("Next", .ptr tInt (some (.int .Int 7)))]

/-- The value `struct{ Name string; Done chan int }`, whose second field is of an
unsupported kind. -/
def chanSample : Val := .struct [("Name", .str "a"), ("Done", .other .Chan 1)]

/-! ## `Patch` over any navigator -/

/-- How one round of the loop of `Patch` ends: the navigation and the `Set` or `Delete`
complete, or one of them panics, with a `PatchError` as payload or with another payload (a
panic of `reflect` or of the runtime). -/
inductive RoundEnd
  | completed
  | patchPanic (e : PatchError)
  | otherPanic
  deriving Repr

/-- The path navigator as `Patch` uses it in one round (`NewObjectPathWithConfig`, the loop
on `Next`, then `Delete` or `Set`): from the target and the change to the target after the
round and the way the round ends.  The navigator is declared outside the three source
files. -/
abbrev Navigator := Val → Change → Val × RoundEnd

/-- The loop of `Patch` over the changes still to apply, with the navigator `nav`: the
target when the loop is left and the way it is left.  A round that panics ends the loop. -/
def patchLoop (nav : Navigator) : List Change → Val → Val × RoundEnd
  | [], target => (target, .completed)
  | change :: rest, target =>
    match nav target change with
    | (target1, .completed) => patchLoop nav rest target1
    | (target1, .patchPanic e) => (target1, .patchPanic e)
    | (target1, .otherPanic) => (target1, .otherPanic)

/-- The method `Patch` with the navigator `nav`: the value that `obj` is after the call, and
how the call ends.  `reflect.ValueOf(nil)` is the zero Value, whose kind is not
`reflect.Ptr` and on which `root.Type()`, an argument of `NewPatchError`, panics.  The
deferred function turns a panic whose payload is a `PatchError` into the returned error and
raises every other panic again (`panic(r)`). -/
def changeSet.PatchWith (nav : Navigator) (cs : changeSet) (obj : Value) : Value × PatchRes :=
  match obj with
  | none => (none, .panicked)
  | some (.ptr t (some target)) =>
    if !Ty.beq t cs.BaseType then
      (obj, .returned (some (.typeMismatch (.ptr t) cs.BaseType)))
    else
      match patchLoop nav cs.Changes target with
      | (target1, .completed) => (some (.ptr t (some target1)), .returned none)
      | (target1, .patchPanic e) => (some (.ptr t (some target1)), .returned (some e))
      | (target1, .otherPanic) => (some (.ptr t (some target1)), .panicked)
  | some root => (obj, .returned (some (.notSettable root.typeOf)))

/-- The navigator that `applyChange` models: a round completes with the new target, or
panics with a `PatchError` and leaves the target as it was. -/
def specNavigator : Navigator := fun target change =>
  match applyChange target change with
  | .ok target1 => (target1, .completed)
  | .error e => (target, .patchPanic e)

/-- The target after the rounds of the changes `changes`, one after the other in list order,
from `target`. -/
def applyInOrder (nav : Navigator) (changes : List Change) (target : Val) : Val :=
  changes.foldl (fun s c => (nav s c).1) target

/-- The type `struct{ A int; B int }`. -/
def tAB : Ty := .struct [("A", tInt), ("B", tInt)]

/-- The value `struct{ A int; B int }{x, y}`. -/
def valAB (x y : Int) : Val := .struct [("A", .int .Int x), ("B", .int .Int y)]

/-- The change that sets field number `f`, named `name`, to the int `x`. -/
def setField (f : Nat) (name : String) (x : Int) : Change :=
  { Path := [.name f name], NewValue := some (.int .Int x), Deleted := false }

/-- The change that deletes field number `f`, named `name`. -/
def deleteField (f : Nat) (name : String) : Change :=
  { Path := [.name f name], NewValue := none, Deleted := true }

/-- A navigator whose `Delete` panics with a payload that is not a `PatchError`, and that
is the navigator of `applyChange` otherwise. -/
def panicOnDelete : Navigator := fun target change =>
  if change.Deleted then (target, .otherPanic) else specNavigator target change

/-- A navigator whose every round panics with a payload that is not a `PatchError`, as a
panic of `reflect` is. -/
def panickingNavigator : Navigator := fun target _ => (target, .otherPanic)

/-- Modelled from the spec: what a navigator with the policy to create what is missing has
made of the target when it arrives at the end of a path: the pointee of a nil pointer on
the way is allocated as the zero value of its type.  Only struct fields and pointers are
followed. -/
def createAlong : Val → List PathElement → Val
  | v, [] => v
  | .struct fs, .name f _ :: rest =>
    match fs.get? f with
    | some (name, x) => .struct (fs.set f (name, createAlong x rest))
    | none => .struct fs
  | .ptr et p, .ptr :: rest => .ptr et (some (createAlong (p.getD (zeroValue et)) rest))
  | v, _ :: _ => v

/-- A navigator that leaves a trace: a round that panics with a `PatchError` has created,
before that, what was missing on its way. -/
def tracingNavigator : Navigator := fun target change =>
  match applyChange target change with
  | .ok target1 => (target1, .completed)
  | .error e => (createAlong target change.Path, .patchPanic e)

/-- The type `struct{ A int; P *int }`. -/
def tAP : Ty := .struct [("A", tInt), ("P", .ptr tInt)]

/-- The value `struct{ A int; P *int }{x, p}`. -/
def valAP (x : Int) (p : Option Val) : Val := .struct [("A", .int .Int x), ("P", .ptr tInt p)]

/-- The change that `Diff` records for two nil pointers in field `P`: a `Value` change at the
pointee whose `NewValue` is the zero Value. -/
def setPointeeInvalid : Change :=
  { Path := [.name 1 "P", .ptr], NewValue := none, Deleted := false }

/-! ## Soundness of the recorded locations -/

/-- The path `p` leads, in `v`, to a pointer that is nil. -/
def nilAt (v : Val) (p : List PathElement) : Bool :=
  match follow v p with
  | some (.ptr _ none) => true
  | _ => false

/-- The change `c`, recorded below the path `q` when `a` was compared with `b`, names a
location: the rest of the path of a `Value` change leads to a location of `b` that holds its
`NewValue`, and the rest of the path of a `Deleted` change leads to a location of `a` and
to none of `b`. -/
def Sound (a b : Val) (q : List PathElement) (c : Change) : Prop :=
  ∃ rel, c.Path = q ++ rel
    ∧ (c.Deleted = false → ∃ x, c.NewValue = some x ∧ follow b rel = some x)
    ∧ (c.Deleted = true → (∃ x, follow a rel = some x) ∧ follow b rel = none)

/-- Every map key in `a` and in `b` equals itself, and no path leads to a nil pointer in
both. -/
def Comparable (a b : Val) : Prop :=
  Val.all Val.keysSelfEqual a = true ∧ Val.all Val.keysSelfEqual b = true
    ∧ ∀ p, ¬ (nilAt a p = true ∧ nilAt b p = true)

/-- The value `struct{ M map[string]int; S []int; P *int }` used to exercise the differ. -/
def soundSampleA : Val :=
  .struct [("M", .map tStr tInt [(.str "k1", .int .Int 1), (.str "k2", .int .Int 2)]),
    ("S", .slice tInt [.int .Int 1, .int .Int 2, .int .Int 3]),
    ("P", .ptr tInt (some (.int .Int 5)))]

/-- A second value of the type of `soundSampleA`: one key less and one more, a shorter
slice, a nil pointer. -/
def soundSampleB : Val :=
  .struct [("M", .map tStr tInt [(.str "k2", .int .Int 3), (.str "k3", .int .Int 4)]),
    ("S", .slice tInt [.int .Int 1]),
    ("P", .ptr tInt none)]

/-- The map `map[float64]int{NaN: 1}`. -/
def nanKeyMap : Val := .map (.leaf .Float64) tInt [(.float .Float64 nan64, .int .Int 1)]

/-! ## Structural equality and the empty diff -/

mutual
/-- Structural equality of two values, following the words of the specification: equal
leaves (same kind and same content), the same fields for structs, the same key set with
structurally equal entries for maps, the same length with structurally equal elements for
arrays and slices, and the same pointer presence with structurally equal pointees. -/
def Val.structEq : Val → Val → Bool
  | .bool x, v => match v with
    | .bool y => x == y
    | _ => false
  | .int k x, v => match v with
    | .int l y => k == l && x == y
    | _ => false
  | .uint k x, v => match v with
    | .uint l y => k == l && x == y
    | _ => false
  | .float k x, v => match v with
    | .float l y => k == l && x == y
    | _ => false
  | .complex k x1 x2, v => match v with
    | .complex l y1 y2 => k == l && x1 == y1 && x2 == y2
    | _ => false
  | .str x, v => match v with
    | .str y => x == y
    | _ => false
  | .other k x, v => match v with
    | .other l y => k == l && x == y
    | _ => false
  | .struct fs, v => match v with
    | .struct gs => Val.structEqFields fs gs
    | _ => false
  | .map _ _ es, v => match v with
    | .map _ _ es2 =>
      Val.structEqEntries es es2 && es2.all (fun e => (lookupKey e.1 es).isSome)
    | _ => false
  | .array _ xs, v => match v with
    | .array _ ys => Val.structEqList xs ys
    | _ => false
  | .slice _ xs, v => match v with
    | .slice _ ys => Val.structEqList xs ys
    | _ => false
  | .ptr _ none, v => match v with
    | .ptr _ none => true
    | _ => false
  | .ptr _ (some x), v => match v with
    | .ptr _ (some y) => Val.structEq x y
    | _ => false
termination_by structural a => a
/-- The same fields, by name, in the same order, with structurally equal values. -/
def Val.structEqFields : List (String × Val) → List (String × Val) → Bool
  | [], gs => match gs with
    | [] => true
    | _ :: _ => false
  | (n, x) :: fs, gs => match gs with
    | (m, y) :: gs1 => n == m && Val.structEq x y && Val.structEqFields fs gs1
    | [] => false
termination_by structural fs => fs
/-- The same length, with structurally equal elements at every index. -/
def Val.structEqList : List Val → List Val → Bool
  | [], ys => match ys with
    | [] => true
    | _ :: _ => false
  | x :: xs, ys => match ys with
    | y :: ys1 => Val.structEq x y && Val.structEqList xs ys1
    | [] => false
termination_by structural xs => xs
/-- Every entry of the first map has, under its key, a structurally equal entry in the
second map. -/
def Val.structEqEntries : List (Val × Val) → List (Val × Val) → Bool
  | [], _ => true
  | (k, x) :: es, eb =>
    (match lookupKey k eb with
     | some y => Val.structEq x y
     | none => false) && Val.structEqEntries es eb
termination_by structural es => es
end

/-- The node is not a leaf other than a string, an integer or a boolean. -/
def Val.simpleLeaf : Val → Bool
  | .float _ _ => false
  | .complex _ _ _ => false
  | .other _ _ => false
  | .uint k _ => k != .Uintptr
  | _ => true

/-- A step that records no change and comes back with a nil error. -/
def Silent (f : changeSet → changeSet × Res) : Prop :=
  stepChanges f = [] ∧ stepRes f = .nil

/-- The value `struct{ M map[string]int; S []int; P *bool; N string }` with the map entries
in the order given. -/
def equalSample (entries : List (Val × Val)) : Val :=
  .struct [("M", .map tStr tInt entries), ("S", .slice tInt [.int .Int 1, .int .Int 2]),
    ("P", .ptr (.leaf .Bool) (some (.bool true))), ("N", .str "x")]

/-! ## Lemmas on type equality -/

mutual
theorem Ty.beq_refl : ∀ a : Ty, Ty.beq a a = true
  | .leaf k => by simp [Ty.beq]
  | .struct fs => by simp [Ty.beq, Ty.beqFields_refl fs]
  | .map a b => by simp [Ty.beq, Ty.beq_refl a, Ty.beq_refl b]
  | .array n a => by simp [Ty.beq, Ty.beq_refl a]
  | .slice a => by simp [Ty.beq, Ty.beq_refl a]
  | .ptr a => by simp [Ty.beq, Ty.beq_refl a]
theorem Ty.beqFields_refl : ∀ fs : List (String × Ty), Ty.beqFields fs fs = true
  | [] => by simp [Ty.beqFields]
  | (n, a) :: fs => by simp [Ty.beqFields, Ty.beq_refl a, Ty.beqFields_refl fs]
end

mutual
theorem Ty.eq_of_beq : ∀ a b : Ty, Ty.beq a b = true → a = b
  | .leaf a, .leaf b, h => by simp [Ty.beq] at h; rw [h]
  | .struct fs, .struct gs, h => by
      simp only [Ty.beq] at h; rw [Ty.eq_of_beqFields fs gs h]
  | .map a b, .map c d, h => by
      simp only [Ty.beq, Bool.and_eq_true] at h
      rw [Ty.eq_of_beq a c h.1, Ty.eq_of_beq b d h.2]
  | .array n a, .array m b, h => by
      simp only [Ty.beq, Bool.and_eq_true, beq_iff_eq] at h
      rw [h.1, Ty.eq_of_beq a b h.2]
  | .slice a, .slice b, h => by
      simp only [Ty.beq] at h; rw [Ty.eq_of_beq a b h]
  | .ptr a, .ptr b, h => by
      simp only [Ty.beq] at h; rw [Ty.eq_of_beq a b h]
  | .leaf _, .struct _, h | .leaf _, .map _ _, h | .leaf _, .array _ _, h
  | .leaf _, .slice _, h | .leaf _, .ptr _, h
  | .struct _, .leaf _, h | .struct _, .map _ _, h | .struct _, .array _ _, h
  | .struct _, .slice _, h | .struct _, .ptr _, h
  | .map _ _, .leaf _, h | .map _ _, .struct _, h | .map _ _, .array _ _, h
  | .map _ _, .slice _, h | .map _ _, .ptr _, h
  | .array _ _, .leaf _, h | .array _ _, .struct _, h | .array _ _, .map _ _, h
  | .array _ _, .slice _, h | .array _ _, .ptr _, h
  | .slice _, .leaf _, h | .slice _, .struct _, h | .slice _, .map _ _, h
  | .slice _, .array _ _, h | .slice _, .ptr _, h
  | .ptr _, .leaf _, h | .ptr _, .struct _, h | .ptr _, .map _ _, h
  | .ptr _, .array _ _, h | .ptr _, .slice _, h => by simp [Ty.beq] at h
theorem Ty.eq_of_beqFields :
    ∀ fs gs : List (String × Ty), Ty.beqFields fs gs = true → fs = gs
  | [], [], _ => rfl
  | (n, a) :: fs, (m, b) :: gs, h => by
      simp only [Ty.beqFields, Bool.and_eq_true, beq_iff_eq] at h
      rw [h.1.1, Ty.eq_of_beq a b h.1.2, Ty.eq_of_beqFields fs gs h.2]
  | [], _ :: _, h | _ :: _, [], h => by simp [Ty.beqFields] at h
end

/-! ## The differ only appends to the change set -/

theorem Appends.intro {f : changeSet → changeSet × Res} (out : List Change) (r : Res)
    (h : ∀ cs, f cs = ({ BaseType := cs.BaseType, Changes := cs.Changes ++ out }, r)) :
    Appends f := by
  intro cs
  have h0 := h { BaseType := .leaf .Invalid, Changes := [] }
  simp only [stepChanges, stepRes, h0, List.nil_append]
  exact h cs

theorem forEach_appends {α : Type} (body : α → changeSet → changeSet × Res) :
    ∀ xs : List α, (∀ x ∈ xs, Appends (body x)) → Appends (forEach body xs)
  | [], _ => Appends.intro [] .nil (by intro cs; simp [forEach])
  | x :: xs, h => by
    have hx := h x (List.mem_cons_self _ _)
    have hxs := forEach_appends body xs (fun y hy => h y (List.mem_cons_of_mem _ hy))
    cases hr : stepRes (body x) with
    | nil =>
      refine Appends.intro (stepChanges (body x) ++ stepChanges (forEach body xs))
        (stepRes (forEach body xs)) ?_
      intro cs
      simp only [forEach]
      rw [hx cs, hr]
      simp only
      rw [hxs]
      simp [List.append_assoc]
    | error e =>
      refine Appends.intro (stepChanges (body x)) (.error e) ?_
      intro cs
      simp only [forEach]
      rw [hx cs, hr]
    | panicked =>
      refine Appends.intro (stepChanges (body x)) .panicked ?_
      intro cs
      simp only [forEach]
      rw [hx cs, hr]


theorem appends_const (r : Res) : Appends (fun cs => (cs, r)) :=
  Appends.intro [] r (by intro cs; simp)

theorem appends_addValue (ctx : List PathElement) (v : Value) :
    Appends (fun cs => (cs.AddPathValue ctx v, Res.nil)) :=
  Appends.intro [{ Path := ctx, NewValue := v }] .nil (by intro cs; simp [changeSet.AddPathValue])

theorem appends_addDelete (ctx : List PathElement) :
    Appends (fun cs => (cs.AddPathDelete ctx, Res.nil)) :=
  Appends.intro [{ Path := ctx, Deleted := true }] .nil (by intro cs; simp [changeSet.AddPathDelete])

theorem appends_seq {f g : changeSet → changeSet × Res} (hf : Appends f) (hg : Appends g) :
    Appends (fun cs => match f cs with
      | (cs1, .nil) => g cs1
      | r => r) := by
  cases hr : stepRes f with
  | nil =>
    refine Appends.intro (stepChanges f ++ stepChanges g) (stepRes g) ?_
    intro cs
    simp only [hf cs, hr, hg _, List.append_assoc]
  | error e =>
    refine Appends.intro (stepChanges f) (.error e) ?_
    intro cs
    simp only [hf cs, hr]
  | panicked =>
    refine Appends.intro (stepChanges f) .panicked ?_
    intro cs
    simp only [hf cs, hr]

theorem mapKeyStep_appends (recur : Val → Val → changeSet → List PathElement → changeSet × Res)
    (hrec : ∀ x y q, Appends (fun cs => recur x y cs q)) (v1 v2 : Val) (ctx : List PathElement)
    (key : Val) : Appends (mapKeyStep recur v1 v2 ctx key) := by
  unfold mapKeyStep
  cases v2.MapIndex key with
  | none => exact appends_const _
  | some val2 =>
    cases val2 with
    | none => exact appends_addDelete _
    | some y =>
      cases v1.MapIndex key with
      | none => exact appends_const _
      | some val1 =>
        cases val1 with
        | none => exact appends_const _
        | some x => exact hrec x y _

theorem mapAddStep_appends (v1 v2 : Val) (ctx : List PathElement) (key : Val) :
    Appends (mapAddStep v1 v2 ctx key) := by
  unfold mapAddStep
  cases v1.MapIndex key with
  | none => exact appends_const _
  | some val1 =>
    cases val1 with
    | some x => exact appends_const _
    | none =>
      cases v2.MapIndex key with
      | none => exact appends_const _
      | some val => exact appends_addValue _ _

theorem indexStep_appends (recur : Val → Val → changeSet → List PathElement → changeSet × Res)
    (hrec : ∀ x y q, Appends (fun cs => recur x y cs q)) (v1 v2 : Val) (ctx : List PathElement)
    (i : Nat) : Appends (indexStep recur v1 v2 ctx i) := by
  unfold indexStep
  cases v1.Index i with
  | none => exact appends_const _
  | some x =>
    cases v2.Index i with
    | none => exact appends_const _
    | some y => exact hrec x y _

theorem sliceAddStep_appends (v2 : Val) (ctx : List PathElement) (i : Nat) :
    Appends (sliceAddStep v2 ctx i) := by
  unfold sliceAddStep
  cases v2.Index i with
  | none => exact appends_const _
  | some y => exact appends_addValue _ _

theorem sliceDeleteStep_appends (ctx : List PathElement) (i : Nat) :
    Appends (sliceDeleteStep ctx i) := appends_addDelete _

theorem compareBasicType_appends (t : Ty) (v1 v2 : Val) (ctx : List PathElement) :
    Appends (fun cs => compareBasicType t v1 v2 cs ctx) := by
  unfold compareBasicType
  cases t.Kind <;> simp only <;>
    first
    | exact appends_const _
    | (split <;> first
        | exact appends_const _
        | (split <;> first | exact appends_const _ | exact appends_addValue _ _))

mutual
theorem doDiff_appends : ∀ (t : Ty) (v1 v2 : Val) (ctx : List PathElement),
    Appends (fun cs => doDiff t v1 v2 cs ctx)
  | .leaf k, v1, v2, ctx => by
    simp only [doDiff]; exact compareBasicType_appends _ _ _ _
  | .struct fields, v1, v2, ctx => by
    simp only [doDiff]; exact doDiffFields_appends fields 0 v1 v2 ctx
  | .map kt et, v1, v2, ctx => by
    simp only [doDiff]
    cases v1.MapKeys with
    | none => exact appends_const _
    | some keys1 =>
      cases v2.MapKeys with
      | none => exact appends_const _
      | some keys2 =>
        exact appends_seq
          (forEach_appends _ keys1 (fun key _ =>
            mapKeyStep_appends _ (fun x y q => doDiff_appends et x y q) v1 v2 ctx key))
          (forEach_appends _ keys2 (fun key _ => mapAddStep_appends v1 v2 ctx key))
  | .array len et, v1, v2, ctx => by
    simp only [doDiff]
    exact forEach_appends _ _ (fun i _ =>
      indexStep_appends _ (fun x y q => doDiff_appends et x y q) v1 v2 ctx i)
  | .slice et, v1, v2, ctx => by
    simp only [doDiff]
    cases v1.Len with
    | none => exact appends_const _
    | some len1 =>
      cases v2.Len with
      | none => exact appends_const _
      | some len2 =>
        simp only
        refine appends_seq
          (forEach_appends _ _ (fun i _ =>
            indexStep_appends _ (fun x y q => doDiff_appends et x y q) v1 v2 ctx i)) ?_
        split
        · split
          · exact forEach_appends _ _ (fun i _ => sliceDeleteStep_appends ctx i)
          · exact forEach_appends _ _ (fun i _ => sliceAddStep_appends v2 ctx i)
        · exact appends_const _
  | .ptr et, v1, v2, ctx => by
    simp only [doDiff]
    cases v1.IsNil with
    | none => exact appends_const _
    | some n1 =>
      cases n1 with
      | true =>
        cases v2.Elem with
        | none => exact appends_const _
        | some e2 => exact appends_addValue _ _
      | false =>
        cases v2.IsNil with
        | none => exact appends_const _
        | some n2 =>
          cases n2 with
          | true => exact appends_addDelete _
          | false =>
            cases v1.Elem with
            | none => exact appends_const _
            | some e1 =>
              cases e1 with
              | none => exact appends_const _
              | some x =>
                cases v2.Elem with
                | none => exact appends_const _
                | some e2 =>
                  cases e2 with
                  | none => exact appends_const _
                  | some y => exact doDiff_appends et x y _
theorem doDiffFields_appends : ∀ (fs : List (String × Ty)) (f : Nat) (v1 v2 : Val)
    (ctx : List PathElement), Appends (fun cs => doDiffFields fs f v1 v2 cs ctx)
  | [], f, v1, v2, ctx => by
    simp only [doDiffFields]; exact appends_const _
  | (name, t) :: rest, f, v1, v2, ctx => by
    simp only [doDiffFields]
    cases v1.Field f with
    | none => exact appends_const _
    | some x =>
      cases v2.Field f with
      | none => exact appends_const _
      | some y =>
        exact appends_seq (doDiff_appends t x y _) (doDiffFields_appends rest (f + 1) v1 v2 ctx)
end

/-! ## What a loop appends -/

theorem doDiff_eq (t : Ty) (x y : Val) (cs : changeSet) (q : List PathElement) :
    doDiff t x y cs q =
      ({ BaseType := cs.BaseType, Changes := cs.Changes ++ diffChanges t x y q },
        diffRes t x y q) := by
  have h := doDiff_appends t x y q
  have h1 := h cs
  have h2 := h { BaseType := t, Changes := [] }
  simp only [List.nil_append] at h1 h2
  simp only [diffChanges, diffRes]
  rw [h1, h2]

/-- When every step of a loop comes back with a nil error, the loop appends the changes of
its steps in order and comes back with a nil error. -/
theorem forEach_all_nil {α : Type} (body : α → changeSet → changeSet × Res) :
    ∀ (xs : List α), (∀ x ∈ xs, Appends (body x)) → (∀ x ∈ xs, stepRes (body x) = .nil) →
      ∀ cs, forEach body xs cs =
        ({ BaseType := cs.BaseType,
           Changes := cs.Changes ++ xs.flatMap (fun x => stepChanges (body x)) }, .nil)
  | [], _, _, cs => by simp [forEach]
  | x :: xs, ha, hn, cs => by
    have hx := ha x (List.mem_cons_self _ _)
    have hr := hn x (List.mem_cons_self _ _)
    simp only [forEach]
    rw [hx cs, hr]
    simp only
    rw [forEach_all_nil body xs (fun y hy => ha y (List.mem_cons_of_mem _ hy))
      (fun y hy => hn y (List.mem_cons_of_mem _ hy))]
    simp [List.append_assoc]

/-- When the first step that does not come back with a nil error is `x`, the loop stops
there: it has appended the changes of the steps before `x` and those of `x`, and comes back
with what `x` came back with. -/
theorem forEach_first_fail {α : Type} (body : α → changeSet → changeSet × Res) :
    ∀ (pre : List α) (x : α) (post : List α),
      (∀ z ∈ pre ++ x :: post, Appends (body z)) → (∀ z ∈ pre, stepRes (body z) = .nil) →
      stepRes (body x) ≠ .nil →
      ∀ cs, forEach body (pre ++ x :: post) cs =
        ({ BaseType := cs.BaseType,
           Changes := cs.Changes ++ pre.flatMap (fun z => stepChanges (body z)) ++
             stepChanges (body x) }, stepRes (body x))
  | [], x, post, ha, _, hx, cs => by
    have hax := ha x (by simp)
    simp only [List.nil_append, forEach, List.flatMap_nil, List.append_nil]
    rw [hax cs]
    cases hr : stepRes (body x) with
    | nil => exact absurd hr hx
    | error e => simp
    | panicked => simp
  | z :: pre, x, post, ha, hn, hx, cs => by
    have haz := ha z (by simp)
    have hrz := hn z (List.mem_cons_self _ _)
    have ih := forEach_first_fail body pre x post (fun w hw => ha w (by simp at hw ⊢; tauto))
      (fun w hw => hn w (List.mem_cons_of_mem _ hw)) hx
    simp only [List.cons_append, forEach]
    rw [haz cs, hrz]
    exact (ih _).trans (by simp [List.append_assoc])

/-! ## The slice rule, the map rule and the pointer rule -/

theorem stepChanges_doDiff (t : Ty) (x y : Val) (q : List PathElement) :
    stepChanges (fun cs => doDiff t x y cs q) = diffChanges t x y q := by
  simp [stepChanges, doDiff_eq t x y _ q]

theorem stepRes_doDiff (t : Ty) (x y : Val) (q : List PathElement) :
    stepRes (fun cs => doDiff t x y cs q) = diffRes t x y q := by
  simp [stepRes, doDiff_eq t x y _ q]

theorem indexStep_slice_changes (et t1 t2 : Ty) (xs ys : List Val) (p : List PathElement)
    (i : Nat) :
    stepChanges (indexStep (doDiff et) (.slice t1 xs) (.slice t2 ys) p i)
      = elemChanges et xs ys p i := by
  simp only [stepChanges, indexStep, Val.Index, elemChanges, extendContext, NewIndexElem]
  cases xs.get? i <;> cases ys.get? i <;> simp [doDiff_eq et _ _ _ _]

theorem indexStep_slice_res (et t1 t2 : Ty) (xs ys : List Val) (p : List PathElement)
    (i : Nat) :
    stepRes (indexStep (doDiff et) (.slice t1 xs) (.slice t2 ys) p i)
      = elemRes et xs ys p i := by
  simp only [stepRes, indexStep, Val.Index, elemRes, extendContext, NewIndexElem]
  cases xs.get? i <;> cases ys.get? i <;> simp [doDiff_eq et _ _ _ _]

theorem forEach_sliceDelete (p : List PathElement) (is : List Nat) (cs : changeSet) :
    forEach (sliceDeleteStep p) is cs =
      ({ BaseType := cs.BaseType,
         Changes := cs.Changes ++
           is.map (fun i => { Path := p ++ [.index i], NewValue := none, Deleted := true }) },
        .nil) := by
  induction is generalizing cs with
  | nil => simp [forEach]
  | cons i is ih =>
    simp [forEach, sliceDeleteStep, ih, changeSet.AddPathDelete, extendContext, NewIndexElem]

theorem forEach_sliceAdd (t2 : Ty) (ys : List Val) (p : List PathElement) (is : List Nat)
    (h : ∀ i ∈ is, i < ys.length) (cs : changeSet) :
    forEach (sliceAddStep (.slice t2 ys) p) is cs =
      ({ BaseType := cs.BaseType,
         Changes := cs.Changes ++
           is.map (fun i => { Path := p ++ [.index i], NewValue := ys.get? i, Deleted := false }) },
        .nil) := by
  induction is generalizing cs with
  | nil => simp [forEach]
  | cons i is ih =>
    have hi : i < ys.length := h i (List.mem_cons_self _ _)
    have hget : ys.get? i = some (ys.get ⟨i, hi⟩) := List.get?_eq_get hi
    simp only [forEach, sliceAddStep, Val.Index, hget]
    rw [ih (fun j hj => h j (List.mem_cons_of_mem _ hj))]
    simp [changeSet.AddPathValue, extendContext, NewIndexElem, hget]

theorem intMin_eq (x y : Nat) : intMin x y = min x y := by
  unfold intMin; split <;> omega

theorem intMax_eq (x y : Nat) : intMax x y = max x y := by
  unfold intMax; split <;> omega

theorem forEach_index_slice_ok (et t1 t2 : Ty) (xs ys : List Val) (p : List PathElement)
    (is : List Nat) (h : ∀ i ∈ is, elemRes et xs ys p i = .nil) (cs : changeSet) :
    forEach (indexStep (doDiff et) (.slice t1 xs) (.slice t2 ys) p) is cs =
      ({ BaseType := cs.BaseType,
         Changes := cs.Changes ++ is.flatMap (elemChanges et xs ys p) }, .nil) := by
  rw [forEach_all_nil _ is
    (fun i _ => indexStep_appends _ (fun x y q => doDiff_appends et x y q) _ _ p i)
    (fun i hi => by rw [indexStep_slice_res]; exact h i hi)]
  simp only [indexStep_slice_changes]

theorem forEach_index_slice_fail (et t1 t2 : Ty) (xs ys : List Val) (p : List PathElement)
    (pre : List Nat) (k : Nat) (post : List Nat)
    (h : ∀ i ∈ pre, elemRes et xs ys p i = .nil) (hk : elemRes et xs ys p k ≠ .nil)
    (cs : changeSet) :
    forEach (indexStep (doDiff et) (.slice t1 xs) (.slice t2 ys) p) (pre ++ k :: post) cs =
      ({ BaseType := cs.BaseType,
         Changes := cs.Changes ++ pre.flatMap (elemChanges et xs ys p)
           ++ elemChanges et xs ys p k }, elemRes et xs ys p k) := by
  rw [forEach_first_fail _ pre k post
    (fun i _ => indexStep_appends _ (fun x y q => doDiff_appends et x y q) _ _ p i)
    (fun i hi => by rw [indexStep_slice_res]; exact h i hi)
    (by rw [indexStep_slice_res]; exact hk)]
  simp only [indexStep_slice_changes, indexStep_slice_res]

theorem range_split (m k : Nat) (hk : k < m) :
    List.range m = List.range k ++ k :: List.range' (k + 1) (m - (k + 1)) := by
  have e1 : List.range' 0 k ++ List.range' (0 + k) ((m - (k + 1)) + 1)
      = List.range' 0 ((m - (k + 1)) + 1 + k) := List.range'_append_1 ..
  have e2 : List.range' k 1 ++ List.range' (k + 1) (m - (k + 1))
      = List.range' k ((m - (k + 1)) + 1) := List.range'_append_1 ..
  have hm : (m - (k + 1)) + 1 + k = m := by omega
  rw [List.range_eq_range', List.range_eq_range', ← hm, ← e1, Nat.zero_add, ← e2, hm]
  rfl

/-- C8: for two slices `a = xs` and `b = ys` of one type compared at path `p`, with
`m = min(len a, len b)`.  First part: when every element comparison below `m` comes back
with a nil error, `doDiff` appends the changes of comparing `a[i]` with `b[i]` at
`p ++ [Index(i)]` for `i = 0..m-1` in ascending order, then one `Deleted` change per index
`m..len a - 1` when `a` is longer, or one `Value` change with payload `b[i]` per index
`m..len b - 1` when `b` is longer, nothing when the lengths are equal, and comes back with
a nil error.  Second part: when `k` is the first index whose comparison does not come back
with a nil error, `doDiff` stops there, having appended the changes of the indices up to
and including `k`, and comes back with what that comparison came back with. -/
theorem doDiff_slice_rule (et : Ty) (xs ys : List Val) (cs : changeSet)
    (p : List PathElement) :
    ((∀ i, i < min xs.length ys.length → elemRes et xs ys p i = .nil) →
      doDiff (.slice et) (.slice et xs) (.slice et ys) cs p =
        ({ BaseType := cs.BaseType,
           Changes := cs.Changes
             ++ (List.range (min xs.length ys.length)).flatMap (elemChanges et xs ys p)
             ++ (if ys.length < xs.length then
                   (List.range' ys.length (xs.length - ys.length)).map
                     (fun i => { Path := p ++ [.index i], NewValue := none, Deleted := true })
                 else if xs.length < ys.length then
                   (List.range' xs.length (ys.length - xs.length)).map
                     (fun i => { Path := p ++ [.index i], NewValue := ys.get? i,
                                 Deleted := false })
                 else []) }, .nil))
    ∧ (∀ k, k < min xs.length ys.length → (∀ i, i < k → elemRes et xs ys p i = .nil) →
        elemRes et xs ys p k ≠ .nil →
        doDiff (.slice et) (.slice et xs) (.slice et ys) cs p =
          ({ BaseType := cs.BaseType,
             Changes := cs.Changes ++ (List.range k).flatMap (elemChanges et xs ys p)
               ++ elemChanges et xs ys p k }, elemRes et xs ys p k)) := by
  constructor
  · intro hok
    simp only [doDiff, Val.Len, intMin_eq, intMax_eq]
    rw [forEach_index_slice_ok et et et xs ys p _ (fun i hi => hok i (List.mem_range.mp hi))]
    simp only
    by_cases h1 : ys.length < xs.length
    · have hmin : min xs.length ys.length = ys.length := by omega
      have hmax : max xs.length ys.length = xs.length := by omega
      have hne : (ys.length != xs.length) = true := by simp; omega
      simp only [hmin, hmax, hne, if_true, beq_self_eq_true, h1, forEach_sliceDelete,
        List.append_assoc]
    · by_cases h2 : xs.length < ys.length
      · have hmin : min xs.length ys.length = xs.length := by omega
        have hmax : max xs.length ys.length = ys.length := by omega
        have hne : (xs.length != ys.length) = true := by simp; omega
        have hne2 : (ys.length == xs.length) = false := by simp; omega
        simp only [hmin, hmax, hne, if_true, hne2, h1, h2, if_false, Bool.false_eq_true]
        rw [forEach_sliceAdd et ys p _ (fun i hi => by
          have := List.mem_range'_1.mp hi; omega)]
      · have hmin : min xs.length ys.length = xs.length := by omega
        have hmax : max xs.length ys.length = xs.length := by omega
        simp [hmin, hmax, h1, h2]
  · intro k hk hpre hfail
    simp only [doDiff, Val.Len, intMin_eq, intMax_eq]
    rw [range_split _ k hk]
    rw [forEach_index_slice_fail et et et xs ys p _ k _
      (fun i hi => hpre i (List.mem_range.mp hi)) hfail]
    cases hr : elemRes et xs ys p k with
    | nil => exact absurd hr hfail
    | error e => rfl
    | panicked => rfl

theorem mapKeyStep_changes (et k1 e1 k2 e2 : Ty) (ea eb : List (Val × Val))
    (p : List PathElement) (k : Val) :
    stepChanges (mapKeyStep (doDiff et) (.map k1 e1 ea) (.map k2 e2 eb) p k)
      = keyChanges et ea eb p k := by
  simp only [stepChanges, mapKeyStep, Val.MapIndex, keyChanges, extendContext, NewKeyElem]
  cases lookupKey k eb <;> cases lookupKey k ea <;>
    simp [doDiff_eq et _ _ _ _, changeSet.AddPathDelete]

theorem mapKeyStep_res (et k1 e1 k2 e2 : Ty) (ea eb : List (Val × Val))
    (p : List PathElement) (k : Val) :
    stepRes (mapKeyStep (doDiff et) (.map k1 e1 ea) (.map k2 e2 eb) p k)
      = keyRes et ea eb p k := by
  simp only [stepRes, mapKeyStep, Val.MapIndex, keyRes, extendContext, NewKeyElem]
  cases lookupKey k eb <;> cases lookupKey k ea <;>
    simp [doDiff_eq et _ _ _ _, changeSet.AddPathDelete]

theorem forEach_mapAdd (k1 e1 k2 e2 : Ty) (ea eb : List (Val × Val)) (p : List PathElement)
    (keys : List Val) (cs : changeSet) :
    forEach (mapAddStep (.map k1 e1 ea) (.map k2 e2 eb) p) keys cs =
      ({ BaseType := cs.BaseType,
         Changes := cs.Changes ++
           (keys.filter (fun k => (lookupKey k ea).isNone)).map
             (fun k => { Path := p ++ [.key k], NewValue := lookupKey k eb, Deleted := false }) },
        .nil) := by
  induction keys generalizing cs with
  | nil => simp [forEach]
  | cons k keys ih =>
    simp only [forEach, mapAddStep, Val.MapIndex]
    cases h : lookupKey k ea with
    | some x => simp [ih, List.filter, h]
    | none =>
      simp [ih, List.filter, h, changeSet.AddPathValue, extendContext, NewKeyElem]

/-- C7: for two maps `a = ea` and `b = eb` of one type compared at path `p`.  First part:
when every comparison of the first loop comes back with a nil error, `doDiff` appends, key
by key in the iteration order of `a`, one `Deleted` change at `p ++ [MapKey(k)]` for a key
`k` that `b` lacks and the changes of comparing `a[k]` with `b[k]` at `p ++ [MapKey(k)]`
for a key that both have, and after all of those one `Value` change at `p ++ [MapKey(k)]`
with payload `b[k]` for every key `k` of `b` that `a` lacks, in the iteration order of
`b`; it comes back with a nil error.  Second part: when `k` is the first key of `a` whose
comparison does not come back with a nil error, `doDiff` stops there, having appended the
changes of the keys up to and including `k`, and comes back with what that comparison came
back with. -/
theorem doDiff_map_rule (kt et : Ty) (ea eb : List (Val × Val)) (cs : changeSet)
    (p : List PathElement) :
    ((∀ k ∈ ea.map Prod.fst, keyRes et ea eb p k = .nil) →
      doDiff (.map kt et) (.map kt et ea) (.map kt et eb) cs p =
        ({ BaseType := cs.BaseType,
           Changes := cs.Changes
             ++ (ea.map Prod.fst).flatMap (keyChanges et ea eb p)
             ++ ((eb.map Prod.fst).filter (fun k => (lookupKey k ea).isNone)).map
                  (fun k => { Path := p ++ [.key k], NewValue := lookupKey k eb,
                              Deleted := false }) }, .nil))
    ∧ (∀ pre k post, ea.map Prod.fst = pre ++ k :: post →
        (∀ z ∈ pre, keyRes et ea eb p z = .nil) → keyRes et ea eb p k ≠ .nil →
        doDiff (.map kt et) (.map kt et ea) (.map kt et eb) cs p =
          ({ BaseType := cs.BaseType,
             Changes := cs.Changes ++ pre.flatMap (keyChanges et ea eb p)
               ++ keyChanges et ea eb p k }, keyRes et ea eb p k)) := by
  constructor
  · intro hok
    simp only [doDiff, Val.MapKeys]
    rw [forEach_all_nil _ _
      (fun k _ => mapKeyStep_appends _ (fun x y q => doDiff_appends et x y q) _ _ p k)
      (fun k hk => by rw [mapKeyStep_res]; exact hok k hk)]
    simp only [forEach_mapAdd, mapKeyStep_changes, List.append_assoc]
  · intro pre k post hsplit hpre hfail
    simp only [doDiff, Val.MapKeys, hsplit]
    rw [forEach_first_fail _ pre k post
      (fun z _ => mapKeyStep_appends _ (fun x y q => doDiff_appends et x y q) _ _ p z)
      (fun z hz => by rw [mapKeyStep_res]; exact hpre z hz)
      (by rw [mapKeyStep_res]; exact hfail)]
    simp only [mapKeyStep_changes, mapKeyStep_res]
    cases hr : keyRes et ea eb p k with
    | nil => exact absurd hr hfail
    | error e => rfl
    | panicked => rfl

/-- C10: for two pointers of one type compared at path `p`: when `a` is absent and `b` is
present, `doDiff` appends exactly one `Value` change at `p ++ [Indirection]` whose payload
is the pointee of `b`; when `a` is present and `b` is absent, exactly one `Deleted` change
at `p ++ [Indirection]`; when both are present, exactly the changes of comparing the two
pointees at `p ++ [Indirection]`, and it comes back with what that comparison came back
with. -/
theorem doDiff_ptr_rule (et : Ty) (x y : Val) (cs : changeSet) (p : List PathElement) :
    doDiff (.ptr et) (.ptr et none) (.ptr et (some y)) cs p =
        ({ BaseType := cs.BaseType,
           Changes := cs.Changes ++
             [{ Path := p ++ [.ptr], NewValue := some y, Deleted := false }] }, .nil)
    ∧ doDiff (.ptr et) (.ptr et (some x)) (.ptr et none) cs p =
        ({ BaseType := cs.BaseType,
           Changes := cs.Changes ++
             [{ Path := p ++ [.ptr], NewValue := none, Deleted := true }] }, .nil)
    ∧ doDiff (.ptr et) (.ptr et (some x)) (.ptr et (some y)) cs p =
        ({ BaseType := cs.BaseType,
           Changes := cs.Changes ++ diffChanges et x y (p ++ [.ptr]) },
          diffRes et x y (p ++ [.ptr])) := by
  refine ⟨?_, ?_, ?_⟩
  · simp [doDiff, Val.IsNil, Val.Elem, changeSet.AddPathValue, extendContext, NewPtrElem]
  · simp [doDiff, Val.IsNil, Val.Elem, changeSet.AddPathDelete, extendContext, NewPtrElem]
  · simp only [doDiff, Val.IsNil, Val.Elem, Option.isNone, extendContext, NewPtrElem]
    exact doDiff_eq et x y cs _

/-- C8, witness: `["a", "b"]` against `["a", "d", "c"]` at the path of a field `tags`
(first part), and the slices of channels `[ch1]` against `[ch1, ch2]`, where the comparison
at index 0 fails and nothing is recorded for index 1 (second part). -/
theorem doDiff_slice_rule_witness :
    doDiff (.slice tStr) (.slice tStr [.str "a", .str "b"])
        (.slice tStr [.str "a", .str "d", .str "c"]) { BaseType := .slice tStr, Changes := [] }
        [.name 1 "tags"] =
      ({ BaseType := .slice tStr,
         Changes := [{ Path := [.name 1 "tags", .index 1], NewValue := some (.str "d"),
                       Deleted := false },
                     { Path := [.name 1 "tags", .index 2], NewValue := some (.str "c"),
                       Deleted := false }] },
       .nil)
    ∧ doDiff (.slice (.leaf .Chan)) (.slice (.leaf .Chan) [.other .Chan 1])
        (.slice (.leaf .Chan) [.other .Chan 1, .other .Chan 2])
        { BaseType := .slice (.leaf .Chan), Changes := [] } [] =
      ({ BaseType := .slice (.leaf .Chan), Changes := [] }, .error (.unhandledKind .Chan)) :=
  ⟨((doDiff_slice_rule tStr _ _ _ _).1 (by
      intro i hi
      have hi2 : i < 2 := by simpa using hi
      interval_cases i <;> rfl)).trans (by rfl),
   ((doDiff_slice_rule (.leaf .Chan) [.other .Chan 1] [.other .Chan 1, .other .Chan 2]
      { BaseType := .slice (.leaf .Chan), Changes := [] } []).2 0 (by decide)
      (by intro i hi; omega) (by intro h; cases h)).trans (by rfl)⟩

/-- C7, witness: `{"k1": 1}` against `{"k2": 2}` gives a deletion at key `k1` and the
value 2 at key `k2` (first part), and the maps of channels `{"k": ch1}` against
`{"k": ch1, "k2": ch2}`, where the comparison at key `k` fails and nothing is recorded for
key `k2` (second part). -/
theorem doDiff_map_rule_witness :
    doDiff (.map tStr tInt) (.map tStr tInt [(.str "k1", .int .Int 1)])
        (.map tStr tInt [(.str "k2", .int .Int 2)]) { BaseType := .map tStr tInt, Changes := [] }
        [] =
      ({ BaseType := .map tStr tInt,
         Changes := [{ Path := [.key (.str "k1")], NewValue := none, Deleted := true },
                     { Path := [.key (.str "k2")], NewValue := some (.int .Int 2),
                       Deleted := false }] },
       .nil)
    ∧ doDiff (.map tStr (.leaf .Chan)) (.map tStr (.leaf .Chan) [(.str "k", .other .Chan 1)])
        (.map tStr (.leaf .Chan) [(.str "k", .other .Chan 1), (.str "k2", .other .Chan 2)])
        { BaseType := .map tStr (.leaf .Chan), Changes := [] } [] =
      ({ BaseType := .map tStr (.leaf .Chan), Changes := [] },
       .error (.unhandledKind .Chan)) :=
  ⟨((doDiff_map_rule tStr tInt _ _ _ _).1 (by
      intro k hk
      simp at hk
      subst hk
      rfl)).trans (by rfl),
   ((doDiff_map_rule tStr (.leaf .Chan) [(.str "k", .other .Chan 1)]
      [(.str "k", .other .Chan 1), (.str "k2", .other .Chan 2)]
      { BaseType := .map tStr (.leaf .Chan), Changes := [] } []).2 [] (.str "k") [] rfl
      (by intro z hz; cases hz) (by intro h; cases h)).trans (by rfl)⟩

/-! ## Legal values: no panic, no type-mismatch error -/

theorem Val.allList_iff (p : Val → Bool) (es : List Val) :
    Val.allList p es = true ↔ ∀ e ∈ es, Val.all p e = true := by
  induction es with
  | nil => simp [Val.allList]
  | cons e es ih => simp [Val.allList, ih]

theorem Val.allFields_iff (p : Val → Bool) (fs : List (String × Val)) :
    Val.allFields p fs = true ↔ ∀ f ∈ fs, Val.all p f.2 = true := by
  induction fs with
  | nil => simp [Val.allFields]
  | cons f fs ih =>
    obtain ⟨n, v⟩ := f
    simp [Val.allFields, ih]

theorem Val.allEntries_iff (p : Val → Bool) (es : List (Val × Val)) :
    Val.allEntries p es = true ↔ ∀ e ∈ es, Val.all p e.1 = true ∧ Val.all p e.2 = true := by
  induction es with
  | nil => simp [Val.allEntries]
  | cons e es ih =>
    obtain ⟨k, v⟩ := e
    simp [Val.allEntries, ih, and_assoc]

theorem Val.all_root (p : Val → Bool) (v : Val) (h : Val.all p v = true) : p v = true := by
  cases v with
  | ptr et x => cases x <;> simp_all [Val.all]
  | _ => simp_all [Val.all]

theorem Val.typeOfFields_eq_map (fs : List (String × Val)) :
    Val.typeOfFields fs = fs.map (fun f => (f.1, f.2.typeOf)) := by
  induction fs with
  | nil => simp [Val.typeOfFields]
  | cons f fs ih =>
    obtain ⟨n, v⟩ := f
    simp [Val.typeOfFields, ih]

theorem forEach_res_invariant {α : Type} (R : Res → Prop) (hnil : R .nil)
    (body : α → changeSet → changeSet × Res) :
    ∀ (xs : List α), (∀ x ∈ xs, ∀ cs, R (body x cs).2) → ∀ cs, R (forEach body xs cs).2
  | [], _, cs => by simpa [forEach] using hnil
  | x :: xs, h, cs => by
    have hx := h x (List.mem_cons_self _ _) cs
    have ih := forEach_res_invariant R hnil body xs (fun y hy => h y (List.mem_cons_of_mem _ hy))
    simp only [forEach]
    rcases hb : body x cs with ⟨cs1, r⟩
    rw [hb] at hx
    cases r with
    | nil => exact ih cs1
    | error e => exact hx
    | panicked => exact hx

theorem Res.clean_nil : Res.Clean .nil := Or.inl rfl

theorem leaf_inv_a (k : Kind) (a : Val) (ha : a.wellTyped = true) (hta : a.typeOf = .leaf k) :
    (k = .Bool ∧ ∃ x, a = .bool x) ∨ (k = .String ∧ ∃ s, a = .str s)
    ∨ (isIntKind k = true ∧ ∃ i, a = .int k i) ∨ (isUintKind k = true ∧ ∃ n, a = .uint k n)
    ∨ ((k = .Float32 ∨ k = .Float64) ∧ ∃ x, a = .float k x)
    ∨ ((k = .Complex64 ∨ k = .Complex128) ∧ ∃ x y, a = .complex k x y)
    ∨ ((k = .Uintptr ∨ k = .Chan ∨ k = .Func ∨ k = .Interface ∨ k = .UnsafePointer)) := by
  cases a <;> simp only [Val.typeOf, Ty.leaf.injEq, reduceCtorEq] at hta <;> subst hta <;>
    simp_all [Val.wellTyped]
  · tauto
  · tauto

theorem compareBasicType_str (x y : String) (cs : changeSet) (q : List PathElement) :
    compareBasicType (.leaf .String) (.str x) (.str y) cs q =
      (if x != y then cs.AddPathValue q (some (.str y)) else cs, .nil) := by
  simp only [compareBasicType, Ty.Kind, Val.asString]; split <;> rfl

theorem compareBasicType_bool (x y : Bool) (cs : changeSet) (q : List PathElement) :
    compareBasicType (.leaf .Bool) (.bool x) (.bool y) cs q =
      (if x != y then cs.AddPathValue q (some (.bool y)) else cs, .nil) := by
  simp only [compareBasicType, Ty.Kind, Val.asBool]; split <;> rfl

theorem compareBasicType_int (k k1 k2 : Kind) (hk : isIntKind k = true) (x y : Int)
    (cs : changeSet) (q : List PathElement) :
    compareBasicType (.leaf k) (.int k1 x) (.int k2 y) cs q =
      (if x != y then cs.AddPathValue q (some (.int k2 y)) else cs, .nil) := by
  cases k <;> simp only [isIntKind, Bool.false_eq_true] at hk <;>
    (simp only [compareBasicType, Ty.Kind, Val.asInt]; split <;> rfl)

theorem compareBasicType_uint (k k1 k2 : Kind) (hk : isUintKind k = true) (x y : Nat)
    (cs : changeSet) (q : List PathElement) :
    compareBasicType (.leaf k) (.uint k1 x) (.uint k2 y) cs q =
      (if x != y then cs.AddPathValue q (some (.uint k2 y)) else cs, .nil) := by
  cases k <;> simp only [isUintKind, Bool.false_eq_true] at hk <;>
    (simp only [compareBasicType, Ty.Kind, Val.asUint]; split <;> rfl)

theorem compareBasicType_float (k k1 k2 : Kind) (hk : k = .Float32 ∨ k = .Float64) (x y : Nat)
    (cs : changeSet) (q : List PathElement) :
    compareBasicType (.leaf k) (.float k1 x) (.float k2 y) cs q =
      (if !f64Eq x y then cs.AddPathValue q (some (.float k2 y)) else cs, .nil) := by
  rcases hk with rfl | rfl <;>
    (simp only [compareBasicType, Ty.Kind, Val.asFloat]; split <;> rfl)

theorem compareBasicType_complex (k k1 k2 : Kind) (hk : k = .Complex64 ∨ k = .Complex128)
    (x1 x2 y1 y2 : Nat) (cs : changeSet) (q : List PathElement) :
    compareBasicType (.leaf k) (.complex k1 x1 x2) (.complex k2 y1 y2) cs q =
      (if !(f64Eq x1 y1 && f64Eq x2 y2) then
          cs.AddPathValue q (some (.complex k2 y1 y2)) else cs, .nil) := by
  rcases hk with rfl | rfl <;>
    (simp only [compareBasicType, Ty.Kind, Val.asComplex]; split <;> rfl)

theorem compareBasicType_unhandled (k : Kind)
    (hk : k = .Uintptr ∨ k = .Chan ∨ k = .Func ∨ k = .Interface ∨ k = .UnsafePointer)
    (a b : Val) (cs : changeSet) (q : List PathElement) :
    compareBasicType (.leaf k) a b cs q = (cs, .error (.unhandledKind k)) := by
  rcases hk with rfl | rfl | rfl | rfl | rfl <;> simp only [compareBasicType, Ty.Kind]

theorem kind_class_disjoint (k : Kind) :
    (isIntKind k = true → isUintKind k = false ∧ k ≠ .Bool ∧ k ≠ .String ∧ k ≠ .Float32
      ∧ k ≠ .Float64 ∧ k ≠ .Complex64 ∧ k ≠ .Complex128)
    ∧ (isUintKind k = true → k ≠ .Bool ∧ k ≠ .String ∧ k ≠ .Float32
      ∧ k ≠ .Float64 ∧ k ≠ .Complex64 ∧ k ≠ .Complex128) := by
  cases k <;> simp [isIntKind, isUintKind]

theorem compareBasicType_clean (k : Kind) (a b : Val) (cs : changeSet) (q : List PathElement)
    (ha : a.wellTyped = true) (hb : b.wellTyped = true)
    (hta : a.typeOf = .leaf k) (htb : b.typeOf = .leaf k) :
    (compareBasicType (.leaf k) a b cs q).2.Clean := by
  have hd := kind_class_disjoint k
  rcases leaf_inv_a k a ha hta with ⟨rfl, x, rfl⟩ | ⟨rfl, s, rfl⟩ | ⟨hk, i, rfl⟩ | ⟨hk, n, rfl⟩
    | ⟨hk, x, rfl⟩ | ⟨hk, x, y, rfl⟩ | hk
  · rcases leaf_inv_a _ b hb htb with ⟨_, y, rfl⟩ | ⟨h, _⟩ | ⟨h, _⟩ | ⟨h, _⟩ | ⟨h, _⟩ | ⟨h, _⟩ | h
    · rw [compareBasicType_bool]; exact Or.inl rfl
    all_goals simp [isIntKind, isUintKind] at h
  · rcases leaf_inv_a _ b hb htb with ⟨h, _⟩ | ⟨_, y, rfl⟩ | ⟨h, _⟩ | ⟨h, _⟩ | ⟨h, _⟩ | ⟨h, _⟩ | h
    · simp at h
    · rw [compareBasicType_str]; exact Or.inl rfl
    all_goals simp [isIntKind, isUintKind] at h
  · have hd1 := hd.1 hk
    rcases leaf_inv_a _ b hb htb with ⟨h, _⟩ | ⟨h, _⟩ | ⟨_, y, rfl⟩ | ⟨h, _⟩ | ⟨h, _⟩ | ⟨h, _⟩ | h
    · exact absurd h hd1.2.1
    · exact absurd h hd1.2.2.1
    · rw [compareBasicType_int k k k hk]; exact Or.inl rfl
    · rw [hd1.1] at h; simp at h
    · rcases h with h | h
      · exact absurd h hd1.2.2.2.1
      · exact absurd h hd1.2.2.2.2.1
    · rcases h with h | h
      · exact absurd h hd1.2.2.2.2.2.1
      · exact absurd h hd1.2.2.2.2.2.2
    · rcases h with rfl | rfl | rfl | rfl | rfl <;> simp [isIntKind] at hk
  · have hd2 := hd.2 hk
    rcases leaf_inv_a _ b hb htb with ⟨h, _⟩ | ⟨h, _⟩ | ⟨h, _⟩ | ⟨_, y, rfl⟩ | ⟨h, _⟩ | ⟨h, _⟩ | h
    · exact absurd h hd2.1
    · exact absurd h hd2.2.1
    · have := (hd.1 h).1; rw [hk] at this; simp at this
    · rw [compareBasicType_uint k k k hk]; exact Or.inl rfl
    · rcases h with h | h
      · exact absurd h hd2.2.2.1
      · exact absurd h hd2.2.2.2.1
    · rcases h with h | h
      · exact absurd h hd2.2.2.2.2.1
      · exact absurd h hd2.2.2.2.2.2
    · rcases h with rfl | rfl | rfl | rfl | rfl <;> simp [isUintKind] at hk
  · rcases leaf_inv_a _ b hb htb with ⟨h, _⟩ | ⟨h, _⟩ | ⟨h, _⟩ | ⟨h, _⟩ | ⟨_, y, rfl⟩ | ⟨h, _⟩ | h
    · rcases hk with rfl | rfl <;> simp at h
    · rcases hk with rfl | rfl <;> simp at h
    · rcases hk with rfl | rfl <;> simp [isIntKind] at h
    · rcases hk with rfl | rfl <;> simp [isUintKind] at h
    · rw [compareBasicType_float k k k hk]; exact Or.inl rfl
    · rcases hk with rfl | rfl <;> simp at h
    · rcases hk with rfl | rfl <;> simp at h
  · rcases leaf_inv_a _ b hb htb with ⟨h, _⟩ | ⟨h, _⟩ | ⟨h, _⟩ | ⟨h, _⟩ | ⟨h, _⟩ | ⟨_, y1, y2, rfl⟩ | h
    · rcases hk with rfl | rfl <;> simp at h
    · rcases hk with rfl | rfl <;> simp at h
    · rcases hk with rfl | rfl <;> simp [isIntKind] at h
    · rcases hk with rfl | rfl <;> simp [isUintKind] at h
    · rcases hk with rfl | rfl <;> simp at h
    · rw [compareBasicType_complex k k k hk]; exact Or.inl rfl
    · rcases hk with rfl | rfl <;> simp at h
  · rw [compareBasicType_unhandled k hk]; exact Or.inr ⟨k, rfl⟩

theorem f64Eq_right_refl (x y : Nat) (h : f64Eq x y = true) : f64Eq y y = true := by
  simp only [f64Eq, Bool.and_eq_true, Bool.not_eq_true', Bool.or_eq_true, beq_iff_eq] at h ⊢
  exact ⟨⟨h.1.2, h.1.2⟩, Or.inl trivial⟩

mutual
theorem Val.goEq_right_refl : ∀ (b a : Val), Val.goEq a b = true → Val.goEq b b = true
  | .bool _, _, _ => by simp [Val.goEq]
  | .int _ _, _, _ => by simp [Val.goEq]
  | .uint _ _, _, _ => by simp [Val.goEq]
  | .str _, _, _ => by simp [Val.goEq]
  | .other _ _, _, _ => by simp [Val.goEq]
  | .float k y, a, h => by
    rcases a with _ | _ | _ | _ | _ | _ | _ | _ | _ | _ | _ | ⟨_, _ | _⟩ <;>
      simp [Val.goEq] at h
    simp [Val.goEq, f64Eq_right_refl _ _ h.2]
  | .complex k y1 y2, a, h => by
    rcases a with _ | _ | _ | _ | _ | _ | _ | _ | _ | _ | _ | ⟨_, _ | _⟩ <;>
      simp [Val.goEq] at h
    simp [Val.goEq, f64Eq_right_refl _ _ h.1.2, f64Eq_right_refl _ _ h.2]
  | .struct gs, a, h => by
    rcases a with _ | _ | _ | _ | _ | _ | _ | _ | _ | _ | _ | ⟨_, _ | _⟩ <;>
      simp [Val.goEq] at h
    simp [Val.goEq, Val.goEqFields_right_refl gs _ h]
  | .map kt et es, a, h => by
    rcases a with _ | _ | _ | _ | _ | _ | _ | _ | _ | _ | _ | ⟨_, _ | _⟩ <;>
      simp [Val.goEq] at h
    simp [Val.goEq, Ty.beq_refl, Val.goEqEntries_right_refl es _ h.2]
  | .array t ys, a, h => by
    rcases a with _ | _ | _ | _ | _ | _ | _ | _ | _ | _ | _ | ⟨_, _ | _⟩ <;>
      simp [Val.goEq] at h
    simp [Val.goEq, Ty.beq_refl, Val.goEqList_right_refl ys _ h.2]
  | .slice t ys, a, h => by
    rcases a with _ | _ | _ | _ | _ | _ | _ | _ | _ | _ | _ | ⟨_, _ | _⟩ <;>
      simp [Val.goEq] at h
    simp [Val.goEq, Ty.beq_refl, Val.goEqList_right_refl ys _ h.2]
  | .ptr t none, _, _ => by simp [Val.goEq, Ty.beq_refl]
  | .ptr t (some y), a, h => by
    cases a with
    | ptr u x =>
      cases x with
      | none => simp [Val.goEq] at h
      | some x =>
        simp [Val.goEq] at h
        simp [Val.goEq, Ty.beq_refl, Val.goEq_right_refl y x h.2]
    | _ => simp [Val.goEq] at h

theorem Val.goEqFields_right_refl : ∀ (gs fs : List (String × Val)),
    Val.goEqFields fs gs = true → Val.goEqFields gs gs = true
  | [], _, _ => by simp [Val.goEqFields]
  | (m, b) :: gs, fs, h => by
    cases fs with
    | nil => simp [Val.goEqFields] at h
    | cons f fs =>
      obtain ⟨n, a⟩ := f
      simp [Val.goEqFields] at h
      simp [Val.goEqFields, Val.goEq_right_refl b a h.1.2, Val.goEqFields_right_refl gs fs h.2]

theorem Val.goEqList_right_refl : ∀ (ys xs : List Val),
    Val.goEqList xs ys = true → Val.goEqList ys ys = true
  | [], _, _ => by simp [Val.goEqList]
  | b :: ys, xs, h => by
    cases xs with
    | nil => simp [Val.goEqList] at h
    | cons a xs =>
      simp [Val.goEqList] at h
      simp [Val.goEqList, Val.goEq_right_refl b a h.1, Val.goEqList_right_refl ys xs h.2]

theorem Val.goEqEntries_right_refl : ∀ (ys xs : List (Val × Val)),
    Val.goEqEntries xs ys = true → Val.goEqEntries ys ys = true
  | [], _, _ => by simp [Val.goEqEntries]
  | (l, b) :: ys, xs, h => by
    cases xs with
    | nil => simp [Val.goEqEntries] at h
    | cons e xs =>
      obtain ⟨k, a⟩ := e
      simp [Val.goEqEntries] at h
      simp [Val.goEqEntries, Val.goEq_right_refl l k h.1.1, Val.goEq_right_refl b a h.1.2,
        Val.goEqEntries_right_refl ys xs h.2]
end

theorem lookupKey_some (key v : Val) (es : List (Val × Val)) (h : lookupKey key es = some v) :
    ∃ k, (k, v) ∈ es ∧ Val.goEq k key = true := by
  induction es with
  | nil => simp [lookupKey] at h
  | cons e es ih =>
    obtain ⟨k, w⟩ := e
    simp only [lookupKey] at h
    split at h
    · rename_i hk
      simp only [Option.some.injEq] at h
      subst h
      exact ⟨k, List.mem_cons_self _ _, hk⟩
    · obtain ⟨k', hmem, hk'⟩ := ih h
      exact ⟨k', List.mem_cons_of_mem _ hmem, hk'⟩

theorem lookupKey_of_mem (key k v : Val) (es : List (Val × Val)) (hmem : (k, v) ∈ es)
    (hk : Val.goEq k key = true) : ∃ w, (lookupKey key es = some w) := by
  induction es with
  | nil => simp at hmem
  | cons e es ih =>
    obtain ⟨k', w⟩ := e
    simp only [lookupKey]
    split
    · exact ⟨w, rfl⟩
    · rename_i hne
      rcases List.mem_cons.mp hmem with h | h
      · simp only [Prod.mk.injEq] at h
        rw [← h.1] at hne
        exact absurd hk hne
      · exact ih h

/-- A key of `a` that `b` also has is found in `a`. -/
theorem lookupKey_self (key y : Val) (ea eb : List (Val × Val))
    (hkey : key ∈ ea.map Prod.fst) (hy : lookupKey key eb = some y) :
    ∃ x, lookupKey key ea = some x := by
  obtain ⟨k', _, hk'⟩ := lookupKey_some key y eb hy
  have hrefl : Val.goEq key key = true := Val.goEq_right_refl key k' hk'
  obtain ⟨⟨k, v⟩, hmem, hfst⟩ := List.mem_map.mp hkey
  simp only at hfst
  subst hfst
  exact lookupKey_of_mem k k v ea hmem hrefl

theorem typeOf_struct_inv (a : Val) (fields : List (String × Ty))
    (h : a.typeOf = .struct fields) : ∃ fs, a = .struct fs ∧ Val.typeOfFields fs = fields := by
  cases a <;> simp only [Val.typeOf, reduceCtorEq, Ty.struct.injEq] at h
  exact ⟨_, rfl, h⟩

theorem typeOf_map_inv (a : Val) (kt et : Ty) (h : a.typeOf = .map kt et) :
    ∃ es, a = .map kt et es := by
  cases a <;> simp only [Val.typeOf, reduceCtorEq, Ty.map.injEq] at h
  obtain ⟨rfl, rfl⟩ := h
  exact ⟨_, rfl⟩

theorem typeOf_array_inv (a : Val) (n : Nat) (et : Ty) (h : a.typeOf = .array n et) :
    ∃ es, a = .array et es ∧ es.length = n := by
  cases a <;> simp only [Val.typeOf, reduceCtorEq, Ty.array.injEq] at h
  obtain ⟨rfl, rfl⟩ := h
  exact ⟨_, rfl, rfl⟩

theorem typeOf_slice_inv (a : Val) (et : Ty) (h : a.typeOf = .slice et) :
    ∃ es, a = .slice et es := by
  cases a <;> simp only [Val.typeOf, reduceCtorEq, Ty.slice.injEq] at h
  subst h
  exact ⟨_, rfl⟩

theorem typeOf_ptr_inv (a : Val) (et : Ty) (h : a.typeOf = .ptr et) :
    ∃ p, a = .ptr et p := by
  cases a <;> simp only [Val.typeOf, reduceCtorEq, Ty.ptr.injEq] at h
  subst h
  exact ⟨_, rfl⟩

theorem WF_struct (fs : List (String × Val)) (h : (Val.struct fs).WF = true) :
    ∀ f ∈ fs, f.2.WF = true := by
  simp only [Val.WF, Val.all, Bool.and_eq_true, Val.allFields_iff] at h
  exact h.2

theorem WF_list_of (et : Ty) (es : List Val)
    (h1 : (es.all (fun e => Ty.beq e.typeOf et)) = true) (h2 : Val.allList Val.wellTyped es = true) :
    ∀ e ∈ es, HasType e et := by
  intro e he
  rw [Val.allList_iff] at h2
  rw [List.all_eq_true] at h1
  exact ⟨h2 e he, Ty.eq_of_beq _ _ (h1 e he)⟩

theorem WF_slice (et : Ty) (es : List Val) (h : (Val.slice et es).WF = true) :
    ∀ e ∈ es, HasType e et := by
  simp only [Val.WF, Val.all, Val.wellTyped, Bool.and_eq_true] at h
  exact WF_list_of et es h.1 h.2

theorem WF_array (et : Ty) (es : List Val) (h : (Val.array et es).WF = true) :
    ∀ e ∈ es, HasType e et := by
  simp only [Val.WF, Val.all, Val.wellTyped, Bool.and_eq_true] at h
  exact WF_list_of et es h.1 h.2

theorem WF_map (kt et : Ty) (es : List (Val × Val)) (h : (Val.map kt et es).WF = true) :
    ∀ e ∈ es, HasType e.1 kt ∧ HasType e.2 et := by
  simp only [Val.WF, Val.all, Val.wellTyped, Bool.and_eq_true, Val.allEntries_iff,
    List.all_eq_true] at h
  intro e he
  exact ⟨⟨(h.2 e he).1, Ty.eq_of_beq _ _ (h.1.1 e he).1⟩,
    ⟨(h.2 e he).2, Ty.eq_of_beq _ _ (h.1.1 e he).2⟩⟩

theorem WF_ptr (et : Ty) (x : Val) (h : (Val.ptr et (some x)).WF = true) : HasType x et := by
  simp only [Val.WF, Val.all, Val.wellTyped, Bool.and_eq_true] at h
  exact ⟨h.2, Ty.eq_of_beq _ _ h.1⟩

theorem lookupKey_mem (key v : Val) (es : List (Val × Val)) (h : lookupKey key es = some v) :
    ∃ e ∈ es, e.2 = v := by
  obtain ⟨k, hk, _⟩ := lookupKey_some key v es h
  exact ⟨(k, v), hk, rfl⟩

theorem fields_drop_cons (fs : List (String × Val)) (f : Nat) (name : String) (t : Ty)
    (rest : List (String × Ty)) (h : (Val.typeOfFields fs).drop f = (name, t) :: rest) :
    ∃ x, (Val.struct fs).Field f = some x ∧ x ∈ fs.map Prod.snd ∧ x.typeOf = t
      ∧ (Val.typeOfFields fs).drop (f + 1) = rest := by
  rw [Val.typeOfFields_eq_map] at h ⊢
  have hlt : f < (fs.map (fun f => (f.1, f.2.typeOf))).length := by
    by_contra hge
    rw [List.drop_eq_nil_of_le (by omega)] at h
    exact absurd h (by simp)
  have hlt2 : f < fs.length := by simpa using hlt
  have hd := List.drop_eq_getElem_cons hlt
  rw [hd] at h
  simp only [List.getElem_map, List.cons.injEq, Prod.mk.injEq] at h
  refine ⟨(fs[f]).2, ?_, ?_, h.1.2, h.2⟩
  · simp [Val.Field, List.getElem?_eq_getElem hlt2]
  · exact List.mem_map.mpr ⟨fs[f], List.getElem_mem hlt2, rfl⟩

theorem mapKeyStep_clean (et kt : Ty) (ea eb : List (Val × Val)) (p : List PathElement)
    (hrec : ∀ x y cs q, HasType x et → HasType y et → (doDiff et x y cs q).2.Clean)
    (ha : (Val.map kt et ea).WF = true) (hb : (Val.map kt et eb).WF = true)
    (key : Val) (hkey : key ∈ ea.map Prod.fst) (cs : changeSet) :
    (mapKeyStep (doDiff et) (.map kt et ea) (.map kt et eb) p key cs).2.Clean := by
  simp only [mapKeyStep, Val.MapIndex]
  cases hy : lookupKey key eb with
  | none => exact Res.clean_nil
  | some y =>
    obtain ⟨x, hx⟩ := lookupKey_self key y ea eb hkey hy
    simp only [hx]
    obtain ⟨e1, he1, rfl⟩ := lookupKey_mem key x ea hx
    obtain ⟨e2, he2, rfl⟩ := lookupKey_mem key y eb hy
    exact hrec _ _ _ _ (WF_map kt et ea ha e1 he1).2 (WF_map kt et eb hb e2 he2).2

theorem mapAddStep_clean (k1 e1 k2 e2 : Ty) (ea eb : List (Val × Val)) (p : List PathElement)
    (key : Val) (cs : changeSet) :
    (mapAddStep (.map k1 e1 ea) (.map k2 e2 eb) p key cs).2.Clean := by
  simp only [mapAddStep, Val.MapIndex]
  cases lookupKey key ea <;> exact Res.clean_nil

theorem indexStep_clean (et : Ty) (v1 v2 : Val) (xs ys : List Val) (p : List PathElement)
    (hrec : ∀ x y cs q, HasType x et → HasType y et → (doDiff et x y cs q).2.Clean)
    (h1 : ∀ i, v1.Index i = xs.get? i) (h2 : ∀ i, v2.Index i = ys.get? i)
    (hx : ∀ e ∈ xs, HasType e et) (hy : ∀ e ∈ ys, HasType e et)
    (i : Nat) (hi1 : i < xs.length) (hi2 : i < ys.length) (cs : changeSet) :
    (indexStep (doDiff et) v1 v2 p i cs).2.Clean := by
  simp only [indexStep, h1, h2, List.get?_eq_get hi1, List.get?_eq_get hi2]
  exact hrec _ _ _ _ (hx _ (List.get_mem _ _ _)) (hy _ (List.get_mem _ _ _))

mutual
/-- On two legal values of type `t` the walk does not panic: it comes back with a nil
error or with the error of an unhandled kind. -/
theorem doDiff_clean : ∀ (t : Ty) (a b : Val) (cs : changeSet) (q : List PathElement),
    HasType a t → HasType b t → (doDiff t a b cs q).2.Clean
  | .leaf k, a, b, cs, q, ha, hb => by
    simp only [doDiff]
    exact compareBasicType_clean k a b cs q (Val.all_root _ _ ha.1) (Val.all_root _ _ hb.1)
      ha.2 hb.2
  | .struct fields, a, b, cs, q, ha, hb => by
    obtain ⟨fsa, rfl, hfa⟩ := typeOf_struct_inv a fields ha.2
    obtain ⟨fsb, rfl, hfb⟩ := typeOf_struct_inv b fields hb.2
    simp only [doDiff]
    exact doDiffFields_clean fields 0 fsa fsb cs q (WF_struct fsa ha.1) (WF_struct fsb hb.1)
      (by simpa using hfa) (by simpa using hfb)
  | .map kt et, a, b, cs, q, ha, hb => by
    obtain ⟨ea, rfl⟩ := typeOf_map_inv a kt et ha.2
    obtain ⟨eb, rfl⟩ := typeOf_map_inv b kt et hb.2
    simp only [doDiff, Val.MapKeys]
    have h1 := forEach_res_invariant Res.Clean Res.clean_nil
      (mapKeyStep (doDiff et) (.map kt et ea) (.map kt et eb) q) (ea.map Prod.fst)
      (fun key hkey cs => mapKeyStep_clean et kt ea eb q
        (fun x y cs q hx hy => doDiff_clean et x y cs q hx hy) ha.1 hb.1 key hkey cs) cs
    rcases hf : forEach (mapKeyStep (doDiff et) (.map kt et ea) (.map kt et eb) q)
      (ea.map Prod.fst) cs with ⟨cs1, r⟩
    rw [hf] at h1
    cases r with
    | nil =>
      exact forEach_res_invariant Res.Clean Res.clean_nil _ _
        (fun key _ cs => mapAddStep_clean kt et kt et ea eb q key cs) cs1
    | error e => exact h1
    | panicked => exact h1
  | .array len et, a, b, cs, q, ha, hb => by
    obtain ⟨xs, rfl, hlx⟩ := typeOf_array_inv a len et ha.2
    obtain ⟨ys, rfl, hly⟩ := typeOf_array_inv b len et hb.2
    simp only [doDiff]
    exact forEach_res_invariant Res.Clean Res.clean_nil _ _
      (fun i hi cs => indexStep_clean et (.array et xs) (.array et ys) xs ys q
        (fun x y cs q hx hy => doDiff_clean et x y cs q hx hy)
        (fun _ => rfl) (fun _ => rfl) (WF_array et xs ha.1) (WF_array et ys hb.1) i
        (by have := List.mem_range.mp hi; omega) (by have := List.mem_range.mp hi; omega) cs) cs
  | .slice et, a, b, cs, q, ha, hb => by
    obtain ⟨xs, rfl⟩ := typeOf_slice_inv a et ha.2
    obtain ⟨ys, rfl⟩ := typeOf_slice_inv b et hb.2
    simp only [doDiff, Val.Len, intMin_eq, intMax_eq]
    have h1 := forEach_res_invariant Res.Clean Res.clean_nil
      (indexStep (doDiff et) (.slice et xs) (.slice et ys) q)
      (List.range (min xs.length ys.length))
      (fun i hi cs => indexStep_clean et (.slice et xs) (.slice et ys) xs ys q
        (fun x y cs q hx hy => doDiff_clean et x y cs q hx hy)
        (fun _ => rfl) (fun _ => rfl) (WF_slice et xs ha.1) (WF_slice et ys hb.1) i
        (by have := List.mem_range.mp hi; omega) (by have := List.mem_range.mp hi; omega) cs) cs
    rcases hf : forEach (indexStep (doDiff et) (.slice et xs) (.slice et ys) q)
      (List.range (min xs.length ys.length)) cs with ⟨cs1, r⟩
    rw [hf] at h1
    cases r with
    | nil =>
      simp only
      split
      · split
        · rw [forEach_sliceDelete]; exact Res.clean_nil
        · rename_i hne hmax
          rw [forEach_sliceAdd et ys q _ (fun i hi => by
            have := List.mem_range'_1.mp hi
            simp at hne hmax
            omega)]
          exact Res.clean_nil
      · exact Res.clean_nil
    | error e => exact h1
    | panicked => exact h1
  | .ptr et, a, b, cs, q, ha, hb => by
    obtain ⟨pa, rfl⟩ := typeOf_ptr_inv a et ha.2
    obtain ⟨pb, rfl⟩ := typeOf_ptr_inv b et hb.2
    simp only [doDiff, Val.IsNil, Val.Elem]
    cases pa with
    | none => exact Res.clean_nil
    | some x =>
      cases pb with
      | none => exact Res.clean_nil
      | some y =>
        simp only [Option.isNone]
        exact doDiff_clean et x y cs _ (WF_ptr et x ha.1) (WF_ptr et y hb.1)
theorem doDiffFields_clean : ∀ (rest : List (String × Ty)) (f : Nat)
    (fsa fsb : List (String × Val)) (cs : changeSet) (q : List PathElement),
    (∀ x ∈ fsa, x.2.WF = true) → (∀ x ∈ fsb, x.2.WF = true) →
    (Val.typeOfFields fsa).drop f = rest → (Val.typeOfFields fsb).drop f = rest →
    (doDiffFields rest f (.struct fsa) (.struct fsb) cs q).2.Clean
  | [], f, fsa, fsb, cs, q, _, _, _, _ => by
    simp only [doDiffFields]; exact Res.clean_nil
  | (name, t) :: rest, f, fsa, fsb, cs, q, ha, hb, hda, hdb => by
    obtain ⟨x, hx, hxm, hxt, hda1⟩ := fields_drop_cons fsa f name t rest hda
    obtain ⟨y, hy, hym, hyt, hdb1⟩ := fields_drop_cons fsb f name t rest hdb
    simp only [doDiffFields, hx, hy]
    obtain ⟨ex, hex, rfl⟩ := List.mem_map.mp hxm
    obtain ⟨ey, hey, rfl⟩ := List.mem_map.mp hym
    have h1 := doDiff_clean t ex.2 ey.2 cs (extendContext q (NewNameElem f name))
      ⟨ha ex hex, hxt⟩ ⟨hb ey hey, hyt⟩
    rcases hf : doDiff t ex.2 ey.2 cs (extendContext q (NewNameElem f name)) with ⟨cs1, r⟩
    rw [hf] at h1
    cases r with
    | nil => exact doDiffFields_clean rest (f + 1) fsa fsb cs1 q ha hb hda1 hdb1
    | error e => exact h1
    | panicked => exact h1
end

/-! ## A plain value compared with itself -/

mutual
theorem Val.all_and (p r : Val → Bool) : ∀ v : Val,
    Val.all (fun v => p v && r v) v = (Val.all p v && Val.all r v)
  | .bool _ | .int _ _ | .uint _ _ | .float _ _ | .complex _ _ _ | .str _ | .other _ _
  | .ptr _ none => by simp [Val.all]
  | .struct fs => by
    simp only [Val.all, Val.allFields_and p r fs]
    cases p (.struct fs) <;> cases r (.struct fs) <;> cases Val.allFields p fs <;> simp
  | .map kt et es => by
    simp only [Val.all, Val.allEntries_and p r es]
    cases p (.map kt et es) <;> cases r (.map kt et es) <;> cases Val.allEntries p es <;> simp
  | .array et es => by
    simp only [Val.all, Val.allList_and p r es]
    cases p (.array et es) <;> cases r (.array et es) <;> cases Val.allList p es <;> simp
  | .slice et es => by
    simp only [Val.all, Val.allList_and p r es]
    cases p (.slice et es) <;> cases r (.slice et es) <;> cases Val.allList p es <;> simp
  | .ptr et (some x) => by
    simp only [Val.all, Val.all_and p r x]
    cases p (.ptr et (some x)) <;> cases r (.ptr et (some x)) <;> cases Val.all p x <;> simp
theorem Val.allFields_and (p r : Val → Bool) : ∀ fs : List (String × Val),
    Val.allFields (fun v => p v && r v) fs = (Val.allFields p fs && Val.allFields r fs)
  | [] => by simp [Val.allFields]
  | (_, v) :: fs => by
    simp only [Val.allFields, Val.all_and p r v, Val.allFields_and p r fs]
    cases Val.all p v <;> cases Val.all r v <;> cases Val.allFields p fs <;> simp
theorem Val.allList_and (p r : Val → Bool) : ∀ vs : List Val,
    Val.allList (fun v => p v && r v) vs = (Val.allList p vs && Val.allList r vs)
  | [] => by simp [Val.allList]
  | v :: vs => by
    simp only [Val.allList, Val.all_and p r v, Val.allList_and p r vs]
    cases Val.all p v <;> cases Val.all r v <;> cases Val.allList p vs <;> simp
theorem Val.allEntries_and (p r : Val → Bool) : ∀ es : List (Val × Val),
    Val.allEntries (fun v => p v && r v) es = (Val.allEntries p es && Val.allEntries r es)
  | [] => by simp [Val.allEntries]
  | (k, v) :: es => by
    simp only [Val.allEntries, Val.all_and p r k, Val.all_and p r v, Val.allEntries_and p r es]
    cases Val.all p k <;> cases Val.all r k <;> cases Val.all p v <;> cases Val.all r v <;>
      cases Val.allEntries p es <;> simp
end

theorem f64Eq_self (x : Nat) (h : f64IsNaN x = false) : f64Eq x x = true := by
  simp [f64Eq, h]

mutual
theorem Val.goEq_refl : ∀ v : Val, Val.all Val.notNaN v = true → Val.goEq v v = true
  | .bool _, _ | .int _ _, _ | .uint _ _, _ | .str _, _ | .other _ _, _ => by simp [Val.goEq]
  | .float k x, h => by
    simp only [Val.all, Val.notNaN, Bool.not_eq_true'] at h
    simp [Val.goEq, f64Eq_self x h]
  | .complex k x y, h => by
    simp only [Val.all, Val.notNaN, Bool.and_eq_true, Bool.not_eq_true'] at h
    simp [Val.goEq, f64Eq_self x h.1, f64Eq_self y h.2]
  | .struct fs, h => by
    simp only [Val.all, Bool.and_eq_true] at h
    simp [Val.goEq, Val.goEqFields_refl fs h.2]
  | .map kt et es, h => by
    simp only [Val.all, Bool.and_eq_true] at h
    simp [Val.goEq, Ty.beq_refl, Val.goEqEntries_refl es h.2]
  | .array et es, h => by
    simp only [Val.all, Bool.and_eq_true] at h
    simp [Val.goEq, Ty.beq_refl, Val.goEqList_refl es h.2]
  | .slice et es, h => by
    simp only [Val.all, Bool.and_eq_true] at h
    simp [Val.goEq, Ty.beq_refl, Val.goEqList_refl es h.2]
  | .ptr et none, _ => by simp [Val.goEq, Ty.beq_refl]
  | .ptr et (some x), h => by
    simp only [Val.all, Bool.and_eq_true] at h
    simp [Val.goEq, Ty.beq_refl, Val.goEq_refl x h.2]
theorem Val.goEqFields_refl : ∀ fs : List (String × Val),
    Val.allFields Val.notNaN fs = true → Val.goEqFields fs fs = true
  | [], _ => by simp [Val.goEqFields]
  | (_, v) :: fs, h => by
    simp only [Val.allFields, Bool.and_eq_true] at h
    simp [Val.goEqFields, Val.goEq_refl v h.1, Val.goEqFields_refl fs h.2]
theorem Val.goEqList_refl : ∀ vs : List Val,
    Val.allList Val.notNaN vs = true → Val.goEqList vs vs = true
  | [], _ => by simp [Val.goEqList]
  | v :: vs, h => by
    simp only [Val.allList, Bool.and_eq_true] at h
    simp [Val.goEqList, Val.goEq_refl v h.1, Val.goEqList_refl vs h.2]
theorem Val.goEqEntries_refl : ∀ es : List (Val × Val),
    Val.allEntries Val.notNaN es = true → Val.goEqEntries es es = true
  | [], _ => by simp [Val.goEqEntries]
  | (k, v) :: es, h => by
    simp only [Val.allEntries, Bool.and_eq_true] at h
    simp [Val.goEqEntries, Val.goEq_refl k h.1.1, Val.goEq_refl v h.1.2,
      Val.goEqEntries_refl es h.2]
end

theorem forEach_noop {α : Type} (body : α → changeSet → changeSet × Res) (xs : List α)
    (h : ∀ x ∈ xs, ∀ cs, body x cs = (cs, .nil)) (cs : changeSet) :
    forEach body xs cs = (cs, .nil) := by
  induction xs with
  | nil => simp [forEach]
  | cons x xs ih =>
    simp only [forEach, h x (List.mem_cons_self _ _) cs]
    exact ih (fun y hy => h y (List.mem_cons_of_mem _ hy))

theorem Val.all_plain (v : Val) :
    Val.all Val.plain v =
      (v.WF && Val.all Val.supportedLeaf v && Val.all Val.notNaN v && Val.all Val.notNilPtr v) := by
  have h : Val.plain = fun v =>
      ((Val.wellTyped v && Val.supportedLeaf v) && Val.notNaN v) && Val.notNilPtr v := by
    funext v; rfl
  rw [h, Val.all_and, Val.all_and, Val.all_and]
  rfl

theorem plain_WF (v : Val) (h : Val.all Val.plain v = true) : v.WF = true := by
  rw [Val.all_plain] at h
  simp only [Bool.and_eq_true] at h
  exact h.1.1.1

theorem plain_notNaN (v : Val) (h : Val.all Val.plain v = true) :
    Val.all Val.notNaN v = true := by
  rw [Val.all_plain] at h
  simp only [Bool.and_eq_true] at h
  exact h.1.2

theorem plain_slice (et : Ty) (es : List Val) (h : Val.all Val.plain (.slice et es) = true) :
    ∀ e ∈ es, Val.all Val.plain e = true ∧ e.typeOf = et := by
  intro e he
  have hwf := WF_slice et es (plain_WF _ h) e he
  simp only [Val.all, Bool.and_eq_true, Val.allList_iff] at h
  exact ⟨h.2 e he, hwf.2⟩

theorem plain_array (et : Ty) (es : List Val) (h : Val.all Val.plain (.array et es) = true) :
    ∀ e ∈ es, Val.all Val.plain e = true ∧ e.typeOf = et := by
  intro e he
  have hwf := WF_array et es (plain_WF _ h) e he
  simp only [Val.all, Bool.and_eq_true, Val.allList_iff] at h
  exact ⟨h.2 e he, hwf.2⟩

theorem plain_map (kt et : Ty) (es : List (Val × Val))
    (h : Val.all Val.plain (.map kt et es) = true) :
    ∀ e ∈ es, Val.all Val.plain e.1 = true ∧ Val.all Val.plain e.2 = true ∧ e.2.typeOf = et := by
  intro e he
  have hwf := WF_map kt et es (plain_WF _ h) e he
  simp only [Val.all, Bool.and_eq_true, Val.allEntries_iff] at h
  exact ⟨(h.2 e he).1, (h.2 e he).2, hwf.2.2⟩

theorem plain_struct (fs : List (String × Val)) (h : Val.all Val.plain (.struct fs) = true) :
    ∀ f ∈ fs, Val.all Val.plain f.2 = true := by
  simp only [Val.all, Bool.and_eq_true, Val.allFields_iff] at h
  exact h.2

theorem plain_ptr (et : Ty) (p : Option Val) (h : Val.all Val.plain (.ptr et p) = true) :
    ∃ x, p = some x ∧ Val.all Val.plain x = true ∧ x.typeOf = et := by
  cases p with
  | none => simp [Val.all, Val.plain, Val.notNilPtr] at h
  | some x =>
    have hwf := WF_ptr et x (plain_WF _ h)
    simp only [Val.all, Bool.and_eq_true] at h
    exact ⟨x, rfl, h.2, hwf.2⟩

theorem compareBasicType_self (k : Kind) (a : Val) (cs : changeSet) (q : List PathElement)
    (hp : a.plain = true) (hta : a.typeOf = .leaf k) :
    compareBasicType (.leaf k) a a cs q = (cs, .nil) := by
  simp only [Val.plain, Bool.and_eq_true] at hp
  obtain ⟨⟨⟨hw, hs⟩, hn⟩, _⟩ := hp
  rcases leaf_inv_a k a hw hta with ⟨rfl, x, rfl⟩ | ⟨rfl, s, rfl⟩ | ⟨hk, i, rfl⟩ | ⟨hk, n, rfl⟩
    | ⟨hk, x, rfl⟩ | ⟨hk, x, y, rfl⟩ | hk
  · rw [compareBasicType_bool]; simp
  · rw [compareBasicType_str]; simp
  · rw [compareBasicType_int k k k hk]; simp
  · rw [compareBasicType_uint k k k hk]; simp
  · rw [compareBasicType_float k k k hk]
    simp only [Val.notNaN, Bool.not_eq_true'] at hn
    simp [f64Eq_self x hn]
  · rw [compareBasicType_complex k k k hk]
    simp only [Val.notNaN, Bool.and_eq_true, Bool.not_eq_true'] at hn
    simp [f64Eq_self x hn.1, f64Eq_self y hn.2]
  · exfalso
    rcases hk with rfl | rfl | rfl | rfl | rfl <;>
      (cases a <;> simp only [Val.typeOf, Ty.leaf.injEq, reduceCtorEq] at hta <;> subst hta <;>
        simp [Val.wellTyped, Val.supportedLeaf, isIntKind, isUintKind] at hw hs)

mutual
/-- Comparing a plain value with itself records nothing and comes back with a nil error. -/
theorem doDiff_self : ∀ (t : Ty) (a : Val) (cs : changeSet) (q : List PathElement),
    Val.all Val.plain a = true → a.typeOf = t → doDiff t a a cs q = (cs, .nil)
  | .leaf k, a, cs, q, hp, ht => by
    simp only [doDiff]
    exact compareBasicType_self k a cs q (Val.all_root _ _ hp) ht
  | .struct fields, a, cs, q, hp, ht => by
    obtain ⟨fs, rfl, hf⟩ := typeOf_struct_inv a fields ht
    simp only [doDiff]
    exact doDiffFields_self fields 0 fs cs q (plain_struct fs hp) (by simpa using hf)
  | .map kt et, a, cs, q, hp, ht => by
    obtain ⟨ea, rfl⟩ := typeOf_map_inv a kt et ht
    have hent := plain_map kt et ea hp
    have hfind : ∀ key ∈ ea.map Prod.fst, ∃ x, lookupKey key ea = some x := by
      intro key hkey
      obtain ⟨⟨k, v⟩, hmem, rfl⟩ := List.mem_map.mp hkey
      exact lookupKey_of_mem k k v ea hmem (Val.goEq_refl k (plain_notNaN k (hent _ hmem).1))
    simp only [doDiff, Val.MapKeys]
    rw [forEach_noop _ _ (fun key hkey cs => by
      obtain ⟨x, hx⟩ := hfind key hkey
      obtain ⟨e, he, rfl⟩ := lookupKey_mem key x ea hx
      simp only [mapKeyStep, Val.MapIndex, hx]
      exact doDiff_self et e.2 cs _ (hent e he).2.1 (hent e he).2.2)]
    simp only
    exact forEach_noop _ _ (fun key hkey cs => by
      obtain ⟨x, hx⟩ := hfind key hkey
      simp only [mapAddStep, Val.MapIndex, hx]) cs
  | .array len et, a, cs, q, hp, ht => by
    obtain ⟨xs, rfl, hl⟩ := typeOf_array_inv a len et ht
    have hel := plain_array et xs hp
    simp only [doDiff]
    exact forEach_noop _ _ (fun i hi cs => by
      have hi2 : i < xs.length := by have := List.mem_range.mp hi; omega
      simp only [indexStep, Val.Index, List.get?_eq_get hi2]
      exact doDiff_self et _ cs _ (hel _ (List.get_mem _ _ _)).1 (hel _ (List.get_mem _ _ _)).2) cs
  | .slice et, a, cs, q, hp, ht => by
    obtain ⟨xs, rfl⟩ := typeOf_slice_inv a et ht
    have hel := plain_slice et xs hp
    simp only [doDiff, Val.Len, intMin_eq, intMax_eq, Nat.min_self, Nat.max_self]
    rw [forEach_noop _ _ (fun i hi cs => by
      have hi2 : i < xs.length := List.mem_range.mp hi
      simp only [indexStep, Val.Index, List.get?_eq_get hi2]
      exact doDiff_self et _ cs _ (hel _ (List.get_mem _ _ _)).1 (hel _ (List.get_mem _ _ _)).2)]
    simp
  | .ptr et, a, cs, q, hp, ht => by
    obtain ⟨p, rfl⟩ := typeOf_ptr_inv a et ht
    obtain ⟨x, rfl, hx, hxt⟩ := plain_ptr et p hp
    simp only [doDiff, Val.IsNil, Val.Elem, Option.isNone]
    exact doDiff_self et x cs _ hx hxt
theorem doDiffFields_self : ∀ (rest : List (String × Ty)) (f : Nat)
    (fs : List (String × Val)) (cs : changeSet) (q : List PathElement),
    (∀ x ∈ fs, Val.all Val.plain x.2 = true) → (Val.typeOfFields fs).drop f = rest →
    doDiffFields rest f (.struct fs) (.struct fs) cs q = (cs, .nil)
  | [], f, fs, cs, q, _, _ => by simp only [doDiffFields]
  | (name, t) :: rest, f, fs, cs, q, hp, hd => by
    obtain ⟨x, hx, hxm, hxt, hd1⟩ := fields_drop_cons fs f name t rest hd
    obtain ⟨ex, hex, rfl⟩ := List.mem_map.mp hxm
    simp only [doDiffFields, hx]
    rw [doDiff_self t ex.2 cs _ (hp ex hex) hxt]
    exact doDiffFields_self rest (f + 1) fs cs q hp hd1
end

/-! ## The claims on `Diff` -/

/-- C2 (amended): for every legal value `a` all of whose leaves are of a supported scalar
kind and that holds neither a NaN nor an absent pointer, `Diff(a, a)` returns a nil error
and a change set with the type of `a` and an empty `Changes` list. -/
theorem Diff_self_empty (a : Val) (hwf : a.WF = true)
    (hs : Val.all Val.supportedLeaf a = true) (hn : Val.all Val.notNaN a = true)
    (hp : Val.all Val.notNilPtr a = true) :
    Diff (some a) (some a) = .returned (some { BaseType := a.typeOf, Changes := [] }) none := by
  have hplain : Val.all Val.plain a = true := by
    rw [Val.all_plain, hwf, hs, hn, hp]; rfl
  simp only [Diff, Ty.beq_refl, Bool.not_true, Bool.false_eq_true, if_false]
  rw [doDiff_self a.typeOf a _ [] hplain rfl]

/-- C2, witness: the struct `{name: "x", tags: ["a", "b"]}` compared with itself. -/
theorem Diff_self_empty_witness :
    Diff (some (.struct [("name", .str "x"), ("tags", .slice tStr [.str "a", .str "b"])]))
        (some (.struct [("name", .str "x"), ("tags", .slice tStr [.str "a", .str "b"])]))
      = .returned (some { BaseType := .struct [("name", tStr), ("tags", .slice tStr)],
                          Changes := [] }) none :=
  Diff_self_empty _ (by decide) (by decide) (by decide) (by decide)

/-- C2, counterexample: a float64 NaN is a legal value of a supported kind, and `Diff` of it
with itself returns a change set with one change, because `NaN != NaN`. -/
theorem Diff_self_nan_counterexample :
    (Val.float .Float64 nan64).WF = true
    ∧ Val.all Val.supportedLeaf (Val.float .Float64 nan64) = true
    ∧ Diff (some (.float .Float64 nan64)) (some (.float .Float64 nan64))
      = .returned (some { BaseType := .leaf .Float64,
                          Changes := [{ Path := [], NewValue := some (.float .Float64 nan64),
                                        Deleted := false }] }) none := by
  refine ⟨by decide, by decide, by rfl⟩

/-- C3: when the runtime types of `a` and `b` differ, `Diff(a, b)` returns a nil change set
and the type-mismatch error; when `a` and `b` are legal values of one type, `Diff(a, b)`
returns a change set whose `BaseType` is that type, and the error it returns with it, if
any, is not a type-mismatch error. -/
theorem Diff_type_rule (a b : Val) :
    (a.typeOf ≠ b.typeOf →
      Diff (some a) (some b) = .returned none (some (.typeMismatch a.typeOf b.typeOf)))
    ∧ (a.WF = true → b.WF = true → a.typeOf = b.typeOf →
      ∃ cs err, Diff (some a) (some b) = .returned (some cs) err
        ∧ cs.BaseType = a.typeOf ∧ ∀ t1 t2, err ≠ some (.typeMismatch t1 t2)) := by
  constructor
  · intro hne
    have hb : Ty.beq a.typeOf b.typeOf = false := by
      cases h : Ty.beq a.typeOf b.typeOf with
      | false => rfl
      | true => exact absurd (Ty.eq_of_beq _ _ h) hne
    simp [Diff, hb]
  · intro ha hb heq
    have hclean := doDiff_clean a.typeOf a b { BaseType := a.typeOf, Changes := [] } []
      ⟨ha, rfl⟩ ⟨hb, heq.symm⟩
    have hacc := doDiff_eq a.typeOf a b { BaseType := a.typeOf, Changes := [] } []
    simp only [Diff, ← heq, Ty.beq_refl, Bool.not_true, Bool.false_eq_true, if_false]
    rw [hacc] at hclean ⊢
    simp only at hclean
    rcases hclean with h | ⟨k, h⟩
    · rw [h]
      exact ⟨_, none, rfl, rfl, by intro t1 t2 h; cases h⟩
    · rw [h]
      exact ⟨_, some (.unhandledKind k), rfl, rfl, by intro t1 t2 h; cases h⟩

/-- C3, witness: a string against an int, and two maps of one type. -/
theorem Diff_type_rule_witness :
    Diff (some (.str "x")) (some (.int .Int 1))
        = .returned none (some (.typeMismatch (.leaf .String) (.leaf .Int)))
    ∧ ∃ cs err, Diff (some (.map tStr tInt [(.str "k1", .int .Int 1)]))
          (some (.map tStr tInt [(.str "k2", .int .Int 2)])) = .returned (some cs) err
        ∧ cs.BaseType = .map tStr tInt ∧ ∀ t1 t2, err ≠ some (.typeMismatch t1 t2) :=
  ⟨(Diff_type_rule (.str "x") (.int .Int 1)).1 (by simp [Val.typeOf]),
   (Diff_type_rule (.map tStr tInt [(.str "k1", .int .Int 1)])
      (.map tStr tInt [(.str "k2", .int .Int 2)])).2 (by decide) (by decide) rfl⟩

/-- C4, evaluation at the failing input: for `a = {A: "x", B: ch}` and `b = {A: "y", B: ch}`
with a channel field `B`, `Diff(a, b)` returns the unhandled-kind error together with a
non-nil change set that already holds the change recorded for field `A`. -/
theorem Diff_unhandled_kind_returns_changeSet :
    Diff (some (.struct [("A", .str "x"), ("B", .other .Chan 1)]))
        (some (.struct [("A", .str "y"), ("B", .other .Chan 1)]))
      = .returned
          (some { BaseType := .struct [("A", .leaf .String), ("B", .leaf .Chan)],
                  Changes := [{ Path := [.name 0 "A"], NewValue := some (.str "y"),
                                Deleted := false }] })
          (some (.unhandledKind .Chan)) := by
  rfl

/-- C5, evaluation at the failing input: for two nil pointers of type `*int`, `Diff`
returns one change whose `Deleted` is false and whose `NewValue` is the zero Value: a
change with neither payload. -/
theorem Diff_nil_nil_change_without_payload :
    Diff (some (.ptr tInt none)) (some (.ptr tInt none))
      = .returned
          (some { BaseType := .ptr tInt,
                  Changes := [{ Path := [.ptr], NewValue := none, Deleted := false }] })
          none := by
  rfl

/-- C9, the code at two absent pointers: for every pointer type, change set and path,
`doDiff` on two nil pointers comes back with a nil error but appends one change at
`p ++ [Indirection]`, with `Deleted` false and the zero Value as `NewValue`; it is not a
no-op. -/
theorem doDiff_nil_nil_appends (et : Ty) (cs : changeSet) (p : List PathElement) :
    doDiff (.ptr et) (.ptr et none) (.ptr et none) cs p =
      ({ BaseType := cs.BaseType,
         Changes := cs.Changes ++ [{ Path := p ++ [.ptr], NewValue := none, Deleted := false }] },
        .nil) := by
  simp [doDiff, Val.IsNil, Val.Elem, changeSet.AddPathValue, extendContext, NewPtrElem]

/-! ## What the recorded values are -/

theorem stepChanges_const (r : Res) : stepChanges (fun cs => (cs, r)) = [] := rfl

theorem stepChanges_seq {f g : changeSet → changeSet × Res} (hf : Appends f) (hg : Appends g)
    (c : Change)
    (hc : c ∈ stepChanges (fun cs => match f cs with
      | (cs1, .nil) => g cs1
      | r => r)) : c ∈ stepChanges f ∨ c ∈ stepChanges g := by
  simp only [stepChanges] at hc
  rw [hf] at hc
  cases hr : stepRes f with
  | nil =>
    rw [hr] at hc
    simp only at hc
    rw [hg] at hc
    simpa using hc
  | error e =>
    rw [hr] at hc
    left; simpa using hc
  | panicked =>
    rw [hr] at hc
    left; simpa using hc

theorem stepChanges_forEach {α : Type} (body : α → changeSet → changeSet × Res) :
    ∀ (xs : List α), (∀ x ∈ xs, Appends (body x)) →
      ∀ c ∈ stepChanges (forEach body xs), ∃ x ∈ xs, c ∈ stepChanges (body x)
  | [], _, c, hc => by simp [stepChanges, forEach] at hc
  | x :: xs, ha, c, hc => by
    have hx := ha x (List.mem_cons_self _ _)
    have hxs := forEach_appends body xs (fun y hy => ha y (List.mem_cons_of_mem _ hy))
    have hseq : forEach body (x :: xs) = (fun cs => match body x cs with
        | (cs1, .nil) => forEach body xs cs1
        | r => r) := by
      funext cs
      rcases hb : body x cs with ⟨cs1, r⟩
      cases r <;> simp [forEach, hb]
    rw [hseq] at hc
    rcases stepChanges_seq hx hxs c hc with h | h
    · exact ⟨x, List.mem_cons_self _ _, h⟩
    · obtain ⟨y, hy, hcy⟩ := stepChanges_forEach body xs
        (fun y hy => ha y (List.mem_cons_of_mem _ hy)) c h
      exact ⟨y, List.mem_cons_of_mem _ hy, hcy⟩

theorem compareBasicType_changes (t : Ty) (a b : Val) (q : List PathElement) (c : Change)
    (hc : c ∈ stepChanges (fun cs => compareBasicType t a b cs q)) :
    c = { Path := q, NewValue := some b, Deleted := false } := by
  simp only [stepChanges] at hc
  unfold compareBasicType at hc
  cases hk : t.Kind <;> simp only [hk] at hc <;>
    first
    | (simp at hc; done)
    | (split at hc <;>
        first
        | (simp at hc; done)
        | (split at hc <;> simp [changeSet.AddPathValue] at hc; exact hc))

theorem readsFrom_child (b y : Val) (q : List PathElement) (step : PathElement) (c : Change)
    (hstep : ∀ rel, follow b (step :: rel) = follow y rel)
    (h : ReadsFrom y (q ++ [step]) c) : ReadsFrom b q c := by
  obtain ⟨rel, hp, hv⟩ := h
  exact ⟨step :: rel, by simp [hp], fun hd => by rw [hv hd, hstep]⟩

theorem mapKeyStep_readsFrom (recur : Val → Val → changeSet → List PathElement → changeSet × Res)
    (hrec : ∀ x y q, ∀ c ∈ stepChanges (fun cs => recur x y cs q), ReadsFrom y q c)
    (v1 v2 : Val) (q : List PathElement) (key : Val) (c : Change)
    (hc : c ∈ stepChanges (mapKeyStep recur v1 v2 q key)) : ReadsFrom v2 q c := by
  simp only [stepChanges, mapKeyStep] at hc
  cases h2 : v2.MapIndex key with
  | none => simp [h2] at hc
  | some val2 =>
    cases val2 with
    | none =>
      simp [h2, changeSet.AddPathDelete, extendContext, NewKeyElem] at hc
      exact ⟨[.key key], by simp [hc], by simp [hc]⟩
    | some y =>
      simp only [h2] at hc
      cases h1 : v1.MapIndex key with
      | none => simp [h1] at hc
      | some val1 =>
        cases val1 with
        | none => simp [h1] at hc
        | some x =>
          simp only [h1] at hc
          refine readsFrom_child v2 y q (.key key) c (fun rel => by simp [follow, h2]) ?_
          exact hrec x y _ c hc

theorem mapAddStep_readsFrom (v1 v2 : Val) (q : List PathElement) (key : Val) (c : Change)
    (hc : c ∈ stepChanges (mapAddStep v1 v2 q key)) : ReadsFrom v2 q c := by
  simp only [stepChanges, mapAddStep] at hc
  cases h1 : v1.MapIndex key with
  | none => simp [h1] at hc
  | some val1 =>
    cases val1 with
    | some x => simp [h1] at hc
    | none =>
      simp only [h1] at hc
      cases h2 : v2.MapIndex key with
      | none => simp [h2] at hc
      | some val =>
        simp [h2, changeSet.AddPathValue, extendContext, NewKeyElem] at hc
        refine ⟨[.key key], by simp [hc], fun _ => ?_⟩
        cases val <;> simp [hc, follow, h2]

theorem indexStep_readsFrom (recur : Val → Val → changeSet → List PathElement → changeSet × Res)
    (hrec : ∀ x y q, ∀ c ∈ stepChanges (fun cs => recur x y cs q), ReadsFrom y q c)
    (v1 v2 : Val) (q : List PathElement) (i : Nat) (c : Change)
    (hc : c ∈ stepChanges (indexStep recur v1 v2 q i)) : ReadsFrom v2 q c := by
  simp only [stepChanges, indexStep] at hc
  cases h1 : v1.Index i with
  | none => simp [h1] at hc
  | some x =>
    cases h2 : v2.Index i with
    | none => simp [h1, h2] at hc
    | some y =>
      simp only [h1, h2] at hc
      refine readsFrom_child v2 y q (.index i) c (fun rel => by simp [follow, h2]) ?_
      exact hrec x y _ c hc

theorem sliceAddStep_readsFrom (v2 : Val) (q : List PathElement) (i : Nat) (c : Change)
    (hc : c ∈ stepChanges (sliceAddStep v2 q i)) : ReadsFrom v2 q c := by
  simp only [stepChanges, sliceAddStep] at hc
  cases h2 : v2.Index i with
  | none => simp [h2] at hc
  | some y =>
    simp [h2, changeSet.AddPathValue, extendContext, NewIndexElem] at hc
    exact ⟨[.index i], by simp [hc], fun _ => by simp [hc, follow, h2]⟩

theorem sliceDeleteStep_readsFrom (v2 : Val) (q : List PathElement) (i : Nat) (c : Change)
    (hc : c ∈ stepChanges (sliceDeleteStep q i)) : ReadsFrom v2 q c := by
  simp [stepChanges, sliceDeleteStep, changeSet.AddPathDelete, extendContext, NewIndexElem] at hc
  exact ⟨[.index i], by simp [hc], by simp [hc]⟩

mutual
/-- Every `Value` change that `doDiff` records holds what the path of the change reads in
the second value. -/
theorem doDiff_readsFrom : ∀ (t : Ty) (a b : Val) (q : List PathElement),
    ∀ c ∈ stepChanges (fun cs => doDiff t a b cs q), ReadsFrom b q c
  | .leaf k, a, b, q, c, hc => by
    simp only [doDiff] at hc
    have h := compareBasicType_changes _ a b q c hc
    exact ⟨[], by simp [h], fun _ => by simp [h, follow]⟩
  | .struct fields, a, b, q, c, hc => by
    simp only [doDiff] at hc
    exact doDiffFields_readsFrom fields 0 a b q c hc
  | .map kt et, a, b, q, c, hc => by
    simp only [doDiff] at hc
    cases h1 : a.MapKeys with
    | none => simp [h1, stepChanges] at hc
    | some keys1 =>
      cases h2 : b.MapKeys with
      | none => simp [h1, h2, stepChanges] at hc
      | some keys2 =>
        simp only [h1, h2] at hc
        rcases stepChanges_seq
          (forEach_appends _ keys1 (fun key _ =>
            mapKeyStep_appends _ (fun x y q => doDiff_appends et x y q) a b q key))
          (forEach_appends _ keys2 (fun key _ => mapAddStep_appends a b q key)) c hc with h | h
        · obtain ⟨key, _, hk⟩ := stepChanges_forEach _ keys1 (fun key _ =>
            mapKeyStep_appends _ (fun x y q => doDiff_appends et x y q) a b q key) c h
          exact mapKeyStep_readsFrom _ (fun x y q c hc => doDiff_readsFrom et x y q c hc)
            a b q key c hk
        · obtain ⟨key, _, hk⟩ := stepChanges_forEach _ keys2
            (fun key _ => mapAddStep_appends a b q key) c h
          exact mapAddStep_readsFrom a b q key c hk
  | .array len et, a, b, q, c, hc => by
    simp only [doDiff] at hc
    obtain ⟨i, _, hi⟩ := stepChanges_forEach _ _ (fun i _ =>
      indexStep_appends _ (fun x y q => doDiff_appends et x y q) a b q i) c hc
    exact indexStep_readsFrom _ (fun x y q c hc => doDiff_readsFrom et x y q c hc) a b q i c hi
  | .slice et, a, b, q, c, hc => by
    simp only [doDiff] at hc
    cases h1 : a.Len with
    | none => simp [h1, stepChanges] at hc
    | some len1 =>
      cases h2 : b.Len with
      | none => simp [h1, h2, stepChanges] at hc
      | some len2 =>
        simp only [h1, h2] at hc
        by_cases hne : (intMin len1 len2 != intMax len1 len2) = true
        · by_cases hmax : (intMax len1 len2 == len1) = true
          · simp only [hne, hmax, if_true] at hc
            rcases stepChanges_seq
              (forEach_appends _ _ (fun i _ =>
                indexStep_appends _ (fun x y q => doDiff_appends et x y q) a b q i))
              (forEach_appends _ _ (fun i _ => sliceDeleteStep_appends q i)) c hc with h | h
            · obtain ⟨i, _, hi⟩ := stepChanges_forEach _ _ (fun i _ =>
                indexStep_appends _ (fun x y q => doDiff_appends et x y q) a b q i) c h
              exact indexStep_readsFrom _ (fun x y q c hc => doDiff_readsFrom et x y q c hc)
                a b q i c hi
            · obtain ⟨i, _, hi⟩ := stepChanges_forEach _ _
                (fun i _ => sliceDeleteStep_appends q i) c h
              exact sliceDeleteStep_readsFrom b q i c hi
          · simp only [hne, hmax, if_true, if_false, Bool.false_eq_true] at hc
            rcases stepChanges_seq
              (forEach_appends _ _ (fun i _ =>
                indexStep_appends _ (fun x y q => doDiff_appends et x y q) a b q i))
              (forEach_appends _ _ (fun i _ => sliceAddStep_appends b q i)) c hc with h | h
            · obtain ⟨i, _, hi⟩ := stepChanges_forEach _ _ (fun i _ =>
                indexStep_appends _ (fun x y q => doDiff_appends et x y q) a b q i) c h
              exact indexStep_readsFrom _ (fun x y q c hc => doDiff_readsFrom et x y q c hc)
                a b q i c hi
            · obtain ⟨i, _, hi⟩ := stepChanges_forEach _ _
                (fun i _ => sliceAddStep_appends b q i) c h
              exact sliceAddStep_readsFrom b q i c hi
        · simp only [hne, if_false, Bool.false_eq_true] at hc
          rcases stepChanges_seq
            (forEach_appends _ _ (fun i _ =>
              indexStep_appends _ (fun x y q => doDiff_appends et x y q) a b q i))
            (appends_const .nil) c hc with h | h
          · obtain ⟨i, _, hi⟩ := stepChanges_forEach _ _ (fun i _ =>
              indexStep_appends _ (fun x y q => doDiff_appends et x y q) a b q i) c h
            exact indexStep_readsFrom _ (fun x y q c hc => doDiff_readsFrom et x y q c hc)
              a b q i c hi
          · simp [stepChanges] at h
  | .ptr et, a, b, q, c, hc => by
    simp only [doDiff, stepChanges] at hc
    cases h1 : a.IsNil with
    | none => simp [h1] at hc
    | some n1 =>
      cases n1 with
      | true =>
        simp only [h1] at hc
        cases h2 : b.Elem with
        | none => simp [h2] at hc
        | some e2 =>
          simp [h2, changeSet.AddPathValue, extendContext, NewPtrElem] at hc
          refine ⟨[.ptr], by simp [hc], fun _ => ?_⟩
          cases e2 <;> simp [hc, follow, h2]
      | false =>
        simp only [h1] at hc
        cases h3 : b.IsNil with
        | none => simp [h3] at hc
        | some n2 =>
          cases n2 with
          | true =>
            simp [h3, changeSet.AddPathDelete, extendContext, NewPtrElem] at hc
            exact ⟨[.ptr], by simp [hc], by simp [hc]⟩
          | false =>
            simp only [h3] at hc
            cases h4 : a.Elem with
            | none => simp [h4] at hc
            | some e1 =>
              cases e1 with
              | none => simp [h4] at hc
              | some x =>
                cases h5 : b.Elem with
                | none => simp [h4, h5] at hc
                | some e2 =>
                  cases e2 with
                  | none => simp [h4, h5] at hc
                  | some y =>
                    simp only [h4, h5] at hc
                    refine readsFrom_child b y q .ptr c (fun rel => by simp [follow, h5]) ?_
                    exact doDiff_readsFrom et x y _ c hc
theorem doDiffFields_readsFrom : ∀ (fs : List (String × Ty)) (f : Nat) (a b : Val)
    (q : List PathElement),
    ∀ c ∈ stepChanges (fun cs => doDiffFields fs f a b cs q), ReadsFrom b q c
  | [], f, a, b, q, c, hc => by
    simp [doDiffFields, stepChanges] at hc
  | (name, t) :: rest, f, a, b, q, c, hc => by
    simp only [doDiffFields] at hc
    cases h1 : a.Field f with
    | none => simp [h1, stepChanges] at hc
    | some x =>
      cases h2 : b.Field f with
      | none => simp [h1, h2, stepChanges] at hc
      | some y =>
        simp only [h1, h2] at hc
        rcases stepChanges_seq (doDiff_appends t x y _)
          (doDiffFields_appends rest (f + 1) a b q) c hc with h | h
        · refine readsFrom_child b y q (.name f name) c (fun rel => by simp [follow, h2]) ?_
          exact doDiff_readsFrom t x y _ c h
        · exact doDiffFields_readsFrom rest (f + 1) a b q c h
end

/-- C6 (amended): every `Value` change of the change set that `Diff(a, b)` returns holds,
as its `NewValue`, exactly what its path reads in `b` (the `reflect.Value` that the differ
obtained from `b` with `Field`, `MapIndex`, `Index` and `Elem`): the captured value is the
content of `b` itself, stored as it is, and not the result of a deep copy. -/
theorem Diff_captures_content_of_b (a b : Val) (cs : changeSet) (err : Option DiffError)
    (h : Diff (some a) (some b) = .returned (some cs) err) :
    ∀ c ∈ cs.Changes, c.Deleted = false → c.NewValue = follow b c.Path := by
  intro c hc hd
  have hcs : cs.Changes = stepChanges (fun cs => doDiff a.typeOf a b cs []) := by
    simp only [Diff] at h
    split at h
    · simp at h
    · rw [doDiff_eq a.typeOf a b _ []] at h
      rw [stepChanges_doDiff]
      cases hr : diffRes a.typeOf a b [] with
      | nil => rw [hr] at h; simp at h; rw [← h.1]
      | error e => rw [hr] at h; simp at h; rw [← h.1]
      | panicked => rw [hr] at h; simp at h
  rw [hcs] at hc
  obtain ⟨rel, hp, hv⟩ := doDiff_readsFrom a.typeOf a b [] c hc
  rw [hv hd, hp, List.nil_append]

/-- C6, witness: for the slices of channels `a = []` and `b = [ch]`, `Diff` returns one
`Value` change at `[Index(0)]`, and its payload is what that path reads in `b`: the channel
`ch` of `b` itself. -/
theorem Diff_captures_content_of_b_witness :
    Diff (some (.slice (.leaf .Chan) [])) (some (.slice (.leaf .Chan) [.other .Chan 7]))
      = .returned
          (some { BaseType := .slice (.leaf .Chan),
                  Changes := [{ Path := [.index 0], NewValue := some (.other .Chan 7),
                                Deleted := false }] }) none
    ∧ (some (.other .Chan 7) : Value)
        = follow (.slice (.leaf .Chan) [.other .Chan 7]) [.index 0] :=
  ⟨by rfl,
   Diff_captures_content_of_b (.slice (.leaf .Chan) []) (.slice (.leaf .Chan) [.other .Chan 7])
    { BaseType := .slice (.leaf .Chan),
      Changes := [{ Path := [.index 0], NewValue := some (.other .Chan 7), Deleted := false }] }
    none (by rfl)
    { Path := [.index 0], NewValue := some (.other .Chan 7), Deleted := false }
    (List.mem_singleton.mpr rfl) rfl⟩

/-- C6, counterexample: for the slices of channels `a = []` and `b = [ch]`, `Diff` returns
without error a `Value` change that holds the channel `ch`, and `ch` is not a deep copy:
`CopyReflectValue` returns the value `ch` for no input at all (on `ch` itself it panics
with the `PatchError` of an unhandled kind). -/
theorem Diff_captured_value_not_a_copy :
    Diff (some (.slice (.leaf .Chan) [])) (some (.slice (.leaf .Chan) [.other .Chan 7]))
      = .returned
          (some { BaseType := .slice (.leaf .Chan),
                  Changes := [{ Path := [.index 0], NewValue := some (.other .Chan 7),
                                Deleted := false }] }) none
    ∧ CopyReflectValue (.other .Chan 7) = .patchPanic (.unhandledBasicKind .Chan)
    ∧ ∀ src, CopyReflectValue src ≠ .ok (.other .Chan 7) := by
  refine ⟨by rfl, by rfl, ?_⟩
  intro src
  cases src with
  | bool b => simp [CopyReflectValue, copyBasic, Val.typeOf, Ty.Kind, Val.asBool]
  | str s => simp [CopyReflectValue, copyBasic, Val.typeOf, Ty.Kind, Val.asString]
  | int k i =>
    cases k <;> simp [CopyReflectValue, copyBasic, Val.typeOf, Ty.Kind, Val.asInt, Val.asString,
      Val.asUint, Val.asFloat, Val.asComplex, Val.asBool]
  | uint k i =>
    cases k <;> simp [CopyReflectValue, copyBasic, Val.typeOf, Ty.Kind, Val.asInt, Val.asString,
      Val.asUint, Val.asFloat, Val.asComplex, Val.asBool]
  | float k i =>
    cases k <;> simp [CopyReflectValue, copyBasic, Val.typeOf, Ty.Kind, Val.asInt, Val.asString,
      Val.asUint, Val.asFloat, Val.asComplex, Val.asBool]
  | complex k x y =>
    cases k <;> simp [CopyReflectValue, copyBasic, Val.typeOf, Ty.Kind, Val.asInt, Val.asString,
      Val.asUint, Val.asFloat, Val.asComplex, Val.asBool]
  | other k i =>
    cases k <;> simp [CopyReflectValue, copyBasic, Val.typeOf, Ty.Kind, Val.asInt, Val.asString,
      Val.asUint, Val.asFloat, Val.asComplex, Val.asBool]
  | struct fs => simp only [CopyReflectValue]; split <;> simp
  | map kt et es => simp only [CopyReflectValue]; split <;> simp
  | array et es => simp only [CopyReflectValue]; split <;> simp
  | slice et es => simp only [CopyReflectValue]; split <;> simp
  | ptr et p =>
    cases p with
    | none => simp [CopyReflectValue]
    | some x => simp only [CopyReflectValue]; split <;> simp

/-- C1, evaluation at the failing input `a = b = (*int)(nil)`: `Diff(a, b)` returns without
error a change set with one `Value` change at `[Indirection]` whose `NewValue` is the zero
Value; the copy of `a` is the nil pointer again; and `Patch` of that change set on a
pointer to the copy returns a `PatchError`, where the round trip promises a nil error. -/
theorem roundtrip_nil_pointers_patch_error :
    Diff (some (.ptr tInt none)) (some (.ptr tInt none))
      = .returned
          (some { BaseType := .ptr tInt,
                  Changes := [{ Path := [.ptr], NewValue := none, Deleted := false }] }) none
    ∧ CopyReflectValue (.ptr tInt none) = .ok (.ptr tInt none)
    ∧ changeSet.Patch
        { BaseType := .ptr tInt,
          Changes := [{ Path := [.ptr], NewValue := none, Deleted := false }] }
        (some (.ptr (.ptr tInt) (some (.ptr tInt none))))
      = (some (.ptr (.ptr tInt) (some (.ptr tInt none))), .returned (some .navigation)) := by
  refine ⟨by rfl, by rfl, by rfl⟩

/-! ## The scalar leaf rule and the aggregate rule -/

/-- C11: for every supported scalar kind and every two values `x` and `y` of that kind
compared at path `p`, `compareBasicType` comes back with a nil error, appends exactly the
one change `{Path: p, NewValue: y}` when `x` differs from `y` and appends nothing when `x`
equals `y`.  Strings and booleans are compared by equality; signed and unsigned integers
of every declared width by the value that `Int()` respectively `Uint()` widens to 64 bits;
floats and complex numbers by the IEEE-754 comparison `!=` of `Float()` respectively of
both parts of `Complex()`. -/
theorem compareBasicType_scalar_rule (cs : changeSet) (p : List PathElement) :
    (∀ x y : String, compareBasicType (.leaf .String) (.str x) (.str y) cs p =
        (if x = y then cs else plusValue cs p (.str y), .nil))
    ∧ (∀ x y : Bool, compareBasicType (.leaf .Bool) (.bool x) (.bool y) cs p =
        (if x = y then cs else plusValue cs p (.bool y), .nil))
    ∧ (∀ k, isIntKind k = true → ∀ x y : Int,
        compareBasicType (.leaf k) (.int k x) (.int k y) cs p =
          (if x = y then cs else plusValue cs p (.int k y), .nil))
    ∧ (∀ k, isUintKind k = true → ∀ x y : Nat,
        compareBasicType (.leaf k) (.uint k x) (.uint k y) cs p =
          (if x = y then cs else plusValue cs p (.uint k y), .nil))
    ∧ (∀ k, k = .Float32 ∨ k = .Float64 → ∀ x y : Nat,
        compareBasicType (.leaf k) (.float k x) (.float k y) cs p =
          (if f64Eq x y = true then cs else plusValue cs p (.float k y), .nil))
    ∧ (∀ k, k = .Complex64 ∨ k = .Complex128 → ∀ x1 x2 y1 y2 : Nat,
        compareBasicType (.leaf k) (.complex k x1 x2) (.complex k y1 y2) cs p =
          (if f64Eq x1 y1 = true ∧ f64Eq x2 y2 = true then cs
           else plusValue cs p (.complex k y1 y2), .nil)) := by
  refine ⟨?_, ?_, ?_, ?_, ?_, ?_⟩
  · intro x y
    rw [compareBasicType_str]
    by_cases h : x = y <;> simp [h, plusValue, changeSet.AddPathValue]
  · intro x y
    rw [compareBasicType_bool]
    by_cases h : x = y <;> simp [h, plusValue, changeSet.AddPathValue]
  · intro k hk x y
    rw [compareBasicType_int k k k hk]
    by_cases h : x = y <;> simp [h, plusValue, changeSet.AddPathValue]
  · intro k hk x y
    rw [compareBasicType_uint k k k hk]
    by_cases h : x = y <;> simp [h, plusValue, changeSet.AddPathValue]
  · intro k hk x y
    rw [compareBasicType_float k k k hk]
    cases h : f64Eq x y <;> simp [plusValue, changeSet.AddPathValue]
  · intro k hk x1 x2 y1 y2
    rw [compareBasicType_complex k k k hk]
    cases h1 : f64Eq x1 y1 <;> cases h2 : f64Eq x2 y2 <;>
      simp [plusValue, changeSet.AddPathValue]

/-- C11, witness: an int8 1 against an int8 2 records the 2, an int8 against itself
records nothing; the float64 1.0 against 2.0 records the 2.0. -/
theorem compareBasicType_scalar_rule_witness :
    compareBasicType (.leaf .Int8) (.int .Int8 1) (.int .Int8 2)
        { BaseType := .leaf .Int8, Changes := [] } [.index 3]
      = ({ BaseType := .leaf .Int8,
           Changes := [{ Path := [.index 3], NewValue := some (.int .Int8 2),
                         Deleted := false }] }, .nil)
    ∧ compareBasicType (.leaf .Int8) (.int .Int8 2) (.int .Int8 2)
        { BaseType := .leaf .Int8, Changes := [] } [.index 3]
      = ({ BaseType := .leaf .Int8, Changes := [] }, .nil)
    ∧ compareBasicType (.leaf .Float64) (.float .Float64 0x3FF0000000000000)
        (.float .Float64 0x4000000000000000) { BaseType := .leaf .Float64, Changes := [] } []
      = ({ BaseType := .leaf .Float64,
           Changes := [{ Path := [], NewValue := some (.float .Float64 0x4000000000000000),
                         Deleted := false }] }, .nil) :=
  ⟨((compareBasicType_scalar_rule _ _).2.2.1 .Int8 rfl 1 2).trans (by rfl),
   ((compareBasicType_scalar_rule _ _).2.2.1 .Int8 rfl 2 2).trans (by rfl),
   ((compareBasicType_scalar_rule _ _).2.2.2.2.1 .Float64 (Or.inr rfl) _ _).trans (by rfl)⟩

theorem fieldStep_appends (fields : List (String × Ty)) (a b : Val) (p : List PathElement)
    (f : Nat) : Appends (fieldStep fields a b p f) := by
  unfold fieldStep
  cases fields.get? f with
  | none => exact appends_const _
  | some nt =>
    obtain ⟨name, t⟩ := nt
    cases a.Field f with
    | none => exact appends_const _
    | some x =>
      cases b.Field f with
      | none => exact appends_const _
      | some y => exact doDiff_appends t x y _

theorem fieldStep_changes (fields : List (String × Ty)) (a b : Val) (p : List PathElement)
    (f : Nat) : stepChanges (fieldStep fields a b p f) = fieldChanges fields a b p f := by
  simp only [stepChanges, fieldStep, fieldChanges, extendContext, NewNameElem]
  cases fields.get? f with
  | none => rfl
  | some nt =>
    obtain ⟨name, t⟩ := nt
    cases a.Field f <;> cases b.Field f <;> simp [doDiff_eq t _ _ _ _]

theorem fieldStep_res (fields : List (String × Ty)) (a b : Val) (p : List PathElement)
    (f : Nat) : stepRes (fieldStep fields a b p f) = fieldRes fields a b p f := by
  simp only [stepRes, fieldStep, fieldRes, extendContext, NewNameElem]
  cases fields.get? f with
  | none => rfl
  | some nt =>
    obtain ⟨name, t⟩ := nt
    cases a.Field f <;> cases b.Field f <;> simp [doDiff_eq t _ _ _ _]

/-- The loop over the fields from number `f` on is the loop of `fieldStep` over the field
numbers `f, f+1, ...`. -/
theorem doDiffFields_eq_forEach (fields : List (String × Ty)) (a b : Val)
    (p : List PathElement) :
    ∀ (n f : Nat) (cs : changeSet), fields.length - f = n →
      doDiffFields (fields.drop f) f a b cs p =
        forEach (fieldStep fields a b p) (List.range' f n) cs
  | 0, f, cs, h => by
    have hd : fields.drop f = [] := List.drop_eq_nil_of_le (by omega)
    simp [hd, doDiffFields, forEach, List.range']
  | n + 1, f, cs, h => by
    have hlt : f < fields.length := by omega
    have hd : fields.drop f = fields[f] :: fields.drop (f + 1) := List.drop_eq_getElem_cons hlt
    have hg : fields.get? f = some fields[f] := by
      rw [List.get?_eq_getElem?]; exact List.getElem?_eq_getElem hlt
    have ih := doDiffFields_eq_forEach fields a b p n (f + 1)
    rcases hnt : fields[f] with ⟨name, t⟩
    rw [hd, hnt]
    rw [hnt] at hg
    simp only [List.range', forEach, doDiffFields, fieldStep, hg]
    cases a.Field f with
    | none => rfl
    | some x =>
      cases b.Field f with
      | none => rfl
      | some y =>
        simp only
        rcases doDiff t x y cs (extendContext p (NewNameElem f name)) with ⟨cs1, r⟩
        cases r with
        | nil => exact ih cs1 (by omega)
        | error e => rfl
        | panicked => rfl

/-- C12: for two structs `a` and `b` compared at path `p`, `fields` being the fields of
their struct type.  First part: when the comparison of every field comes back with a nil
error, `doDiff` appends the concatenation, in field declaration order `f = 0, 1, ...`, of
the changes of comparing field `f` of `a` with field `f` of `b` at
`p ++ [FieldByPosition(f, name of field f)]`, and comes back with a nil error.  Second
part: when `k` is the first field whose comparison does not come back with a nil error,
`doDiff` stops there, having appended the changes of the fields up to and including `k`,
and comes back with what that comparison came back with. -/
theorem doDiff_struct_rule (fields : List (String × Ty)) (fsa fsb : List (String × Val))
    (cs : changeSet) (p : List PathElement) :
    ((∀ f, f < fields.length → fieldRes fields (.struct fsa) (.struct fsb) p f = .nil) →
      doDiff (.struct fields) (.struct fsa) (.struct fsb) cs p =
        ({ BaseType := cs.BaseType,
           Changes := cs.Changes ++ (List.range fields.length).flatMap
             (fieldChanges fields (.struct fsa) (.struct fsb) p) }, .nil))
    ∧ (∀ k, k < fields.length →
        (∀ f, f < k → fieldRes fields (.struct fsa) (.struct fsb) p f = .nil) →
        fieldRes fields (.struct fsa) (.struct fsb) p k ≠ .nil →
        doDiff (.struct fields) (.struct fsa) (.struct fsb) cs p =
          ({ BaseType := cs.BaseType,
             Changes := cs.Changes ++ (List.range k).flatMap
                 (fieldChanges fields (.struct fsa) (.struct fsb) p)
               ++ fieldChanges fields (.struct fsa) (.struct fsb) p k },
            fieldRes fields (.struct fsa) (.struct fsb) p k)) := by
  have hloop : ∀ cs, doDiff (.struct fields) (.struct fsa) (.struct fsb) cs p =
      forEach (fieldStep fields (.struct fsa) (.struct fsb) p) (List.range fields.length) cs := by
    intro cs
    have h := doDiffFields_eq_forEach fields (.struct fsa) (.struct fsb) p fields.length 0 cs
      (by omega)
    simp only [List.drop_zero] at h
    simp only [doDiff, h, List.range_eq_range']
  constructor
  · intro hok
    rw [hloop, forEach_all_nil _ _ (fun f _ => fieldStep_appends fields _ _ p f)
      (fun f hf => by rw [fieldStep_res]; exact hok f (List.mem_range.mp hf))]
    simp only [fieldStep_changes]
  · intro k hk hpre hfail
    rw [hloop, range_split _ k hk, forEach_first_fail _ _ k _
      (fun f _ => fieldStep_appends fields _ _ p f)
      (fun f hf => by rw [fieldStep_res]; exact hpre f (List.mem_range.mp hf))
      (by rw [fieldStep_res]; exact hfail)]
    simp only [fieldStep_changes, fieldStep_res]

/-- C12, witness: `{name: "x", tags: ["a", "b"]}` against `{name: "y", tags: ["a", "b",
"c"]}` gives the value "y" at the field `name` and the value "c" at index 2 of the field
`tags` (first part), and `{A: "x", B: ch, C: "u"}` against `{A: "y", B: ch, C: "v"}` with a
channel field `B`, where the comparison of field 1 fails and nothing is recorded for field
2 (second part). -/
theorem doDiff_struct_rule_witness :
    doDiff (.struct [("name", tStr), ("tags", .slice tStr)])
        (.struct [("name", .str "x"), ("tags", .slice tStr [.str "a", .str "b"])])
        (.struct [("name", .str "y"), ("tags", .slice tStr [.str "a", .str "b", .str "c"])])
        { BaseType := .struct [("name", tStr), ("tags", .slice tStr)], Changes := [] } [] =
      ({ BaseType := .struct [("name", tStr), ("tags", .slice tStr)],
         Changes := [{ Path := [.name 0 "name"], NewValue := some (.str "y"), Deleted := false },
                     { Path := [.name 1 "tags", .index 2], NewValue := some (.str "c"),
                       Deleted := false }] }, .nil)
    ∧ doDiff (.struct [("A", tStr), ("B", .leaf .Chan), ("C", tStr)])
        (.struct [("A", .str "x"), ("B", .other .Chan 1), ("C", .str "u")])
        (.struct [("A", .str "y"), ("B", .other .Chan 1), ("C", .str "v")])
        { BaseType := .leaf .Invalid, Changes := [] } [] =
      ({ BaseType := .leaf .Invalid,
         Changes := [{ Path := [.name 0 "A"], NewValue := some (.str "y"), Deleted := false }] },
       .error (.unhandledKind .Chan)) :=
  ⟨((doDiff_struct_rule [("name", tStr), ("tags", .slice tStr)] _ _ _ _).1 (by
      intro f hf
      have hf2 : f < 2 := by simpa using hf
      interval_cases f <;> rfl)).trans (by rfl),
   ((doDiff_struct_rule [("A", tStr), ("B", .leaf .Chan), ("C", tStr)]
      [("A", .str "x"), ("B", .other .Chan 1), ("C", .str "u")]
      [("A", .str "y"), ("B", .other .Chan 1), ("C", .str "v")]
      { BaseType := .leaf .Invalid, Changes := [] } []).2 1 (by decide)
      (by intro f hf; interval_cases f; rfl) (by intro h; cases h)).trans (by rfl)⟩

/-! ## Equality of change sets: the claim -/

theorem equalsLoop_iff (ceq : Change → Change → Bool) (xs ys : List Change) :
    ∀ (n i : Nat), i + n = xs.length → xs.length = ys.length →
      (equalsLoop ceq xs ys i n = true ↔
        ∀ j, i ≤ j → ∀ (h1 : j < xs.length) (h2 : j < ys.length), ceq xs[j] ys[j] = true)
  | 0, i, hi, _ => by
    simp only [equalsLoop, true_iff]
    intro j hj h1; omega
  | n + 1, i, hi, hlen => by
    have h1 : i < xs.length := by omega
    have h2 : i < ys.length := by omega
    have ih := equalsLoop_iff ceq xs ys n (i + 1) (by omega) hlen
    have g1 : xs.get? i = some xs[i] := by
      rw [List.get?_eq_getElem?]; exact List.getElem?_eq_getElem h1
    have g2 : ys.get? i = some ys[i] := by
      rw [List.get?_eq_getElem?]; exact List.getElem?_eq_getElem h2
    simp only [equalsLoop, g1, g2]
    cases hc : ceq xs[i] ys[i] with
    | false =>
      simp only [Bool.not_false, if_true, Bool.false_eq_true, false_iff]
      intro hall
      have := hall i (Nat.le_refl _) h1 h2
      rw [hc] at this
      exact absurd this (by simp)
    | true =>
      simp only [Bool.not_true, Bool.false_eq_true, if_false]
      rw [ih]
      constructor
      · intro hall j hj hj1 hj2
        rcases Nat.eq_or_lt_of_le hj with h | h
        · subst h; exact hc
        · exact hall j h hj1 hj2
      · intro hall j hj hj1 hj2
        exact hall j (by omega) hj1 hj2

/-- C15: for every two change sets `x` and `y` (and whatever `Change.Equals` decides),
`x.Equals(y)` is true if and only if the base types are equal, the two `Changes` lists
have the same length, and at every index the change of `x` equals the change of `y`.  The
comparison is order-sensitive: the change sets `[c1, c2]` and `[c2, c1]` of one base type
are not equal when `c1` does not equal `c2`. -/
theorem changeSet_Equals_iff (changeEquals : Change → Change → Bool) (x y : changeSet) :
    (changeSet.Equals changeEquals x y = true ↔
      x.BaseType = y.BaseType ∧ x.Changes.length = y.Changes.length ∧
        ∀ i (h1 : i < x.Changes.length) (h2 : i < y.Changes.length),
          changeEquals x.Changes[i] y.Changes[i] = true)
    ∧ (∀ (t : Ty) (c1 c2 : Change), changeEquals c1 c2 = false →
        changeSet.Equals changeEquals { BaseType := t, Changes := [c1, c2] }
          { BaseType := t, Changes := [c2, c1] } = false) := by
  have hiff : changeSet.Equals changeEquals x y = true ↔
      x.BaseType = y.BaseType ∧ x.Changes.length = y.Changes.length ∧
        ∀ i (h1 : i < x.Changes.length) (h2 : i < y.Changes.length),
          changeEquals x.Changes[i] y.Changes[i] = true := by
    unfold changeSet.Equals
    by_cases hb : Ty.beq x.BaseType y.BaseType = true
    · have hbt := Ty.eq_of_beq _ _ hb
      by_cases hl : x.Changes.length = y.Changes.length
      · have hne : (x.Changes.length != y.Changes.length) = false := by simp [hl]
        simp only [hb, Bool.not_true, Bool.false_eq_true, if_false, hne]
        rw [equalsLoop_iff changeEquals x.Changes y.Changes x.Changes.length 0 (by omega) hl]
        constructor
        · intro h
          exact ⟨hbt, hl, fun i h1 h2 => h i (Nat.zero_le _) h1 h2⟩
        · intro h j _ h1 h2
          exact h.2.2 j h1 h2
      · have hne : (x.Changes.length != y.Changes.length) = true := by simp [hl]
        simp only [hb, Bool.not_true, Bool.false_eq_true, if_false, hne, if_true, false_iff]
        intro h
        exact hl h.2.1
    · have hb2 : Ty.beq x.BaseType y.BaseType = false := by
        cases h : Ty.beq x.BaseType y.BaseType with
        | false => rfl
        | true => exact absurd h hb
      simp only [hb2, Bool.not_false, if_true, Bool.false_eq_true, false_iff]
      intro h
      rw [h.1, Ty.beq_refl] at hb2
      exact absurd hb2 (by simp)
  refine ⟨hiff, ?_⟩
  intro t c1 c2 hc
  simp [changeSet.Equals, Ty.beq_refl, equalsLoop, hc]

/-- C15, witness: with the equality of changes modelled from the spec, the change set of
Example 2 equals itself, and it does not equal the change set that holds its two changes
in the other order. -/
theorem changeSet_Equals_iff_witness :
    changeSet.Equals Change.Equals
        { BaseType := .map tStr tInt,
          Changes := [{ Path := [.key (.str "k1")], NewValue := none, Deleted := true },
                      { Path := [.key (.str "k2")], NewValue := some (.int .Int 2),
                        Deleted := false }] }
        { BaseType := .map tStr tInt,
          Changes := [{ Path := [.key (.str "k1")], NewValue := none, Deleted := true },
                      { Path := [.key (.str "k2")], NewValue := some (.int .Int 2),
                        Deleted := false }] } = true
    ∧ changeSet.Equals Change.Equals
        { BaseType := .map tStr tInt,
          Changes := [{ Path := [.key (.str "k1")], NewValue := none, Deleted := true },
                      { Path := [.key (.str "k2")], NewValue := some (.int .Int 2),
                        Deleted := false }] }
        { BaseType := .map tStr tInt,
          Changes := [{ Path := [.key (.str "k2")], NewValue := some (.int .Int 2),
                        Deleted := false },
                      { Path := [.key (.str "k1")], NewValue := none, Deleted := true }] }
      = false :=
  ⟨((changeSet_Equals_iff Change.Equals _ _).1).mpr ⟨rfl, rfl, by
      intro i h1 h2
      have hi : i < 2 := by simpa using h1
      interval_cases i <;> rfl⟩,
   (changeSet_Equals_iff Change.Equals
      { BaseType := .leaf .Invalid, Changes := [] } { BaseType := .leaf .Invalid, Changes := [] }).2
      (.map tStr tInt) { Path := [.key (.str "k1")], NewValue := none, Deleted := true }
      { Path := [.key (.str "k2")], NewValue := some (.int .Int 2), Deleted := false } (by rfl)⟩

/-! ## The deep copier: what a copy comes to -/

theorem wrapInt_of_range (w : Nat) (i : Int) (hw : 0 < w)
    (h1 : -(2 : Int) ^ (w - 1) ≤ i) (h2 : i < 2 ^ (w - 1)) : wrapInt w i = i := by
  unfold wrapInt
  have hpow : (2 : Int) ^ w = 2 * 2 ^ (w - 1) := by
    have : w = (w - 1) + 1 := by omega
    conv_lhs => rw [this, pow_succ]
    ring
  have h3 : (i + 2 ^ (w - 1)) % 2 ^ w = i + 2 ^ (w - 1) := by
    apply Int.emod_eq_of_lt
    · omega
    · rw [hpow]; omega
  rw [h3]; ring

theorem kindBits_pos (k : Kind) : 0 < kindBits k := by
  cases k <;> simp [kindBits]

/-- A legal leaf of a supported kind is copied to itself; a legal leaf of another kind makes
`copyBasic` panic with the `PatchError` that names its kind. -/
theorem copyBasic_leaf (v : Val) (k : Kind) (hw : v.wellTyped = true)
    (ht : v.typeOf = .leaf k) :
    (v.supportedLeaf = true ∧ copyBasic v = .ok v)
    ∨ (v.supportedLeaf = false ∧ isSupportedKind k = false
        ∧ copyBasic v = .patchPanic (.unhandledBasicKind k)) := by
  cases v with
  | bool b => left; simp [copyBasic, Val.typeOf, Ty.Kind, Val.asBool, Val.supportedLeaf]
  | str s => left; simp [copyBasic, Val.typeOf, Ty.Kind, Val.asString, Val.supportedLeaf]
  | int k1 i =>
    left
    simp only [Val.wellTyped, Bool.and_eq_true, decide_eq_true_eq] at hw
    obtain ⟨⟨hk, h1⟩, h2⟩ := hw
    have hwrap := wrapInt_of_range (kindBits k1) i (kindBits_pos k1) h1 h2
    cases k1 <;> simp only [isIntKind, Bool.false_eq_true] at hk <;>
      simp only [kindBits] at hwrap <;>
      simp [copyBasic, Val.typeOf, Ty.Kind, Val.asInt, Val.supportedLeaf, hwrap]
  | uint k1 n =>
    simp only [Val.wellTyped, Bool.and_eq_true, decide_eq_true_eq, Bool.or_eq_true,
      beq_iff_eq] at hw
    obtain ⟨hk, h1⟩ := hw
    simp only [Val.typeOf, Ty.leaf.injEq] at ht
    subst ht
    rcases hk with hk | hk
    · left
      have hmod := Nat.mod_eq_of_lt h1
      cases k1 <;> simp only [isUintKind, Bool.false_eq_true] at hk <;>
        simp only [kindBits] at hmod <;>
        simp only [kindBits] at h1 <;> norm_num at h1 <;>
        simp [copyBasic, Val.typeOf, Ty.Kind, Val.asUint, Val.supportedLeaf] <;> exact h1
    · right
      subst hk
      simp [copyBasic, Val.typeOf, Ty.Kind, Val.supportedLeaf, isSupportedKind]
  | float k1 x =>
    left
    simp only [Val.wellTyped, Bool.and_eq_true, decide_eq_true_eq, Bool.or_eq_true,
      beq_iff_eq] at hw
    rcases hw.1 with hk | hk <;> subst hk <;>
      simp [copyBasic, Val.typeOf, Ty.Kind, Val.asFloat, Val.supportedLeaf]
  | complex k1 x y =>
    left
    simp only [Val.wellTyped, Bool.and_eq_true, decide_eq_true_eq, Bool.or_eq_true,
      beq_iff_eq] at hw
    rcases hw.1.1 with hk | hk <;> subst hk <;>
      simp [copyBasic, Val.typeOf, Ty.Kind, Val.asComplex, Val.supportedLeaf]
  | other k1 id =>
    right
    simp only [Val.wellTyped, Bool.or_eq_true, beq_iff_eq] at hw
    simp only [Val.typeOf, Ty.leaf.injEq] at ht
    subst ht
    rcases hw with ((hk | hk) | hk) | hk <;> subst hk <;>
      simp [copyBasic, Val.typeOf, Ty.Kind, Val.supportedLeaf, isSupportedKind]
  | struct fs => simp [Val.typeOf] at ht
  | map kt et es => simp [Val.typeOf] at ht
  | array et es => simp [Val.typeOf] at ht
  | slice et es => simp [Val.typeOf] at ht
  | ptr et p => simp [Val.typeOf] at ht

theorem keysDistinct_append (acc : List (Val × Val)) (k v : Val) (es : List (Val × Val))
    (h : keysDistinct (acc ++ (k, v) :: es) = true) :
    acc.any (fun e => Val.goEq e.1 k) = false := by
  induction acc with
  | nil => rfl
  | cons a acc ih =>
    obtain ⟨a1, a2⟩ := a
    simp only [List.cons_append, keysDistinct, Bool.and_eq_true, List.all_eq_true,
      Bool.not_eq_true'] at h
    have h1 := h.1 (k, v) (by simp)
    simp only [List.any_cons, Bool.or_eq_false_iff]
    exact ⟨h1, ih h.2⟩

theorem copySpec_leaf (v : Val) (k : Kind) (ht : v.typeOf = .leaf k)
    (hall : Val.all Val.copyable v = v.copyable)
    (hsup : Val.all Val.supportedLeaf v = v.supportedLeaf)
    (hcrv : CopyReflectValue v = copyBasic v)
    (h : Val.all Val.copyable v = true) :
    CopySpec (Val.all Val.supportedLeaf v) (CopyReflectValue v) v := by
  rw [hall] at h
  simp only [Val.copyable, Bool.and_eq_true] at h
  rw [hsup, hcrv]
  rcases copyBasic_leaf v k h.1.1 ht with h1 | h1
  · exact Or.inl h1
  · exact Or.inr ⟨h1.1, k, h1.2.1, h1.2.2⟩

mutual
/-- The copy of a value without a reflect panic in it. -/
theorem copy_spec : ∀ v : Val, Val.all Val.copyable v = true →
    CopySpec (Val.all Val.supportedLeaf v) (CopyReflectValue v) v
  | .bool b, h => copySpec_leaf _ .Bool rfl (by simp [Val.all]) (by simp [Val.all])
      (by simp [CopyReflectValue]) h
  | .int k i, h => copySpec_leaf _ k rfl (by simp [Val.all]) (by simp [Val.all])
      (by simp [CopyReflectValue]) h
  | .uint k n, h => copySpec_leaf _ k rfl (by simp [Val.all]) (by simp [Val.all])
      (by simp [CopyReflectValue]) h
  | .float k x, h => copySpec_leaf _ k rfl (by simp [Val.all]) (by simp [Val.all])
      (by simp [CopyReflectValue]) h
  | .complex k re im, h => copySpec_leaf _ k rfl (by simp [Val.all]) (by simp [Val.all])
      (by simp [CopyReflectValue]) h
  | .str s, h => copySpec_leaf _ .String rfl (by simp [Val.all]) (by simp [Val.all])
      (by simp [CopyReflectValue]) h
  | .other k id, h => copySpec_leaf _ k rfl (by simp [Val.all]) (by simp [Val.all])
      (by simp [CopyReflectValue]) h
  | .struct fs, h => by
    simp only [Val.all, Val.copyable, Val.exportedFields, Bool.and_eq_true] at h
    have ih := copyFields_spec fs h.2 h.1.1.2
    simp only [Val.all, Val.supportedLeaf, Bool.true_and]
    rcases ih with ⟨h1, h2⟩ | ⟨h1, k, hk, h2⟩
    · exact Or.inl ⟨h1, by simp [CopyReflectValue, h2]⟩
    · exact Or.inr ⟨h1, k, hk, by simp [CopyReflectValue, h2]⟩
  | .map kt et es, h => by
    simp only [Val.all, Val.copyable, Val.keysSelfEqual, Val.wellTyped,
      Bool.and_eq_true] at h
    have ih := copyEntries_spec es [] h.2 h.1.2 (by simpa using h.1.1.1.2)
    simp only [Val.all, Val.supportedLeaf, Bool.true_and]
    rcases ih with ⟨h1, h2⟩ | ⟨h1, k, hk, h2⟩
    · exact Or.inl ⟨h1, by simp [CopyReflectValue, h2]⟩
    · exact Or.inr ⟨h1, k, hk, by simp [CopyReflectValue, h2]⟩
  | .array et es, h => by
    simp only [Val.all, Bool.and_eq_true] at h
    have ih := copyElems_spec es h.2
    simp only [Val.all, Val.supportedLeaf, Bool.true_and]
    rcases ih with ⟨h1, h2⟩ | ⟨h1, k, hk, h2⟩
    · exact Or.inl ⟨h1, by simp [CopyReflectValue, h2]⟩
    · exact Or.inr ⟨h1, k, hk, by simp [CopyReflectValue, h2]⟩
  | .slice et es, h => by
    simp only [Val.all, Bool.and_eq_true] at h
    have ih := copyElems_spec es h.2
    simp only [Val.all, Val.supportedLeaf, Bool.true_and]
    rcases ih with ⟨h1, h2⟩ | ⟨h1, k, hk, h2⟩
    · exact Or.inl ⟨h1, by simp [CopyReflectValue, h2]⟩
    · exact Or.inr ⟨h1, k, hk, by simp [CopyReflectValue, h2]⟩
  | .ptr et none, _ => Or.inl ⟨by simp [Val.all, Val.supportedLeaf], by simp [CopyReflectValue]⟩
  | .ptr et (some x), h => by
    simp only [Val.all, Bool.and_eq_true] at h
    have ih := copy_spec x h.2
    simp only [Val.all, Val.supportedLeaf, Bool.true_and]
    rcases ih with ⟨h1, h2⟩ | ⟨h1, k, hk, h2⟩
    · exact Or.inl ⟨h1, by simp [CopyReflectValue, h2]⟩
    · exact Or.inr ⟨h1, k, hk, by simp [CopyReflectValue, h2]⟩

/-- The copy of the fields of a struct, all of them exported. -/
theorem copyFields_spec : ∀ fs : List (String × Val), Val.allFields Val.copyable fs = true →
    fs.all (fun f => isExported f.1) = true →
    CopySpec (Val.allFields Val.supportedLeaf fs) (copyFields fs) fs
  | [], _, _ => Or.inl ⟨by simp [Val.allFields], by simp [copyFields]⟩
  | (name, v) :: fs, h, he => by
    simp only [Val.allFields, Bool.and_eq_true] at h
    simp only [List.all_cons, Bool.and_eq_true] at he
    have ih1 := copy_spec v h.1
    have ih2 := copyFields_spec fs h.2 he.2
    simp only [Val.allFields]
    rcases ih1 with ⟨h1, h2⟩ | ⟨h1, k, hk, h2⟩
    · rcases ih2 with ⟨h3, h4⟩ | ⟨h3, k, hk, h4⟩
      · exact Or.inl ⟨by simp [h1, h3], by simp [copyFields, h2, h4, he.1]⟩
      · exact Or.inr ⟨by simp [h1, h3], k, hk, by simp [copyFields, h2, h4, he.1]⟩
    · exact Or.inr ⟨by simp [h1], k, hk, by simp [copyFields, h2]⟩

/-- The copy of the elements of an array or a slice. -/
theorem copyElems_spec : ∀ vs : List Val, Val.allList Val.copyable vs = true →
    CopySpec (Val.allList Val.supportedLeaf vs) (copyElems vs) vs
  | [], _ => Or.inl ⟨by simp [Val.allList], by simp [copyElems]⟩
  | v :: vs, h => by
    simp only [Val.allList, Bool.and_eq_true] at h
    have ih1 := copy_spec v h.1
    have ih2 := copyElems_spec vs h.2
    simp only [Val.allList]
    rcases ih1 with ⟨h1, h2⟩ | ⟨h1, k, hk, h2⟩
    · rcases ih2 with ⟨h3, h4⟩ | ⟨h3, k, hk, h4⟩
      · exact Or.inl ⟨by simp [h1, h3], by simp [copyElems, h2, h4]⟩
      · exact Or.inr ⟨by simp [h1, h3], k, hk, by simp [copyElems, h2, h4]⟩
    · exact Or.inr ⟨by simp [h1], k, hk, by simp [copyElems, h2]⟩

/-- The copy of the entries of a map whose keys equal themselves and no other key, into
the entries `acc` copied so far. -/
theorem copyEntries_spec : ∀ (es acc : List (Val × Val)),
    Val.allEntries Val.copyable es = true →
    es.all (fun e => Val.goEq e.1 e.1) = true →
    keysDistinct (acc ++ es) = true →
    CopySpec (Val.allEntries Val.supportedLeaf es) (copyEntries es acc) (acc ++ es)
  | [], acc, _, _, _ => Or.inl ⟨by simp [Val.allEntries], by simp [copyEntries]⟩
  | (k, v) :: es, acc, h, hs, hd => by
    simp only [Val.allEntries, Bool.and_eq_true] at h
    simp only [List.all_cons, Bool.and_eq_true] at hs
    have ih1 := copy_spec k h.1.1
    have ih2 := copy_spec v h.1.2
    have hnew : setMapIndex acc k v = acc ++ [(k, v)] := by
      simp [setMapIndex, keysDistinct_append acc k v es hd]
    have ih3 := copyEntries_spec es (acc ++ [(k, v)]) h.2 hs.2 (by simpa using hd)
    simp only [Val.allEntries]
    rcases ih1 with ⟨h1, h2⟩ | ⟨h1, j, hj, h2⟩
    · rcases ih2 with ⟨h3, h4⟩ | ⟨h3, j, hj, h4⟩
      · rcases ih3 with ⟨h5, h6⟩ | ⟨h5, j, hj, h6⟩
        · exact Or.inl ⟨by simp [h1, h3, h5], by simp [copyEntries, h2, h4, hs.1, hnew, h6]⟩
        · exact Or.inr ⟨by simp [h1, h3, h5], j, hj,
            by simp [copyEntries, h2, h4, hs.1, hnew, h6]⟩
      · exact Or.inr ⟨by simp [h1, h3], j, hj, by simp [copyEntries, h2, h4, hs.1]⟩
    · exact Or.inr ⟨by simp [h1], j, hj, by simp [copyEntries, h2]⟩
end

theorem copyBasic_patchPanic (v : Val) (e : PatchError)
    (h : copyBasic v = .patchPanic e) :
    isSupportedKind v.typeOf.Kind = false ∧ e = .unhandledBasicKind v.typeOf.Kind := by
  unfold copyBasic at h
  split at h
  case h_17 k _ _ _ _ _ _ _ _ _ _ _ _ _ _ _ _ =>
    simp only [Outcome.patchPanic.injEq] at h
    refine ⟨?_, h.symm⟩
    cases hk : v.typeOf.Kind <;> simp_all [isSupportedKind]
  all_goals (split at h <;> simp at h)

theorem panicSpec_leaf (v : Val) (k : Kind) (e : PatchError) (ht : v.typeOf = .leaf k)
    (hall : Val.all Val.wellTyped v = v.wellTyped)
    (hsup : Val.all Val.supportedLeaf v = v.supportedLeaf)
    (hcrv : CopyReflectValue v = copyBasic v)
    (h : CopyReflectValue v = .patchPanic e) :
    PanicSpec e (Val.all Val.wellTyped v) (Val.all Val.supportedLeaf v) := by
  rw [hcrv] at h
  have h1 := copyBasic_patchPanic v e h
  refine ⟨⟨_, h1.1, h1.2⟩, fun hw => ?_⟩
  rw [hall] at hw
  rw [hsup]
  rcases copyBasic_leaf v k hw ht with h2 | h2
  · rw [h2.2] at h; cases h
  · exact h2.1

theorem PanicSpec.mono {e : PatchError} {wf supp wf1 supp1 : Bool}
    (h : PanicSpec e wf supp) (hw : wf1 = true → wf = true)
    (hs : supp = false → supp1 = false) : PanicSpec e wf1 supp1 :=
  ⟨h.1, fun h1 => hs (h.2 (hw h1))⟩

mutual
/-- A copy that panics with a `PatchError` met a leaf of an unsupported kind. -/
theorem copy_panic : ∀ (v : Val) (e : PatchError), CopyReflectValue v = .patchPanic e →
    PanicSpec e (Val.all Val.wellTyped v) (Val.all Val.supportedLeaf v)
  | .bool b, e, h => panicSpec_leaf _ .Bool e rfl (by simp [Val.all]) (by simp [Val.all])
      (by simp [CopyReflectValue]) h
  | .int k i, e, h => panicSpec_leaf _ k e rfl (by simp [Val.all]) (by simp [Val.all])
      (by simp [CopyReflectValue]) h
  | .uint k n, e, h => panicSpec_leaf _ k e rfl (by simp [Val.all]) (by simp [Val.all])
      (by simp [CopyReflectValue]) h
  | .float k x, e, h => panicSpec_leaf _ k e rfl (by simp [Val.all]) (by simp [Val.all])
      (by simp [CopyReflectValue]) h
  | .complex k re im, e, h => panicSpec_leaf _ k e rfl (by simp [Val.all])
      (by simp [Val.all]) (by simp [CopyReflectValue]) h
  | .str s, e, h => panicSpec_leaf _ .String e rfl (by simp [Val.all]) (by simp [Val.all])
      (by simp [CopyReflectValue]) h
  | .other k id, e, h => panicSpec_leaf _ k e rfl (by simp [Val.all]) (by simp [Val.all])
      (by simp [CopyReflectValue]) h
  | .struct fs, e, h => by
    rcases hc : copyFields fs with fs1 | e1 | _ <;> simp [CopyReflectValue, hc] at h
    subst h
    exact (copyFields_panic fs e1 hc).mono (by simp [Val.all]) (by intro h1; simp_all [Val.all])
  | .map kt et es, e, h => by
    rcases hc : copyEntries es [] with fs1 | e1 | _ <;> simp [CopyReflectValue, hc] at h
    subst h
    exact (copyEntries_panic es [] e1 hc).mono (by simp [Val.all]) (by intro h1; simp_all [Val.all])
  | .array et es, e, h => by
    rcases hc : copyElems es with fs1 | e1 | _ <;> simp [CopyReflectValue, hc] at h
    subst h
    exact (copyElems_panic es e1 hc).mono (by simp [Val.all]) (by intro h1; simp_all [Val.all])
  | .slice et es, e, h => by
    rcases hc : copyElems es with fs1 | e1 | _ <;> simp [CopyReflectValue, hc] at h
    subst h
    exact (copyElems_panic es e1 hc).mono (by simp [Val.all]) (by intro h1; simp_all [Val.all])
  | .ptr et none, e, h => by simp [CopyReflectValue] at h
  | .ptr et (some x), e, h => by
    rcases hc : CopyReflectValue x with fs1 | e1 | _ <;> simp [CopyReflectValue, hc] at h
    subst h
    exact (copy_panic x e1 hc).mono (by simp [Val.all]) (by intro h1; simp_all [Val.all])

/-- The same for the fields of a struct. -/
theorem copyFields_panic : ∀ (fs : List (String × Val)) (e : PatchError),
    copyFields fs = .patchPanic e →
    PanicSpec e (Val.allFields Val.wellTyped fs) (Val.allFields Val.supportedLeaf fs)
  | [], e, h => by simp [copyFields] at h
  | (name, v) :: fs, e, h => by
    rcases hc : CopyReflectValue v with v1 | e1 | _
    · rcases hf : copyFields fs with fs1 | e2 | _ <;>
        by_cases hx : isExported name = true <;> simp [copyFields, hc, hf, hx] at h
      subst h
      exact (copyFields_panic fs e2 hf).mono (by simp [Val.allFields])
        (by intro h1; simp_all [Val.allFields])
    · simp [copyFields, hc] at h
      subst h
      exact (copy_panic v e1 hc).mono (by intro h1; simp_all [Val.allFields])
        (by intro h1; simp_all [Val.allFields])
    · simp [copyFields, hc] at h

/-- The same for the elements of an array or a slice. -/
theorem copyElems_panic : ∀ (vs : List Val) (e : PatchError),
    copyElems vs = .patchPanic e →
    PanicSpec e (Val.allList Val.wellTyped vs) (Val.allList Val.supportedLeaf vs)
  | [], e, h => by simp [copyElems] at h
  | v :: vs, e, h => by
    rcases hc : CopyReflectValue v with v1 | e1 | _
    · rcases hf : copyElems vs with fs1 | e2 | _ <;> simp [copyElems, hc, hf] at h
      subst h
      exact (copyElems_panic vs e2 hf).mono (by simp [Val.allList])
        (by intro h1; simp_all [Val.allList])
    · simp [copyElems, hc] at h
      subst h
      exact (copy_panic v e1 hc).mono (by intro h1; simp_all [Val.allList])
        (by intro h1; simp_all [Val.allList])
    · simp [copyElems, hc] at h

/-- The same for the entries of a map. -/
theorem copyEntries_panic : ∀ (es acc : List (Val × Val)) (e : PatchError),
    copyEntries es acc = .patchPanic e →
    PanicSpec e (Val.allEntries Val.wellTyped es) (Val.allEntries Val.supportedLeaf es)
  | [], acc, e, h => by simp [copyEntries] at h
  | (k, v) :: es, acc, e, h => by
    rcases hc : CopyReflectValue k with k1 | e1 | _
    · by_cases hx : Val.goEq k k = true
      · rcases hv : CopyReflectValue v with v1 | e2 | _
        · simp only [copyEntries, hc, hx, hv, if_true] at h
          exact (copyEntries_panic es _ e h).mono (by simp [Val.allEntries])
            (by intro h1; simp_all [Val.allEntries])
        · simp [copyEntries, hc, hx, hv] at h
          subst h
          exact (copy_panic v e2 hv).mono
            (by intro h1; simp_all [Val.allEntries])
            (by intro h1; simp_all [Val.allEntries])
        · simp [copyEntries, hc, hx, hv] at h
      · simp [copyEntries, hc, hx] at h
    · simp [copyEntries, hc] at h
      subst h
      exact (copy_panic k e1 hc).mono
        (by intro h1; simp_all [Val.allEntries])
        (by intro h1; simp_all [Val.allEntries])
    · simp [copyEntries, hc] at h
end

theorem all_copyable (v : Val) (hwf : v.WF = true)
    (he : Val.all Val.exportedFields v = true) (hk : Val.all Val.keysSelfEqual v = true) :
    Val.all Val.copyable v = true := by
  have h : Val.copyable = fun v =>
      (fun v => Val.wellTyped v && Val.exportedFields v) v && Val.keysSelfEqual v := rfl
  rw [h, Val.all_and, Val.all_and]
  simp only [Val.WF] at hwf
  simp [hwf, he, hk]

/-! ## The claims on the copier -/

/-- Claim C13, as the code has it: a legal value built from the supported shapes, with
leaves of the supported kinds only, whose struct fields are all exported and whose map keys
all equal themselves, is copied with success, and the copy is the same value at every depth
(same fields, same entries, same elements, same pointer presence, and every leaf with its
kind, width and value). -/
theorem CopyReflectValue_preserves_content (v : Val) (hwf : v.WF = true)
    (hs : Val.all Val.supportedLeaf v = true)
    (he : Val.all Val.exportedFields v = true)
    (hk : Val.all Val.keysSelfEqual v = true) :
    CopyReflectValue v = .ok v ∧ CopyValueReflectively (some v) = .ok v := by
  have h : CopyReflectValue v = .ok v := by
    rcases copy_spec v (all_copyable v hwf he hk) with h1 | h1
    · exact h1.2
    · rw [hs] at h1; cases h1.1
  exact ⟨h, h⟩

/-- The copy of a concrete struct with a slice, a map and a present pointer is that
struct. -/
theorem CopyReflectValue_preserves_content_witness :
    CopyReflectValue copySample = .ok copySample
    ∧ CopyValueReflectively (some copySample) = .ok copySample :=
  CopyReflectValue_preserves_content copySample (by decide) (by decide) (by decide)
    (by decide)

/-- Claim C13 fails as stated: the struct `struct{ name string }{"x"}` is built from
the supported shapes only, and its copy does not succeed: `Set` on the field `name`, which
is not exported, panics in `reflect`. -/
theorem CopyReflectValue_unexported_field_panics :
    (Val.struct [("name", .str "x")]).WF = true
    ∧ Val.all Val.supportedLeaf (.struct [("name", .str "x")]) = true
    ∧ CopyReflectValue (.struct [("name", .str "x")]) = .reflectPanic :=
  ⟨rfl, rfl, rfl⟩

/-- Claim C14, as the code has it, for a legal value `v`.  A copy that fails with a
`PatchError` fails with the error that names a kind outside the supported scalar set, and
`v` has a leaf of an unsupported kind.  When the struct fields of `v` are exported and its
map keys equal themselves, a leaf of an unsupported kind makes the copy fail with such an
error.  When all leaves of `v` are supported the copy does not fail with a `PatchError`. -/
theorem CopyReflectValue_failure (v : Val) (hwf : v.WF = true) :
    (∀ e, CopyReflectValue v = .patchPanic e →
        (∃ k, isSupportedKind k = false ∧ e = .unhandledBasicKind k)
        ∧ Val.all Val.supportedLeaf v = false)
    ∧ (Val.all Val.exportedFields v = true → Val.all Val.keysSelfEqual v = true →
        Val.all Val.supportedLeaf v = false →
        ∃ k, isSupportedKind k = false
          ∧ CopyReflectValue v = .patchPanic (.unhandledBasicKind k))
    ∧ (Val.all Val.supportedLeaf v = true → ∀ e, CopyReflectValue v ≠ .patchPanic e) := by
  refine ⟨fun e h => ?_, fun he hk hs => ?_, fun hs e h => ?_⟩
  · have h1 := copy_panic v e h
    exact ⟨h1.1, h1.2 hwf⟩
  · rcases copy_spec v (all_copyable v hwf he hk) with h1 | h1
    · rw [hs] at h1; cases h1.1
    · exact h1.2
  · have h1 := (copy_panic v e h).2 hwf
    rw [hs] at h1; cases h1

/-- The copy of a struct with a channel field fails with the error that names the kind
`chan`, and the copy of a struct with supported leaves does not fail with a `PatchError`. -/
theorem CopyReflectValue_failure_witness :
    CopyReflectValue chanSample = .patchPanic (.unhandledBasicKind .Chan)
    ∧ Val.all Val.supportedLeaf chanSample = false
    ∧ (∃ k, isSupportedKind k = false
          ∧ CopyReflectValue chanSample = .patchPanic (.unhandledBasicKind k))
    ∧ CopyReflectValue copySample ≠ .patchPanic (.unhandledBasicKind .Chan) := by
  have h := CopyReflectValue_failure chanSample (by decide)
  have h2 := CopyReflectValue_failure copySample (by decide)
  exact ⟨rfl, (h.1 (.unhandledBasicKind .Chan) rfl).2,
    h.2.1 (by decide) (by decide) (by decide), h2.2.2 (by decide) _⟩

/-- Claim C14 fails as stated: the map `map[float64]int{NaN: 1}` is legal and all its
leaves are of a supported kind, and its copy fails: `MapIndex` of a NaN key is the zero
Value, on which `Type()` panics. -/
theorem CopyReflectValue_nan_key_panics :
    (Val.map (.leaf .Float64) tInt [(.float .Float64 nan64, .int .Int 1)]).WF = true
    ∧ Val.all Val.supportedLeaf
        (.map (.leaf .Float64) tInt [(.float .Float64 nan64, .int .Int 1)]) = true
    ∧ CopyReflectValue (.map (.leaf .Float64) tInt [(.float .Float64 nan64, .int .Int 1)])
        = .reflectPanic :=
  ⟨rfl, rfl, rfl⟩

/-! ## The loop of `Patch` -/

theorem applyChanges_eq_patchLoop (changes : List Change) (target : Val) :
    patchLoop specNavigator changes target =
      match applyChanges changes target with
      | (t1, none) => (t1, .completed)
      | (t1, some e) => (t1, .patchPanic e) := by
  induction changes generalizing target with
  | nil => simp [patchLoop, applyChanges]
  | cons c rest ih =>
    rcases hc : applyChange target c with e | t1
    · simp [patchLoop, applyChanges, specNavigator, hc]
    · simp [patchLoop, applyChanges, specNavigator, hc, ih]

/-- `Patch` as modelled with the navigator of `applyChange` is `Patch` over that
navigator. -/
theorem Patch_eq_PatchWith (cs : changeSet) (obj : Value) :
    changeSet.Patch cs obj = changeSet.PatchWith specNavigator cs obj := by
  rcases obj with _ | root
  · rfl
  · cases root <;> try rfl
    next t p =>
    cases p with
    | none => rfl
    | some target =>
      by_cases h : Ty.beq t cs.BaseType = true
      · simp only [changeSet.Patch, changeSet.PatchWith, h, Bool.not_true,
          Bool.false_eq_true, if_false]
        rw [applyChanges_eq_patchLoop]
        rcases applyChanges cs.Changes target with ⟨t1, _ | e⟩ <;> rfl
      · simp [changeSet.Patch, changeSet.PatchWith, h]

/-- When every round of `pre` completes, the loop over `pre ++ rest` goes on with `rest`
from the target that `pre` made. -/
theorem patchLoop_prefix (nav : Navigator) (rest : List Change) :
    ∀ (pre : List Change) (target : Val),
    (∀ i (h : i < pre.length),
      (nav (applyInOrder nav (pre.take i) target) pre[i]).2 = .completed) →
    patchLoop nav (pre ++ rest) target = patchLoop nav rest (applyInOrder nav pre target)
  | [], target, _ => by simp [applyInOrder]
  | c :: pre, target, h => by
    have h0 := h 0 (by simp)
    simp only [List.take_zero, applyInOrder, List.foldl_nil, List.getElem_cons_zero] at h0
    rcases hn : nav target c with ⟨t1, r⟩
    rw [hn] at h0
    simp only at h0
    subst h0
    have ih := patchLoop_prefix nav rest pre t1 (fun i hi => by
      have := h (i + 1) (by simpa using hi)
      simpa [applyInOrder, hn] using this)
    have hstep : patchLoop nav (c :: (pre ++ rest)) target = patchLoop nav (pre ++ rest) t1 := by
      simp only [patchLoop, hn]
    rw [List.cons_append, hstep, ih]
    simp [applyInOrder, hn]

/-! ## The claims on `Patch` -/

/-- C16, evaluation: `Patch` on the nil interface value panics, with every change set and
every navigator, where the claim promises the error `NotSettable`: `root.Type()`, an
argument of `NewPatchError`, panics on the zero Value and the deferred function raises that
panic again.  For every other target that is not a pointer to a settable location `Patch`
returns `NotSettable`, and for a pointer whose pointee type differs from `BaseType` it
returns `TypeMismatch`; the target is as before and the result does not depend on the
navigator. -/
theorem Patch_precondition :
    (∀ (nav : Navigator) (cs : changeSet),
        changeSet.PatchWith nav cs none = (none, .panicked))
    ∧ (∀ (nav : Navigator) (cs : changeSet) (root : Val),
        (∀ t x, root ≠ .ptr t (some x)) →
        changeSet.PatchWith nav cs (some root)
          = (some root, .returned (some (.notSettable root.typeOf))))
    ∧ (∀ (nav : Navigator) (cs : changeSet) (t : Ty) (x : Val),
        Ty.beq t cs.BaseType = false →
        changeSet.PatchWith nav cs (some (.ptr t (some x)))
          = (some (.ptr t (some x)),
              .returned (some (.typeMismatch (.ptr t) cs.BaseType)))) := by
  refine ⟨fun _ _ => rfl, fun nav cs root h => ?_, fun nav cs t x h => ?_⟩
  · cases root <;> try rfl
    next t p =>
    cases p with
    | none => rfl
    | some x => exact absurd rfl (h t x)
  · simp [changeSet.PatchWith, h]

/-- Example 3 of the specification and its neighbours: a target that is not a pointer, a
nil pointer, and a pointer to a string handed to a change set on `struct{ A int; B int }`. -/
theorem Patch_precondition_witness :
    changeSet.PatchWith panickingNavigator ⟨tAB, [setField 0 "A" 5]⟩ (some (valAB 1 2))
      = (some (valAB 1 2), .returned (some (.notSettable tAB)))
    ∧ changeSet.PatchWith specNavigator ⟨tAB, [setField 0 "A" 5]⟩ (some (.ptr tAB none))
      = (some (.ptr tAB none), .returned (some (.notSettable (.ptr tAB))))
    ∧ changeSet.PatchWith specNavigator ⟨tAB, [setField 0 "A" 5]⟩
        (some (.ptr tStr (some (.str "s"))))
      = (some (.ptr tStr (some (.str "s"))),
          .returned (some (.typeMismatch (.ptr tStr) tAB))) :=
  ⟨Patch_precondition.2.1 panickingNavigator ⟨tAB, [setField 0 "A" 5]⟩ (valAB 1 2)
      (fun _ _ h => by cases h),
    Patch_precondition.2.1 specNavigator ⟨tAB, [setField 0 "A" 5]⟩ (.ptr tAB none)
      (fun _ _ h => by cases h),
    Patch_precondition.2.2 specNavigator ⟨tAB, [setField 0 "A" 5]⟩ tStr (.str "s") rfl⟩

/-- Claim C17, as the code has it.  Let the rounds of the changes `pre` complete and let
`c` be the next change.  When the round of `c` panics with a `PatchError`, `Patch` returns
that error; when it panics with any other payload, `Patch` panics: the deferred function
raises the panic again. -/
theorem Patch_recovers_PatchError_only (nav : Navigator) (bt t : Ty) (target : Val)
    (pre post : List Change) (c : Change)
    (hty : Ty.beq t bt = true)
    (hpre : ∀ i (h : i < pre.length),
      (nav (applyInOrder nav (pre.take i) target) pre[i]).2 = .completed) :
    (∀ e, (nav (applyInOrder nav pre target) c).2 = .patchPanic e →
        (changeSet.PatchWith nav ⟨bt, pre ++ c :: post⟩ (some (.ptr t (some target)))).2
          = .returned (some e))
    ∧ ((nav (applyInOrder nav pre target) c).2 = .otherPanic →
        (changeSet.PatchWith nav ⟨bt, pre ++ c :: post⟩ (some (.ptr t (some target)))).2
          = .panicked) := by
  have hl := patchLoop_prefix nav (c :: post) pre target hpre
  constructor
  · intro e he
    rcases hn : nav (applyInOrder nav pre target) c with ⟨t1, r⟩
    rw [hn] at he
    simp only at he
    subst he
    simp [changeSet.PatchWith, hty, hl, patchLoop, hn]
  · intro he
    rcases hn : nav (applyInOrder nav pre target) c with ⟨t1, r⟩
    rw [hn] at he
    simp only at he
    subst he
    simp [changeSet.PatchWith, hty, hl, patchLoop, hn]

/-- A change set of three changes whose second has a path that leads nowhere: `Patch`
returns the `PatchError` of the navigator; and with a navigator that panics otherwise in
the second round, `Patch` panics. -/
theorem Patch_recovers_PatchError_only_witness :
    (changeSet.PatchWith specNavigator
        ⟨tAB, [setField 0 "A" 5] ++ deleteField 7 "Z" :: [setField 1 "B" 9]⟩
        (some (.ptr tAB (some (valAB 1 2))))).2 = .returned (some .navigation)
    ∧ (changeSet.PatchWith
        panicOnDelete
        ⟨tAB, [setField 0 "A" 5] ++ deleteField 7 "Z" :: [setField 1 "B" 9]⟩
        (some (.ptr tAB (some (valAB 1 2))))).2 = .panicked :=
  ⟨(Patch_recovers_PatchError_only specNavigator tAB tAB (valAB 1 2) [setField 0 "A" 5]
      [setField 1 "B" 9] (deleteField 7 "Z") rfl
      (fun i h => by
        have hi : i = 0 := by simpa using h
        subst hi; rfl)).1 .navigation rfl,
   (Patch_recovers_PatchError_only
      panicOnDelete
      tAB tAB (valAB 1 2) [setField 0 "A" 5]
      [setField 1 "B" 9] (deleteField 7 "Z") rfl
      (fun i h => by
        have hi : i = 0 := by simpa using h
        subst hi; rfl)).2 rfl⟩

/-- Claim C17 fails as stated: with a navigator whose round panics with a payload that is
not a `PatchError`, `Patch` does not return an error, it panics. -/
theorem Patch_other_panic_propagates :
    changeSet.PatchWith panickingNavigator ⟨tAB, [setField 0 "A" 5]⟩
        (some (.ptr tAB (some (valAB 1 2))))
      = (some (.ptr tAB (some (valAB 1 2))), .panicked) := by
  rfl

/-- Claim C18, as the code has it: `Patch` applies the changes in list order and undoes
nothing.  When the rounds of the changes `pre` complete and the round of the next change
`c` panics with the `PatchError` `e`, `Patch` returns `e` and the target is what that round
left of the target that the changes `pre` made in list order, whatever changes `post`
follow `c`; it is the target that `pre` made exactly when the failing round leaves the
target as it found it.  When every round completes, `Patch` returns nil and the target is
what all changes made of it in list order. -/
theorem Patch_in_order_not_atomic (nav : Navigator) (bt t : Ty) (target : Val)
    (hty : Ty.beq t bt = true) :
    (∀ (pre post : List Change) (c : Change) (e : PatchError),
        (∀ i (h : i < pre.length),
          (nav (applyInOrder nav (pre.take i) target) pre[i]).2 = .completed) →
        (nav (applyInOrder nav pre target) c).2 = .patchPanic e →
        changeSet.PatchWith nav ⟨bt, pre ++ c :: post⟩ (some (.ptr t (some target)))
            = (some (.ptr t (some (nav (applyInOrder nav pre target) c).1)),
                .returned (some e))
          ∧ ((nav (applyInOrder nav pre target) c).1 = applyInOrder nav pre target →
              changeSet.PatchWith nav ⟨bt, pre ++ c :: post⟩ (some (.ptr t (some target)))
                = (some (.ptr t (some (applyInOrder nav pre target))), .returned (some e))))
    ∧ (∀ (changes : List Change),
        (∀ i (h : i < changes.length),
          (nav (applyInOrder nav (changes.take i) target) changes[i]).2 = .completed) →
        changeSet.PatchWith nav ⟨bt, changes⟩ (some (.ptr t (some target)))
          = (some (.ptr t (some (applyInOrder nav changes target))), .returned none)) := by
  constructor
  · intro pre post c e hpre hc
    have hl := patchLoop_prefix nav (c :: post) pre target hpre
    rcases hn : nav (applyInOrder nav pre target) c with ⟨t1, r⟩
    rw [hn] at hc
    simp only at hc
    subst hc
    have h1 : changeSet.PatchWith nav ⟨bt, pre ++ c :: post⟩ (some (.ptr t (some target)))
        = (some (.ptr t (some t1)), .returned (some e)) := by
      simp [changeSet.PatchWith, hty, hl, patchLoop, hn]
    refine ⟨h1, fun h2 => ?_⟩
    simp only at h2
    rw [h1, h2]
  · intro changes hall
    have hl := patchLoop_prefix nav [] changes target hall
    rw [List.append_nil] at hl
    simp [changeSet.PatchWith, hty, hl, patchLoop]

/-- A change set of three changes whose second has a path that leads nowhere: the first
change stays applied, the third is not applied, and the error is returned; without the
second change both others are applied and nil is returned. -/
theorem Patch_in_order_not_atomic_witness :
    changeSet.PatchWith specNavigator
        ⟨tAB, [setField 0 "A" 5] ++ setField 7 "Z" 0 :: [setField 1 "B" 9]⟩
        (some (.ptr tAB (some (valAB 1 2))))
      = (some (.ptr tAB (some (valAB 5 2))), .returned (some .navigation))
    ∧ changeSet.PatchWith specNavigator ⟨tAB, [setField 0 "A" 5, setField 1 "B" 9]⟩
        (some (.ptr tAB (some (valAB 1 2))))
      = (some (.ptr tAB (some (valAB 5 9))), .returned none) :=
  ⟨((Patch_in_order_not_atomic specNavigator tAB tAB (valAB 1 2) rfl).1 [setField 0 "A" 5]
      [setField 1 "B" 9] (setField 7 "Z" 0) .navigation
      (fun i h => by
        have hi : i = 0 := by simpa using h
        subst hi; rfl) rfl).2 rfl,
   (Patch_in_order_not_atomic specNavigator tAB tAB (valAB 1 2) rfl).2
      [setField 0 "A" 5, setField 1 "B" 9]
      (fun i h => by
        have hi : i < 2 := by simpa using h
        interval_cases i <;> rfl)⟩

/-- Claim C18 fails as stated: with a navigator that creates the pointee of a nil pointer
on its way and then panics in `Set`, the failing second change leaves a trace: after
`Patch` the field `P` points to a fresh zero, while the state that the first change alone
reaches has `P` nil. -/
theorem Patch_failing_round_leaves_trace :
    changeSet.PatchWith tracingNavigator
        ⟨tAP, [setField 0 "A" 5, setPointeeInvalid, setField 0 "A" 9]⟩
        (some (.ptr tAP (some (valAP 1 none))))
      = (some (.ptr tAP (some (valAP 5 (some (.int .Int 0))))), .returned (some .navigation))
    ∧ applyInOrder tracingNavigator [setField 0 "A" 5] (valAP 1 none) = valAP 5 none :=
  ⟨rfl, rfl⟩

/-! ## Every recorded change names a location -/

/-- What holds at every node of a value holds at every node of what a path leads to. -/
theorem follow_all (P : Val → Bool) : ∀ (p : List PathElement) (v x : Val),
    Val.all P v = true → follow v p = some x → Val.all P x = true
  | [], v, x, hv, h => by
    simp only [follow, Option.some.injEq] at h
    exact h ▸ hv
  | .name f _ :: rest, v, x, hv, h => by
    cases v <;> simp only [follow, Val.Field] at h <;> try (simp at h)
    next fs =>
    try rw [List.get?_eq_getElem?] at h
    cases hg : fs[f]? with
    | none => rw [hg] at h; simp at h
    | some e =>
      rw [hg] at h
      simp only [Val.all, Bool.and_eq_true] at hv
      exact follow_all P rest e.2 x
        ((Val.allFields_iff P fs).mp hv.2 e (List.getElem?_mem hg)) (by simpa using h)
  | .key k :: rest, v, x, hv, h => by
    cases v <;> simp only [follow, Val.MapIndex] at h <;> try (simp at h)
    next kt et es =>
    cases hg : lookupKey k es with
    | none => simp [hg] at h
    | some y =>
      simp only [hg] at h
      simp only [Val.all, Bool.and_eq_true] at hv
      obtain ⟨e, he, rfl⟩ := lookupKey_mem k y es hg
      exact follow_all P rest e.2 x ((Val.allEntries_iff P es).mp hv.2 e he).2 h
  | .index i :: rest, v, x, hv, h => by
    cases v <;> simp only [follow, Val.Index] at h <;> try (simp at h)
    all_goals
      next et es =>
      try rw [List.get?_eq_getElem?] at h
      cases hg : es[i]? with
      | none => rw [hg] at h; simp at h
      | some y =>
        rw [hg] at h
        simp only [Val.all, Bool.and_eq_true] at hv
        exact follow_all P rest y x ((Val.allList_iff P es).mp hv.2 y (List.getElem?_mem hg))
          (by simpa using h)
  | .ptr :: rest, v, x, hv, h => by
    cases v <;> simp only [follow, Val.Elem] at h <;> try (simp at h)
    next et p =>
    cases p with
    | none => simp at h
    | some y =>
      simp only at h
      simp only [Val.all, Bool.and_eq_true] at hv
      exact follow_all P rest y x hv.2 h

/-- In a value without a nil pointer no path leads to a nil pointer. -/
theorem nilAt_of_notNilPtr (v : Val) (h : Val.all Val.notNilPtr v = true)
    (p : List PathElement) : nilAt v p = false := by
  unfold nilAt
  cases hf : follow v p with
  | none => rfl
  | some x =>
    have hx := Val.all_root _ _ (follow_all Val.notNilPtr p v x h hf)
    cases x <;> try rfl
    next et q => cases q <;> simp_all [Val.notNilPtr]

theorem comparable_child (a b x y : Val) (step : PathElement)
    (hfa : ∀ rel, follow a (step :: rel) = follow x rel)
    (hfb : ∀ rel, follow b (step :: rel) = follow y rel)
    (h : Comparable a b) : Comparable x y := by
  refine ⟨follow_all _ [step] a x h.1 (by rw [hfa]; rfl),
    follow_all _ [step] b y h.2.1 (by rw [hfb]; rfl), fun p hp => h.2.2 (step :: p) ?_⟩
  simpa [nilAt, hfa, hfb] using hp

theorem sound_child (a b x y : Val) (q : List PathElement) (step : PathElement) (c : Change)
    (hfa : ∀ rel, follow a (step :: rel) = follow x rel)
    (hfb : ∀ rel, follow b (step :: rel) = follow y rel)
    (h : Sound x y (q ++ [step]) c) : Sound a b q c := by
  obtain ⟨rel, hp, hv, hd⟩ := h
  refine ⟨step :: rel, by simp [hp], fun h1 => ?_, fun h1 => ?_⟩
  · rw [hfb]; exact hv h1
  · rw [hfa, hfb]; exact hd h1

theorem key_self_equal (kt et : Ty) (es : List (Val × Val)) (key : Val)
    (h : Val.all Val.keysSelfEqual (.map kt et es) = true) (hkey : key ∈ es.map Prod.fst) :
    ∃ x, lookupKey key es = some x := by
  have hr := Val.all_root _ _ h
  simp only [Val.keysSelfEqual, List.all_eq_true] at hr
  obtain ⟨e, he, rfl⟩ := List.mem_map.mp hkey
  exact lookupKey_of_mem e.1 e.1 e.2 es he (hr e he)

theorem mapKeyStep_sound
    (recur : Val → Val → changeSet → List PathElement → changeSet × Res)
    (kt et : Ty) (ea eb : List (Val × Val)) (q : List PathElement) (key : Val) (c : Change)
    (hrec : ∀ x y q, HasType x et → HasType y et → Comparable x y →
      ∀ c ∈ stepChanges (fun cs => recur x y cs q), Sound x y q c)
    (ha : (Val.map kt et ea).WF = true) (hb : (Val.map kt et eb).WF = true)
    (hcmp : Comparable (.map kt et ea) (.map kt et eb))
    (hkey : key ∈ ea.map Prod.fst)
    (hc : c ∈ stepChanges (mapKeyStep recur (.map kt et ea) (.map kt et eb) q key)) :
    Sound (.map kt et ea) (.map kt et eb) q c := by
  obtain ⟨x, hx⟩ := key_self_equal kt et ea key hcmp.1 hkey
  simp only [stepChanges, mapKeyStep, Val.MapIndex, hx] at hc
  cases h2 : lookupKey key eb with
  | none =>
    simp [h2, changeSet.AddPathDelete, extendContext, NewKeyElem] at hc
    refine ⟨[.key key], by simp [hc], fun h => by simp [hc] at h, fun _ => ?_⟩
    simp [follow, Val.MapIndex, hx, h2]
  | some y =>
    simp only [h2] at hc
    have hfa : ∀ rel, follow (.map kt et ea) (.key key :: rel) = follow x rel := by
      intro rel; simp [follow, Val.MapIndex, hx]
    have hfb : ∀ rel, follow (.map kt et eb) (.key key :: rel) = follow y rel := by
      intro rel; simp [follow, Val.MapIndex, h2]
    refine sound_child _ _ x y q (.key key) c hfa hfb ?_
    obtain ⟨e1, he1, hx1⟩ := lookupKey_mem key x ea hx
    obtain ⟨e2, he2, hy2⟩ := lookupKey_mem key y eb h2
    exact hrec x y _ (hx1 ▸ (WF_map kt et ea ha e1 he1).2) (hy2 ▸ (WF_map kt et eb hb e2 he2).2)
      (comparable_child _ _ x y (.key key) hfa hfb hcmp) c hc

theorem mapAddStep_sound (kt et : Ty) (ea eb : List (Val × Val)) (q : List PathElement)
    (key : Val) (c : Change)
    (hcmp : Comparable (.map kt et ea) (.map kt et eb))
    (hkey : key ∈ eb.map Prod.fst)
    (hc : c ∈ stepChanges (mapAddStep (.map kt et ea) (.map kt et eb) q key)) :
    Sound (.map kt et ea) (.map kt et eb) q c := by
  obtain ⟨y, hy⟩ := key_self_equal kt et eb key hcmp.2.1 hkey
  simp only [stepChanges, mapAddStep, Val.MapIndex, hy] at hc
  cases h1 : lookupKey key ea with
  | some x => simp [h1] at hc
  | none =>
    simp [h1, changeSet.AddPathValue, extendContext, NewKeyElem] at hc
    refine ⟨[.key key], by simp [hc], fun _ => ⟨y, by simp [hc], ?_⟩,
      fun h => by simp [hc] at h⟩
    simp [follow, Val.MapIndex, hy]

theorem indexStep_sound (recur : Val → Val → changeSet → List PathElement → changeSet × Res)
    (et : Ty) (a b : Val) (xs ys : List Val) (q : List PathElement) (i : Nat) (c : Change)
    (hrec : ∀ x y q, HasType x et → HasType y et → Comparable x y →
      ∀ c ∈ stepChanges (fun cs => recur x y cs q), Sound x y q c)
    (hai : ∀ i, a.Index i = xs.get? i) (hbi : ∀ i, b.Index i = ys.get? i)
    (hxs : ∀ e ∈ xs, HasType e et) (hys : ∀ e ∈ ys, HasType e et)
    (hcmp : Comparable a b)
    (hc : c ∈ stepChanges (indexStep recur a b q i)) : Sound a b q c := by
  simp only [stepChanges, indexStep] at hc
  cases h1 : a.Index i with
  | none => simp [h1] at hc
  | some x =>
    cases h2 : b.Index i with
    | none => simp [h1, h2] at hc
    | some y =>
      simp only [h1, h2] at hc
      have hfa : ∀ rel, follow a (.index i :: rel) = follow x rel := by
        intro rel; simp [follow, h1]
      have hfb : ∀ rel, follow b (.index i :: rel) = follow y rel := by
        intro rel; simp [follow, h2]
      refine sound_child a b x y q (.index i) c hfa hfb ?_
      have hx : x ∈ xs := by
        rw [hai, List.get?_eq_getElem?] at h1; exact List.getElem?_mem h1
      have hy : y ∈ ys := by
        rw [hbi, List.get?_eq_getElem?] at h2; exact List.getElem?_mem h2
      exact hrec x y _ (hxs x hx) (hys y hy) (comparable_child a b x y (.index i) hfa hfb hcmp)
        c hc

theorem sliceAddStep_sound (a b : Val) (q : List PathElement) (i : Nat) (c : Change)
    (hc : c ∈ stepChanges (sliceAddStep b q i)) : Sound a b q c := by
  simp only [stepChanges, sliceAddStep] at hc
  cases h2 : b.Index i with
  | none => simp [h2] at hc
  | some y =>
    simp [h2, changeSet.AddPathValue, extendContext, NewIndexElem] at hc
    exact ⟨[.index i], by simp [hc], fun _ => ⟨y, by simp [hc], by simp [follow, h2]⟩,
      fun h => by simp [hc] at h⟩

theorem sliceDeleteStep_sound (et : Ty) (xs ys : List Val) (q : List PathElement) (i : Nat)
    (c : Change) (h1 : i < xs.length) (h2 : ys.length ≤ i)
    (hc : c ∈ stepChanges (sliceDeleteStep q i)) :
    Sound (.slice et xs) (.slice et ys) q c := by
  simp [stepChanges, sliceDeleteStep, changeSet.AddPathDelete, extendContext, NewIndexElem] at hc
  refine ⟨[.index i], by simp [hc], fun h => by simp [hc] at h, fun _ => ⟨⟨xs[i], ?_⟩, ?_⟩⟩
  · simp [follow, Val.Index, List.getElem?_eq_getElem h1]
  · simp [follow, Val.Index, List.getElem?_eq_none h2]

mutual
/-- On two legal values of one type whose map keys equal themselves and that have no nil
pointer at a common location, every change that `doDiff` records names a location. -/
theorem doDiff_sound : ∀ (t : Ty) (a b : Val) (q : List PathElement),
    HasType a t → HasType b t → Comparable a b →
    ∀ c ∈ stepChanges (fun cs => doDiff t a b cs q), Sound a b q c
  | .leaf k, a, b, q, _, _, _, c, hc => by
    simp only [doDiff] at hc
    have h := compareBasicType_changes _ a b q c hc
    exact ⟨[], by simp [h], fun _ => ⟨b, by simp [h], by simp [follow]⟩,
      fun hd => by simp [h] at hd⟩
  | .struct fields, a, b, q, ha, hb, hcmp, c, hc => by
    obtain ⟨fsa, rfl, hfa⟩ := typeOf_struct_inv a fields ha.2
    obtain ⟨fsb, rfl, hfb⟩ := typeOf_struct_inv b fields hb.2
    simp only [doDiff] at hc
    exact doDiffFields_sound fields 0 fsa fsb q (WF_struct fsa ha.1) (WF_struct fsb hb.1)
      (by simpa using hfa) (by simpa using hfb) hcmp c hc
  | .map kt et, a, b, q, ha, hb, hcmp, c, hc => by
    obtain ⟨ea, rfl⟩ := typeOf_map_inv a kt et ha.2
    obtain ⟨eb, rfl⟩ := typeOf_map_inv b kt et hb.2
    simp only [doDiff, Val.MapKeys] at hc
    rcases stepChanges_seq
      (forEach_appends _ (ea.map Prod.fst) (fun key _ =>
        mapKeyStep_appends _ (fun x y q => doDiff_appends et x y q) _ _ q key))
      (forEach_appends _ (eb.map Prod.fst) (fun key _ => mapAddStep_appends _ _ q key))
      c hc with h | h
    · obtain ⟨key, hkey, hk⟩ := stepChanges_forEach _ (ea.map Prod.fst) (fun key _ =>
        mapKeyStep_appends _ (fun x y q => doDiff_appends et x y q) _ _ q key) c h
      exact mapKeyStep_sound _ kt et ea eb q key c
        (fun x y q hx hy hxy c hc => doDiff_sound et x y q hx hy hxy c hc)
        ha.1 hb.1 hcmp hkey hk
    · obtain ⟨key, hkey, hk⟩ := stepChanges_forEach _ (eb.map Prod.fst)
        (fun key _ => mapAddStep_appends _ _ q key) c h
      exact mapAddStep_sound kt et ea eb q key c hcmp hkey hk
  | .array len et, a, b, q, ha, hb, hcmp, c, hc => by
    obtain ⟨xs, rfl, _⟩ := typeOf_array_inv a len et ha.2
    obtain ⟨ys, rfl, _⟩ := typeOf_array_inv b len et hb.2
    simp only [doDiff] at hc
    obtain ⟨i, _, hi⟩ := stepChanges_forEach _ _ (fun i _ =>
      indexStep_appends _ (fun x y q => doDiff_appends et x y q) _ _ q i) c hc
    exact indexStep_sound _ et _ _ xs ys q i c
      (fun x y q hx hy hxy c hc => doDiff_sound et x y q hx hy hxy c hc)
      (fun _ => rfl) (fun _ => rfl) (WF_array et xs ha.1) (WF_array et ys hb.1) hcmp hi
  | .slice et, a, b, q, ha, hb, hcmp, c, hc => by
    obtain ⟨xs, rfl⟩ := typeOf_slice_inv a et ha.2
    obtain ⟨ys, rfl⟩ := typeOf_slice_inv b et hb.2
    simp only [doDiff, Val.Len] at hc
    have hidx : ∀ is : List Nat, ∀ c ∈ stepChanges
        (forEach (indexStep (doDiff et) (.slice et xs) (.slice et ys) q) is),
        Sound (.slice et xs) (.slice et ys) q c := by
      intro is c h
      obtain ⟨i, _, hi⟩ := stepChanges_forEach _ is (fun i _ =>
        indexStep_appends _ (fun x y q => doDiff_appends et x y q) _ _ q i) c h
      exact indexStep_sound _ et _ _ xs ys q i c
        (fun x y q hx hy hxy c hc => doDiff_sound et x y q hx hy hxy c hc)
        (fun _ => rfl) (fun _ => rfl) (WF_slice et xs ha.1) (WF_slice et ys hb.1) hcmp hi
    have happ : ∀ is : List Nat,
        Appends (forEach (indexStep (doDiff et) (.slice et xs) (.slice et ys) q) is) :=
      fun is => forEach_appends _ is (fun i _ =>
        indexStep_appends _ (fun x y q => doDiff_appends et x y q) _ _ q i)
    by_cases hne : (intMin xs.length ys.length != intMax xs.length ys.length) = true
    · by_cases hmax : (intMax xs.length ys.length == xs.length) = true
      · simp only [hne, hmax, if_true] at hc
        rcases stepChanges_seq (happ _)
          (forEach_appends _ _ (fun i _ => sliceDeleteStep_appends q i)) c hc with h | h
        · exact hidx _ c h
        · obtain ⟨i, hir, hi⟩ := stepChanges_forEach _ _
            (fun i _ => sliceDeleteStep_appends q i) c h
          have hr := List.mem_range'_1.mp hir
          simp only [intMin_eq, intMax_eq, bne_iff_ne, ne_eq, beq_iff_eq] at hne hmax hr
          exact sliceDeleteStep_sound et xs ys q i c (by omega) (by omega) hi
      · simp only [hne, hmax, if_true, if_false, Bool.false_eq_true] at hc
        rcases stepChanges_seq (happ _)
          (forEach_appends _ _ (fun i _ => sliceAddStep_appends _ q i)) c hc with h | h
        · exact hidx _ c h
        · obtain ⟨i, _, hi⟩ := stepChanges_forEach _ _
            (fun i _ => sliceAddStep_appends _ q i) c h
          exact sliceAddStep_sound _ _ q i c hi
    · simp only [hne, if_false, Bool.false_eq_true] at hc
      rcases stepChanges_seq (happ _) (appends_const .nil) c hc with h | h
      · exact hidx _ c h
      · simp [stepChanges] at h
  | .ptr et, a, b, q, ha, hb, hcmp, c, hc => by
    obtain ⟨pa, rfl⟩ := typeOf_ptr_inv a et ha.2
    obtain ⟨pb, rfl⟩ := typeOf_ptr_inv b et hb.2
    simp only [doDiff, stepChanges, Val.IsNil, Val.Elem] at hc
    cases pa with
    | none =>
      cases pb with
      | none => exact absurd ⟨by simp [nilAt, follow], by simp [nilAt, follow]⟩ (hcmp.2.2 [])
      | some y =>
        simp [changeSet.AddPathValue, extendContext, NewPtrElem] at hc
        exact ⟨[.ptr], by simp [hc], fun _ => ⟨y, by simp [hc], by simp [follow, Val.Elem]⟩,
          fun h => by simp [hc] at h⟩
    | some x =>
      cases pb with
      | none =>
        simp [changeSet.AddPathDelete, extendContext, NewPtrElem] at hc
        exact ⟨[.ptr], by simp [hc], fun h => by simp [hc] at h,
          fun _ => ⟨⟨x, by simp [follow, Val.Elem]⟩, by simp [follow, Val.Elem]⟩⟩
      | some y =>
        simp only [Option.isNone] at hc
        have hfa : ∀ rel, follow (.ptr et (some x)) (.ptr :: rel) = follow x rel := by
          intro rel; simp [follow, Val.Elem]
        have hfb : ∀ rel, follow (.ptr et (some y)) (.ptr :: rel) = follow y rel := by
          intro rel; simp [follow, Val.Elem]
        refine sound_child _ _ x y q .ptr c hfa hfb ?_
        exact doDiff_sound et x y _ (WF_ptr et x ha.1) (WF_ptr et y hb.1)
          (comparable_child _ _ x y .ptr hfa hfb hcmp) c hc
/-- The same for the loop over the fields of a struct. -/
theorem doDiffFields_sound : ∀ (rest : List (String × Ty)) (f : Nat)
    (fsa fsb : List (String × Val)) (q : List PathElement),
    (∀ x ∈ fsa, x.2.WF = true) → (∀ x ∈ fsb, x.2.WF = true) →
    (Val.typeOfFields fsa).drop f = rest → (Val.typeOfFields fsb).drop f = rest →
    Comparable (.struct fsa) (.struct fsb) →
    ∀ c ∈ stepChanges (fun cs => doDiffFields rest f (.struct fsa) (.struct fsb) cs q),
      Sound (.struct fsa) (.struct fsb) q c
  | [], f, fsa, fsb, q, _, _, _, _, _, c, hc => by
    simp [doDiffFields, stepChanges] at hc
  | (name, t) :: rest, f, fsa, fsb, q, ha, hb, hda, hdb, hcmp, c, hc => by
    obtain ⟨x, hx, hxm, hxt, hda1⟩ := fields_drop_cons fsa f name t rest hda
    obtain ⟨y, hy, hym, hyt, hdb1⟩ := fields_drop_cons fsb f name t rest hdb
    simp only [doDiffFields, hx, hy] at hc
    obtain ⟨ex, hex, hex2⟩ := List.mem_map.mp hxm
    obtain ⟨ey, hey, hey2⟩ := List.mem_map.mp hym
    rcases stepChanges_seq (doDiff_appends t x y _)
      (doDiffFields_appends rest (f + 1) _ _ q) c hc with h | h
    · have hfa : ∀ rel, follow (.struct fsa) (.name f name :: rel) = follow x rel := by
        intro rel; simp [follow, hx]
      have hfb : ∀ rel, follow (.struct fsb) (.name f name :: rel) = follow y rel := by
        intro rel; simp [follow, hy]
      refine sound_child _ _ x y q (.name f name) c hfa hfb ?_
      exact doDiff_sound t x y _ ⟨hex2 ▸ ha ex hex, hxt⟩ ⟨hey2 ▸ hb ey hey, hyt⟩
        (comparable_child _ _ x y (.name f name) hfa hfb hcmp) c h
    · exact doDiffFields_sound rest (f + 1) fsa fsb q ha hb hda1 hdb1 hcmp c h
end

/-! ## The claim on the recorded locations -/

/-- Claim C19, as the code has it: for legal `a` and `b` of one type whose map keys all
equal themselves and that have no nil pointer at a common location, `Diff(a, b)` returns a
change set, and every change in it names a location: the path of a `Value` change leads to
a location of `b` whose content is its `NewValue`, and the path of a `Deleted` change leads
to a location of `a` and to no location of `b`. -/
theorem Diff_changes_sound (a b : Val) (t : Ty) (ha : HasType a t) (hb : HasType b t)
    (hka : Val.all Val.keysSelfEqual a = true) (hkb : Val.all Val.keysSelfEqual b = true)
    (hnil : ∀ p, ¬ (nilAt a p = true ∧ nilAt b p = true)) :
    ∃ cs err, Diff (some a) (some b) = .returned (some cs) err
      ∧ ∀ c ∈ cs.Changes,
          (c.Deleted = false → ∃ x, c.NewValue = some x ∧ follow b c.Path = some x)
          ∧ (c.Deleted = true → (∃ x, follow a c.Path = some x) ∧ follow b c.Path = none) := by
  have hclean := doDiff_clean t a b { BaseType := t, Changes := [] } [] ha hb
  have hacc := doDiff_eq t a b { BaseType := t, Changes := [] } []
  have hsound : ∀ c ∈ diffChanges t a b [],
      (c.Deleted = false → ∃ x, c.NewValue = some x ∧ follow b c.Path = some x)
      ∧ (c.Deleted = true → (∃ x, follow a c.Path = some x) ∧ follow b c.Path = none) := by
    intro c hc
    rw [← stepChanges_doDiff] at hc
    obtain ⟨rel, hp, hv, hd⟩ := doDiff_sound t a b [] ha hb ⟨hka, hkb, hnil⟩ c hc
    simp only [List.nil_append] at hp
    rw [hp]
    exact ⟨hv, hd⟩
  have hta := ha.2
  have htb := hb.2
  simp only [Diff, hta, htb, Ty.beq_refl, Bool.not_true, Bool.false_eq_true, if_false]
  rw [hacc] at hclean ⊢
  simp only at hclean
  rcases hclean with h | ⟨k, h⟩
  · rw [h]
    exact ⟨_, none, rfl, by simpa using hsound⟩
  · rw [h]
    exact ⟨_, some (.unhandledKind k), rfl, by simpa using hsound⟩

/-- Two structs that differ in a map, a slice and a pointer: every change of their diff
names a location. -/
theorem Diff_changes_sound_witness :
    ∃ cs err, Diff (some soundSampleA) (some soundSampleB) = .returned (some cs) err
      ∧ ∀ c ∈ cs.Changes,
          (c.Deleted = false → ∃ x, c.NewValue = some x ∧ follow soundSampleB c.Path = some x)
          ∧ (c.Deleted = true →
              (∃ x, follow soundSampleA c.Path = some x) ∧ follow soundSampleB c.Path = none) :=
  Diff_changes_sound soundSampleA soundSampleB
    (.struct [("M", .map tStr tInt), ("S", .slice tInt), ("P", .ptr tInt)])
    ⟨by decide, rfl⟩ ⟨by decide, rfl⟩ (by decide) (by decide)
    (fun p h => by
      have h1 := nilAt_of_notNilPtr soundSampleA (by decide) p
      rw [h1] at h
      exact absurd h.1 (by decide))

/-- Claim C19 fails as stated: `Diff` of the map `map[float64]int{NaN: 1}` with itself
returns without error a `Deleted` change and a `Value` change at the key NaN; the path of
the `Deleted` change leads to no location of `a`, and the `Value` change holds the zero
Value, for `MapIndex` finds no entry under a NaN. -/
theorem Diff_nan_key_changes_without_location :
    nanKeyMap.WF = true
    ∧ Diff (some nanKeyMap) (some nanKeyMap)
      = .returned
          (some { BaseType := .map (.leaf .Float64) tInt,
                  Changes := [{ Path := [.key (.float .Float64 nan64)], NewValue := none,
                                Deleted := true },
                              { Path := [.key (.float .Float64 nan64)], NewValue := none,
                                Deleted := false }] }) none
    ∧ follow nanKeyMap [.key (.float .Float64 nan64)] = none :=
  ⟨rfl, rfl, rfl⟩

/-! ## A diff without changes -/

theorem seq_silent {f g : changeSet → changeSet × Res} (hf : Appends f) (hg : Appends g)
    (h : Silent (fun cs => match f cs with
      | (cs1, .nil) => g cs1
      | r => r)) : Silent f ∧ Silent g := by
  obtain ⟨hc, hr⟩ := h
  simp only [stepChanges] at hc
  simp only [stepRes] at hr
  rw [hf] at hc hr
  cases hrf : stepRes f with
  | nil =>
    rw [hrf] at hc hr
    simp only at hc hr
    rw [hg] at hc hr
    simp only [List.nil_append, List.append_eq_nil] at hc
    exact ⟨⟨hc.1, hrf⟩, ⟨hc.2, hr⟩⟩
  | error e => rw [hrf] at hr; simp at hr
  | panicked => rw [hrf] at hr; simp at hr

theorem forEach_silent {α : Type} (body : α → changeSet → changeSet × Res) :
    ∀ (xs : List α), (∀ x ∈ xs, Appends (body x)) → Silent (forEach body xs) →
      ∀ x ∈ xs, Silent (body x)
  | [], _, _, x, hx => by simp at hx
  | x :: xs, ha, h, z, hz => by
    have hx := ha x (List.mem_cons_self _ _)
    have hxs := forEach_appends body xs (fun y hy => ha y (List.mem_cons_of_mem _ hy))
    have hseq : forEach body (x :: xs) = (fun cs => match body x cs with
        | (cs1, .nil) => forEach body xs cs1
        | r => r) := by
      funext cs
      rcases hb : body x cs with ⟨cs1, r⟩
      cases r <;> simp [forEach, hb]
    rw [hseq] at h
    have h2 := seq_silent hx hxs h
    rcases List.mem_cons.mp hz with rfl | hz
    · exact h2.1
    · exact forEach_silent body xs (fun y hy => ha y (List.mem_cons_of_mem _ hy)) h2.2 z hz

theorem lookupKey_entry (k x : Val) : ∀ (es : List (Val × Val)),
    keysDistinct es = true → (k, x) ∈ es → Val.goEq k k = true → lookupKey k es = some x
  | [], _, h, _ => by simp at h
  | (k0, x0) :: es, hd, h, hk => by
    simp only [keysDistinct, Bool.and_eq_true, List.all_eq_true, Bool.not_eq_true'] at hd
    rcases List.mem_cons.mp h with h1 | h1
    · cases h1
      simp [lookupKey, hk]
    · have := hd.1 (k, x) h1
      simp only at this
      simp [lookupKey, this, lookupKey_entry k x es hd.2 h1 hk]

theorem structEqEntries_iff (eb : List (Val × Val)) : ∀ (es : List (Val × Val)),
    Val.structEqEntries es eb = true ↔
      ∀ e ∈ es, ∃ y, lookupKey e.1 eb = some y ∧ Val.structEq e.2 y = true
  | [] => by simp [Val.structEqEntries]
  | (k, x) :: es => by
    simp only [Val.structEqEntries, Bool.and_eq_true, structEqEntries_iff eb es,
      List.mem_cons, forall_eq_or_imp]
    constructor
    · rintro ⟨h1, h2⟩
      refine ⟨?_, h2⟩
      cases hl : lookupKey k eb with
      | none => simp [hl] at h1
      | some y => exact ⟨y, rfl, by simpa [hl] using h1⟩
    · rintro ⟨⟨y, hy, h1⟩, h2⟩
      exact ⟨by simp [hy, h1], h2⟩

theorem structEqList_iff : ∀ (xs ys : List Val),
    Val.structEqList xs ys = true ↔
      xs.length = ys.length ∧ ∀ (i : Nat) (x y : Val), xs[i]? = some x → ys[i]? = some y →
        Val.structEq x y = true
  | [], [] => by simp [Val.structEqList]
  | [], y :: ys => by simp [Val.structEqList]
  | x :: xs, [] => by simp [Val.structEqList]
  | x :: xs, y :: ys => by
    simp only [Val.structEqList, Bool.and_eq_true, structEqList_iff xs ys, List.length_cons,
      Nat.add_right_cancel_iff]
    constructor
    · rintro ⟨h1, h2, h3⟩
      refine ⟨h2, fun i a b ha hb => ?_⟩
      cases i with
      | zero => simp at ha hb; subst ha; subst hb; exact h1
      | succ i => simp at ha hb; exact h3 i a b ha hb
    · rintro ⟨h1, h2⟩
      exact ⟨h2 0 x y (by simp) (by simp), h1, fun i a b ha hb =>
        h2 (i + 1) a b (by simpa using ha) (by simpa using hb)⟩

mutual
theorem Val.all_mono (p r : Val → Bool) (h : ∀ v, p v = true → r v = true) :
    ∀ v : Val, Val.all p v = true → Val.all r v = true
  | .bool _, hv | .int _ _, hv | .uint _ _, hv | .float _ _, hv | .complex _ _ _, hv
  | .str _, hv | .other _ _, hv | .ptr _ none, hv => by
    simp only [Val.all] at hv ⊢; exact h _ hv
  | .struct fs, hv => by
    simp only [Val.all, Bool.and_eq_true] at hv ⊢
    exact ⟨h _ hv.1, Val.allFields_mono p r h fs hv.2⟩
  | .map kt et es, hv => by
    simp only [Val.all, Bool.and_eq_true] at hv ⊢
    exact ⟨h _ hv.1, Val.allEntries_mono p r h es hv.2⟩
  | .array et es, hv => by
    simp only [Val.all, Bool.and_eq_true] at hv ⊢
    exact ⟨h _ hv.1, Val.allList_mono p r h es hv.2⟩
  | .slice et es, hv => by
    simp only [Val.all, Bool.and_eq_true] at hv ⊢
    exact ⟨h _ hv.1, Val.allList_mono p r h es hv.2⟩
  | .ptr et (some x), hv => by
    simp only [Val.all, Bool.and_eq_true] at hv ⊢
    exact ⟨h _ hv.1, Val.all_mono p r h x hv.2⟩
theorem Val.allFields_mono (p r : Val → Bool) (h : ∀ v, p v = true → r v = true) :
    ∀ fs : List (String × Val), Val.allFields p fs = true → Val.allFields r fs = true
  | [], _ => by simp [Val.allFields]
  | (_, v) :: fs, hv => by
    simp only [Val.allFields, Bool.and_eq_true] at hv ⊢
    exact ⟨Val.all_mono p r h v hv.1, Val.allFields_mono p r h fs hv.2⟩
theorem Val.allList_mono (p r : Val → Bool) (h : ∀ v, p v = true → r v = true) :
    ∀ vs : List Val, Val.allList p vs = true → Val.allList r vs = true
  | [], _ => by simp [Val.allList]
  | v :: vs, hv => by
    simp only [Val.allList, Bool.and_eq_true] at hv ⊢
    exact ⟨Val.all_mono p r h v hv.1, Val.allList_mono p r h vs hv.2⟩
theorem Val.allEntries_mono (p r : Val → Bool) (h : ∀ v, p v = true → r v = true) :
    ∀ es : List (Val × Val), Val.allEntries p es = true → Val.allEntries r es = true
  | [], _ => by simp [Val.allEntries]
  | (k, v) :: es, hv => by
    simp only [Val.allEntries, Bool.and_eq_true] at hv ⊢
    exact ⟨⟨Val.all_mono p r h k hv.1.1, Val.all_mono p r h v hv.1.2⟩,
      Val.allEntries_mono p r h es hv.2⟩
end

theorem simpleLeaf_goEq_refl (v : Val) (h : Val.all Val.simpleLeaf v = true) :
    Val.goEq v v = true :=
  Val.goEq_refl v (Val.all_mono _ _ (fun v hv => by
    cases v <;> simp_all [Val.simpleLeaf, Val.notNaN]) v h)

theorem leaf_silent (k : Kind) (a b : Val) (q : List PathElement)
    (hwa : a.wellTyped = true) (hwb : b.wellTyped = true)
    (hta : a.typeOf = .leaf k) (htb : b.typeOf = .leaf k)
    (hla : a.simpleLeaf = true) (hlb : b.simpleLeaf = true)
    (h : Silent (fun cs => compareBasicType (.leaf k) a b cs q)) :
    Val.structEq a b = true := by
  obtain ⟨hc, -⟩ := h
  simp only [stepChanges] at hc
  cases a <;> simp only [Val.typeOf, reduceCtorEq] at hta <;>
    simp only [Val.simpleLeaf, Bool.false_eq_true] at hla <;>
    cases b <;> simp only [Val.typeOf, reduceCtorEq] at htb <;>
    simp only [Val.simpleLeaf, Bool.false_eq_true] at hlb <;>
    simp only [Ty.leaf.injEq] at hta htb <;> subst hta <;>
    (try subst htb) <;>
    (try (simp [Val.wellTyped, isIntKind, isUintKind] at hwa hwb; done))
  case bool.bool x y =>
    rw [compareBasicType_bool] at hc
    by_cases hxy : x = y
    · simp [Val.structEq, hxy]
    · simp [hxy, changeSet.AddPathValue] at hc
  case bool.str => cases htb
  case str.bool => cases htb
  case str.str x y =>
    rw [compareBasicType_str] at hc
    by_cases hxy : x = y
    · simp [Val.structEq, hxy]
    · simp [hxy, changeSet.AddPathValue] at hc
  case int.int x k y =>
    simp only [Val.wellTyped, Bool.and_eq_true] at hwa
    rw [compareBasicType_int k k k hwa.1.1] at hc
    by_cases hxy : x = y
    · simp [Val.structEq, hxy]
    · simp [hxy, changeSet.AddPathValue] at hc
  case uint.uint x k y =>
    simp only [Val.wellTyped, Bool.and_eq_true, Bool.or_eq_true] at hwa
    have hk : isUintKind k = true := by
      rcases hwa.1 with h1 | h1
      · exact h1
      · simp_all
    rw [compareBasicType_uint k k k hk] at hc
    by_cases hxy : x = y
    · simp [Val.structEq, hxy]
    · simp [hxy, changeSet.AddPathValue] at hc
  case int.uint x k y =>
    simp only [Val.wellTyped, Bool.and_eq_true, Bool.or_eq_true] at hwa hwb
    cases k <;> simp_all [isIntKind, isUintKind]
  case uint.int x k y =>
    simp only [Val.wellTyped, Bool.and_eq_true, Bool.or_eq_true] at hwa hwb
    cases k <;> simp_all [isIntKind, isUintKind]

theorem fields_drop_split (fs : List (String × Val)) (f : Nat) (name : String) (t : Ty)
    (rest : List (String × Ty)) (h : (Val.typeOfFields fs).drop f = (name, t) :: rest) :
    ∃ x, fs.drop f = (name, x) :: fs.drop (f + 1) ∧ (Val.struct fs).Field f = some x
      ∧ (name, x) ∈ fs ∧ x.typeOf = t ∧ (Val.typeOfFields fs).drop (f + 1) = rest := by
  rw [Val.typeOfFields_eq_map] at h ⊢
  have hlt : f < (fs.map (fun f => (f.1, f.2.typeOf))).length := by
    by_contra hge
    rw [List.drop_eq_nil_of_le (by omega)] at h
    exact absurd h (by simp)
  have hlt2 : f < fs.length := by simpa using hlt
  have hd := List.drop_eq_getElem_cons hlt
  rw [hd] at h
  simp only [List.getElem_map, List.cons.injEq, Prod.mk.injEq] at h
  have he : fs[f] = (name, (fs[f]).2) := Prod.ext h.1.1 rfl
  refine ⟨(fs[f]).2, ?_, ?_, ?_, h.1.2, h.2⟩
  · rw [List.drop_eq_getElem_cons hlt2, ← he]
  · simp [Val.Field, List.getElem?_eq_getElem hlt2]
  · rw [← he]; exact List.getElem_mem hlt2

theorem fields_drop_nil (fs : List (String × Val)) (f : Nat)
    (h : (Val.typeOfFields fs).drop f = []) : fs.drop f = [] := by
  rw [Val.typeOfFields_eq_map] at h
  have h1 := congrArg List.length h
  simp only [List.length_drop, List.length_map, List.length_nil] at h1
  exact List.drop_eq_nil_of_le (by omega)

theorem mapKeyStep_silent
    (recur : Val → Val → changeSet → List PathElement → changeSet × Res)
    (kt et : Ty) (ea eb : List (Val × Val)) (q : List PathElement) (key : Val)
    (h : Silent (mapKeyStep recur (.map kt et ea) (.map kt et eb) q key)) :
    ∃ x y, lookupKey key ea = some x ∧ lookupKey key eb = some y
      ∧ Silent (fun cs => recur x y cs (q ++ [.key key])) := by
  obtain ⟨hc, hr⟩ := h
  simp only [stepChanges, mapKeyStep, Val.MapIndex] at hc
  simp only [stepRes, mapKeyStep, Val.MapIndex] at hr
  cases h2 : lookupKey key eb with
  | none => simp [h2, changeSet.AddPathDelete] at hc
  | some y =>
    cases h1 : lookupKey key ea with
    | none => simp [h1, h2] at hr
    | some x =>
      simp only [h1, h2] at hc hr
      exact ⟨x, y, rfl, rfl, hc, hr⟩

theorem mapAddStep_silent (kt et : Ty) (ea eb : List (Val × Val)) (q : List PathElement)
    (key : Val) (h : Silent (mapAddStep (.map kt et ea) (.map kt et eb) q key)) :
    (lookupKey key ea).isSome = true := by
  obtain ⟨hc, -⟩ := h
  simp only [stepChanges, mapAddStep, Val.MapIndex] at hc
  cases h1 : lookupKey key ea with
  | some x => rfl
  | none => simp [h1, changeSet.AddPathValue] at hc

theorem indexStep_silent (recur : Val → Val → changeSet → List PathElement → changeSet × Res)
    (a b : Val) (q : List PathElement) (i : Nat) (h : Silent (indexStep recur a b q i)) :
    ∃ x y, a.Index i = some x ∧ b.Index i = some y
      ∧ Silent (fun cs => recur x y cs (q ++ [.index i])) := by
  obtain ⟨hc, hr⟩ := h
  simp only [stepChanges, indexStep] at hc
  simp only [stepRes, indexStep] at hr
  cases h1 : a.Index i with
  | none => simp [h1] at hr
  | some x =>
    cases h2 : b.Index i with
    | none => simp [h1, h2] at hr
    | some y =>
      simp only [h1, h2] at hc hr
      exact ⟨x, y, rfl, rfl, hc, hr⟩

theorem sliceAddStep_not_silent (b : Val) (q : List PathElement) (i : Nat) :
    ¬ Silent (sliceAddStep b q i) := by
  rintro ⟨hc, hr⟩
  simp only [stepChanges, sliceAddStep] at hc
  simp only [stepRes, sliceAddStep] at hr
  cases h2 : b.Index i with
  | none => simp [h2] at hr
  | some y => simp [h2, changeSet.AddPathValue] at hc

theorem sliceDeleteStep_not_silent (q : List PathElement) (i : Nat) :
    ¬ Silent (sliceDeleteStep q i) := by
  rintro ⟨hc, -⟩
  simp [stepChanges, sliceDeleteStep, changeSet.AddPathDelete] at hc

/-- The loop over the indexes below `n` was silent: the elements below `n` are pairwise
structurally equal, when the recursion tells so. -/
theorem index_loop_silent (et : Ty) (a b : Val) (xs ys : List Val) (q : List PathElement)
    (n : Nat)
    (hrec : ∀ x y q, HasType x et → HasType y et → Val.all Val.simpleLeaf x = true →
      Val.all Val.simpleLeaf y = true → Silent (fun cs => doDiff et x y cs q) →
      Val.structEq x y = true)
    (hai : ∀ i, a.Index i = xs.get? i) (hbi : ∀ i, b.Index i = ys.get? i)
    (hxs : ∀ e ∈ xs, HasType e et) (hys : ∀ e ∈ ys, HasType e et)
    (hlx : ∀ e ∈ xs, Val.all Val.simpleLeaf e = true)
    (hly : ∀ e ∈ ys, Val.all Val.simpleLeaf e = true)
    (h : Silent (forEach (indexStep (doDiff et) a b q) (List.range n))) :
    ∀ (i : Nat) (x y : Val), i < n → xs[i]? = some x → ys[i]? = some y →
      Val.structEq x y = true := by
  intro i x y hi hx hy
  have hs := forEach_silent _ (List.range n) (fun i _ =>
    indexStep_appends _ (fun x y q => doDiff_appends et x y q) a b q i) h i
    (List.mem_range.mpr hi)
  obtain ⟨x1, y1, h1, h2, h3⟩ := indexStep_silent _ a b q i hs
  rw [hai, List.get?_eq_getElem?, hx] at h1
  rw [hbi, List.get?_eq_getElem?, hy] at h2
  cases h1
  cases h2
  exact hrec x y _ (hxs x (List.getElem?_mem hx)) (hys y (List.getElem?_mem hy))
    (hlx x (List.getElem?_mem hx)) (hly y (List.getElem?_mem hy)) h3

mutual
/-- Two legal values of one type with string, integer and boolean leaves, on which `doDiff`
records no change and comes back with a nil error, are structurally equal. -/
theorem doDiff_silent : ∀ (t : Ty) (a b : Val) (q : List PathElement),
    HasType a t → HasType b t → Val.all Val.simpleLeaf a = true →
    Val.all Val.simpleLeaf b = true → Silent (fun cs => doDiff t a b cs q) →
    Val.structEq a b = true
  | .leaf k, a, b, q, ha, hb, hla, hlb, h => by
    simp only [doDiff] at h
    exact leaf_silent k a b q (Val.all_root _ _ ha.1) (Val.all_root _ _ hb.1) ha.2 hb.2
      (Val.all_root _ _ hla) (Val.all_root _ _ hlb) h
  | .struct fields, a, b, q, ha, hb, hla, hlb, h => by
    obtain ⟨fsa, rfl, hfa⟩ := typeOf_struct_inv a fields ha.2
    obtain ⟨fsb, rfl, hfb⟩ := typeOf_struct_inv b fields hb.2
    simp only [doDiff] at h
    simp only [Val.all, Bool.and_eq_true] at hla hlb
    have := doDiffFields_silent fields 0 fsa fsb q (WF_struct fsa ha.1) (WF_struct fsb hb.1)
      ((Val.allFields_iff _ fsa).mp hla.2) ((Val.allFields_iff _ fsb).mp hlb.2)
      (by simpa using hfa) (by simpa using hfb) h
    simpa [Val.structEq] using this
  | .map kt et, a, b, q, ha, hb, hla, hlb, h => by
    obtain ⟨ea, rfl⟩ := typeOf_map_inv a kt et ha.2
    obtain ⟨eb, rfl⟩ := typeOf_map_inv b kt et hb.2
    simp only [doDiff, Val.MapKeys] at h
    obtain ⟨h1, h2⟩ := seq_silent
      (forEach_appends _ (ea.map Prod.fst) (fun key _ =>
        mapKeyStep_appends _ (fun x y q => doDiff_appends et x y q) _ _ q key))
      (forEach_appends _ (eb.map Prod.fst) (fun key _ => mapAddStep_appends _ _ q key)) h
    have hs1 := forEach_silent _ (ea.map Prod.fst) (fun key _ =>
        mapKeyStep_appends _ (fun x y q => doDiff_appends et x y q) _ _ q key) h1
    have hs2 := forEach_silent _ (eb.map Prod.fst)
        (fun key _ => mapAddStep_appends _ _ q key) h2
    have hda : keysDistinct ea = true := by
      have := Val.all_root _ _ ha.1
      simp only [Val.wellTyped, Bool.and_eq_true] at this
      exact this.2
    simp only [Val.all, Bool.and_eq_true] at hla hlb
    have hea := (Val.allEntries_iff _ ea).mp hla.2
    have heb := (Val.allEntries_iff _ eb).mp hlb.2
    simp only [Val.structEq, Bool.and_eq_true, structEqEntries_iff, List.all_eq_true]
    refine ⟨fun e he => ?_, fun e he => ?_⟩
    · obtain ⟨x, y, hx, hy, hxy⟩ := mapKeyStep_silent _ kt et ea eb q e.1
        (hs1 e.1 (List.mem_map.mpr ⟨e, he, rfl⟩))
      rw [lookupKey_entry e.1 e.2 ea hda he (simpleLeaf_goEq_refl e.1 (hea e he).1)] at hx
      cases hx
      obtain ⟨e2, he2, hy2⟩ := lookupKey_mem e.1 y eb hy
      refine ⟨y, hy, ?_⟩
      exact doDiff_silent et e.2 y _ (WF_map kt et ea ha.1 e he).2
        (hy2 ▸ (WF_map kt et eb hb.1 e2 he2).2) (hea e he).2 (hy2 ▸ (heb e2 he2).2) hxy
    · exact mapAddStep_silent kt et ea eb q e.1 (hs2 e.1 (List.mem_map.mpr ⟨e, he, rfl⟩))
  | .array len et, a, b, q, ha, hb, hla, hlb, h => by
    obtain ⟨xs, rfl, hlx⟩ := typeOf_array_inv a len et ha.2
    obtain ⟨ys, rfl, hly⟩ := typeOf_array_inv b len et hb.2
    simp only [doDiff] at h
    simp only [Val.all, Bool.and_eq_true] at hla hlb
    have hel := index_loop_silent et (.array et xs) (.array et ys) xs ys q len
      (fun x y q hx hy hlx hly hs => doDiff_silent et x y q hx hy hlx hly hs)
      (fun _ => rfl) (fun _ => rfl) (WF_array et xs ha.1) (WF_array et ys hb.1)
      ((Val.allList_iff _ xs).mp hla.2) ((Val.allList_iff _ ys).mp hlb.2) h
    simp only [Val.structEq, structEqList_iff]
    refine ⟨by omega, fun i x y hx hy => hel i x y ?_ hx hy⟩
    have := (List.getElem?_eq_some_iff.mp hx).1
    omega
  | .slice et, a, b, q, ha, hb, hla, hlb, h => by
    obtain ⟨xs, rfl⟩ := typeOf_slice_inv a et ha.2
    obtain ⟨ys, rfl⟩ := typeOf_slice_inv b et hb.2
    simp only [doDiff, Val.Len] at h
    simp only [Val.all, Bool.and_eq_true] at hla hlb
    have happ : ∀ is : List Nat,
        Appends (forEach (indexStep (doDiff et) (.slice et xs) (.slice et ys) q) is) :=
      fun is => forEach_appends _ is (fun i _ =>
        indexStep_appends _ (fun x y q => doDiff_appends et x y q) _ _ q i)
    by_cases hne : (intMin xs.length ys.length != intMax xs.length ys.length) = true
    · exfalso
      have hpos : intMin xs.length ys.length ∈
          List.range' (intMin xs.length ys.length)
            (intMax xs.length ys.length - intMin xs.length ys.length) := by
        simp only [intMin_eq, intMax_eq, bne_iff_ne, ne_eq] at hne ⊢
        exact List.mem_range'_1.mpr ⟨le_refl _, by omega⟩
      by_cases hmax : (intMax xs.length ys.length == xs.length) = true
      · simp only [hne, hmax, if_true] at h
        obtain ⟨-, h2⟩ := seq_silent (happ _)
          (forEach_appends _ _ (fun i _ => sliceDeleteStep_appends q i)) h
        exact sliceDeleteStep_not_silent q _ (forEach_silent _ _
          (fun i _ => sliceDeleteStep_appends q i) h2 _ hpos)
      · simp only [hne, hmax, if_true, if_false, Bool.false_eq_true] at h
        obtain ⟨-, h2⟩ := seq_silent (happ _)
          (forEach_appends _ _ (fun i _ => sliceAddStep_appends _ q i)) h
        exact sliceAddStep_not_silent _ q _ (forEach_silent _ _
          (fun i _ => sliceAddStep_appends _ q i) h2 _ hpos)
    · simp only [hne, if_false, Bool.false_eq_true] at h
      obtain ⟨h1, -⟩ := seq_silent (happ _) (appends_const .nil) h
      have hel := index_loop_silent et (.slice et xs) (.slice et ys) xs ys q _
        (fun x y q hx hy hlx hly hs => doDiff_silent et x y q hx hy hlx hly hs)
        (fun _ => rfl) (fun _ => rfl) (WF_slice et xs ha.1) (WF_slice et ys hb.1)
        ((Val.allList_iff _ xs).mp hla.2) ((Val.allList_iff _ ys).mp hlb.2) h1
      simp only [intMin_eq, intMax_eq, bne_iff_ne, ne_eq, not_not] at hne hel
      simp only [Val.structEq, structEqList_iff]
      refine ⟨by omega, fun i x y hx hy => hel i x y ?_ hx hy⟩
      have := (List.getElem?_eq_some_iff.mp hx).1
      have := (List.getElem?_eq_some_iff.mp hy).1
      omega
  | .ptr et, a, b, q, ha, hb, hla, hlb, h => by
    obtain ⟨pa, rfl⟩ := typeOf_ptr_inv a et ha.2
    obtain ⟨pb, rfl⟩ := typeOf_ptr_inv b et hb.2
    obtain ⟨hc, hr⟩ := h
    simp only [doDiff, stepChanges, Val.IsNil, Val.Elem] at hc
    simp only [doDiff, stepRes, Val.IsNil, Val.Elem] at hr
    cases pa with
    | none => simp [changeSet.AddPathValue] at hc
    | some x =>
      cases pb with
      | none => simp [changeSet.AddPathDelete] at hc
      | some y =>
        simp only [Option.isNone] at hc hr
        simp only [Val.all, Bool.and_eq_true] at hla hlb
        simp only [Val.structEq]
        exact doDiff_silent et x y _ (WF_ptr et x ha.1) (WF_ptr et y hb.1) hla.2 hlb.2
          ⟨hc, hr⟩
/-- The same for the loop over the fields of a struct, from field number `f` on. -/
theorem doDiffFields_silent : ∀ (rest : List (String × Ty)) (f : Nat)
    (fsa fsb : List (String × Val)) (q : List PathElement),
    (∀ x ∈ fsa, x.2.WF = true) → (∀ x ∈ fsb, x.2.WF = true) →
    (∀ x ∈ fsa, Val.all Val.simpleLeaf x.2 = true) →
    (∀ x ∈ fsb, Val.all Val.simpleLeaf x.2 = true) →
    (Val.typeOfFields fsa).drop f = rest → (Val.typeOfFields fsb).drop f = rest →
    Silent (fun cs => doDiffFields rest f (.struct fsa) (.struct fsb) cs q) →
    Val.structEqFields (fsa.drop f) (fsb.drop f) = true
  | [], f, fsa, fsb, q, _, _, _, _, hda, hdb, _ => by
    rw [fields_drop_nil fsa f hda, fields_drop_nil fsb f hdb]
    simp [Val.structEqFields]
  | (name, t) :: rest, f, fsa, fsb, q, ha, hb, hla, hlb, hda, hdb, h => by
    obtain ⟨x, hxd, hx, hxm, hxt, hda1⟩ := fields_drop_split fsa f name t rest hda
    obtain ⟨y, hyd, hy, hym, hyt, hdb1⟩ := fields_drop_split fsb f name t rest hdb
    simp only [doDiffFields, hx, hy] at h
    obtain ⟨h1, h2⟩ := seq_silent (doDiff_appends t x y _)
      (doDiffFields_appends rest (f + 1) _ _ q) h
    have e1 := doDiff_silent t x y _ ⟨ha _ hxm, hxt⟩ ⟨hb _ hym, hyt⟩ (hla _ hxm) (hlb _ hym) h1
    have e2 := doDiffFields_silent rest (f + 1) fsa fsb q ha hb hla hlb hda1 hdb1 h2
    rw [hxd, hyd]
    simp [Val.structEqFields, e1, e2]
end

/-! ## The claim on the empty diff -/

/-- C20: for legal `a` and `b` of one type, built from the supported shapes with string,
integer and boolean leaves, a `Diff(a, b)` that returns no error and an empty `Changes`
list means that `a` and `b` are structurally equal: the same fields, the same map key sets,
the same slice lengths, the same pointer presence, and equal leaves at every location. -/
theorem Diff_empty_complete (a b : Val) (t : Ty) (ha : HasType a t) (hb : HasType b t)
    (hla : Val.all Val.simpleLeaf a = true) (hlb : Val.all Val.simpleLeaf b = true)
    (cs : changeSet) (hd : Diff (some a) (some b) = .returned (some cs) none)
    (he : cs.Changes = []) : Val.structEq a b = true := by
  have hacc := doDiff_eq t a b { BaseType := t, Changes := [] } []
  simp only [Diff, ha.2, hb.2, Ty.beq_refl, Bool.not_true, Bool.false_eq_true, if_false] at hd
  rw [hacc] at hd
  have hs : Silent (fun cs => doDiff t a b cs []) := by
    rw [Silent, stepChanges_doDiff, stepRes_doDiff]
    cases hr : diffRes t a b [] with
    | nil =>
      rw [hr] at hd
      simp only [DiffResult.returned.injEq, Option.some.injEq, and_true] at hd
      rw [← hd] at he
      exact ⟨by simpa using he, rfl⟩
    | error e => rw [hr] at hd; simp at hd
    | panicked => rw [hr] at hd; simp at hd
  exact doDiff_silent t a b [] ha hb hla hlb hs

/-- Two structs whose maps list the same entries in a different order: their diff is empty
and they are structurally equal. -/
theorem Diff_empty_complete_witness :
    Diff (some (equalSample [(.str "k1", .int .Int 1), (.str "k2", .int .Int 2)]))
        (some (equalSample [(.str "k2", .int .Int 2), (.str "k1", .int .Int 1)]))
      = .returned
          (some { BaseType := .struct [("M", .map tStr tInt), ("S", .slice tInt),
                    ("P", .ptr (.leaf .Bool)), ("N", tStr)],
                  Changes := [] }) none
    ∧ Val.structEq (equalSample [(.str "k1", .int .Int 1), (.str "k2", .int .Int 2)])
        (equalSample [(.str "k2", .int .Int 2), (.str "k1", .int .Int 1)]) = true :=
  ⟨rfl, Diff_empty_complete _ _
    (.struct [("M", .map tStr tInt), ("S", .slice tInt), ("P", .ptr (.leaf .Bool)),
      ("N", tStr)])
    ⟨by decide, rfl⟩ ⟨by decide, rfl⟩ (by decide) (by decide) _ rfl rfl⟩

end ObjDiff
